import Mathlib

/-!
The ingress state codec of `pkg/api/store/ingress/store.go`.

A shallow embedding of `formatData` and the functions it calls (`updateRule`,
`updateCerts`, `getPaths`, `getState`, `setState`, `getServiceID`, `getCertKey`),
followed by theorems about them.

Conventions of the embedding.

* A Go `string` is its sequence of bytes (`GoString`).
* A Go `interface{}` holding request data is a `Value`; a `map[string]interface{}`
  is an association list (`Obj`) that is read from the front and written in place.
* The resource representation is a tree: no map object is reachable through two
  different fields.  A Go function that mutates a map in place returns the
  mutated map, and the caller writes it back where it came from.
* A Go panic is the result `none`.
* Functions of the Go standard library and of `github.com/rancher/norman` are
  embedded after their documented behaviour, each under its Go name.
* `ref.Parse`, `ingress.GetStateKey` and `workload.SetPublicEnpointsFields` live in
  other packages of the repository; they are fields of `Env`, as is the order in
  which Go's `range` visits a map.
-/

namespace Ingress

/-! ## Bytes, strings and maps -/

/-- One Go `byte`. -/
abbrev Byte := Fin 256

/-- A Go `string`: a sequence of bytes. -/
abbrev GoString := List Byte

/-- The bytes of a string literal of the Go source (its UTF-8 encoding). -/
def lit (s : String) : GoString :=
  (s.toList.flatMap String.utf8EncodeChar).map fun b => b.val

/-- Reading `m[k]` from a Go map; `none` when the key is absent. -/
def mapGet {α : Type} : List (GoString × α) → GoString → Option α
  | [], _ => none
  | (k1, v) :: r, k => if k1 = k then some v else mapGet r k

/-- The assignment `m[k] = v` on a Go map. -/
def mapSet {α : Type} : List (GoString × α) → GoString → α → List (GoString × α)
  | [], k, v => [(k, v)]
  | (k1, v1) :: r, k, v => if k1 = k then (k, v) :: r else (k1, v1) :: mapSet r k v

/-- The statement `delete(m, k)` on a Go map. -/
def mapDelete {α : Type} (m : List (GoString × α)) (k : GoString) : List (GoString × α) :=
  m.filter fun e => decide (e.1 ≠ k)

/-- A Go `map[string]string`: the State Map. -/
abbrev StateMap := List (GoString × GoString)

/-- A value held in an `interface{}` of the resource representation.  `null` is the
nil interface.  `list` is a `[]interface{}`, and also a `[]map[string]interface{}`,
which every conversion the codec applies treats as a `[]interface{}` of maps.  `strs`
is a `[]string`, which `convert.ToStringSlice` hands back as it is while it converts a
`[]interface{}` element by element. -/
inductive Value where
  | null : Value
  | bool (b : Bool) : Value
  | int (n : Int) : Value
  | str (s : GoString) : Value
  | list (xs : List Value) : Value
  | strs (xs : List GoString) : Value
  | map (kvs : List (GoString × Value)) : Value

/-- A Go `map[string]interface{}`. -/
abbrev Obj := List (GoString × Value)

/-! ## `unicode/utf8` and `unicode` -/

/-- The width of the UTF-8 sequence that starts `s`, as `utf8.DecodeRune` finds it:
`1` for an ASCII byte, `2` to `4` for a well-formed multi-byte sequence (overlong
forms, surrogates and values above `U+10FFFF` are not well formed), and `0` where
`DecodeRune` reports `RuneError` of width 1. -/
def utf8Width : List Byte → Nat
  | [] => 0
  | b0 :: r =>
    let cont (b : Byte) (lo hi : Nat) : Bool := decide (lo ≤ b.val ∧ b.val ≤ hi)
    if b0.val < 0x80 then 1
    else if 0xC2 ≤ b0.val ∧ b0.val ≤ 0xDF then
      match r with
      | b1 :: _ => if cont b1 0x80 0xBF then 2 else 0
      | _ => 0
    else if 0xE0 ≤ b0.val ∧ b0.val ≤ 0xEF then
      match r with
      | b1 :: b2 :: _ =>
        if cont b1 (if b0.val = 0xE0 then 0xA0 else 0x80) (if b0.val = 0xED then 0x9F else 0xBF)
            && cont b2 0x80 0xBF then 3 else 0
      | _ => 0
    else if 0xF0 ≤ b0.val ∧ b0.val ≤ 0xF4 then
      match r with
      | b1 :: b2 :: b3 :: _ =>
        if cont b1 (if b0.val = 0xF0 then 0x90 else 0x80) (if b0.val = 0xF4 then 0x8F else 0xBF)
            && cont b2 0x80 0xBF && cont b3 0x80 0xBF then 4 else 0
      | _ => 0
    else 0

namespace utf8

/-- Go `utf8.RuneError`, the code point `U+FFFD`. -/
def RuneError : Nat := 0xFFFD

/-- Go `utf8.DecodeRuneInString(s)`: the first code point of `s` and its width in
bytes; `(RuneError, 0)` for the empty string and `(RuneError, 1)` where no well-formed
sequence starts. -/
def DecodeRuneInString (s : List Byte) : Nat × Nat :=
  match s with
  | [] => (RuneError, 0)
  | b0 :: r =>
    match utf8Width (b0 :: r), r with
    | 1, _ => (b0.val, 1)
    | 2, b1 :: _ => (b0.val % 32 * 64 + b1.val % 64, 2)
    | 3, b1 :: b2 :: _ => (b0.val % 16 * 4096 + b1.val % 64 * 64 + b2.val % 64, 3)
    | 4, b1 :: b2 :: b3 :: _ =>
      (b0.val % 8 * 262144 + b1.val % 64 * 4096 + b2.val % 64 * 64 + b3.val % 64, 4)
    | _, _ => (RuneError, 1)

/-- Go `utf8.RuneStart(b)`: `b` is not a continuation byte, `b&0xC0 != 0x80`. -/
def RuneStart (b : Byte) : Bool :=
  decide (b.val / 64 ≠ 2)

/-- The loop `for start--; start >= lim; start--` of `DecodeLastRuneInString`, which
stops at a byte that can start a sequence, and the assignment `start = 0` after it
when `start` is negative.  The argument is `start + 1` before the decrement. -/
def lastStart (s : List Byte) (lim : Nat) : Nat → Nat
  | 0 => 0
  | k + 1 => if k < lim then k else if RuneStart (s.getD k 0) then k else lastStart s lim k

/-- Go `utf8.DecodeLastRuneInString(s)`: the last code point of `s` and its width;
`(RuneError, 0)` for the empty string and `(RuneError, 1)` where the last bytes are
no well-formed sequence. -/
def DecodeLastRuneInString (s : List Byte) : Nat × Nat :=
  match s.reverse with
  | [] => (RuneError, 0)
  | c :: _ =>
    if c.val < 0x80 then (c.val, 1)
    else
      let start := lastStart s (s.length - 4) (s.length - 1)
      let d := DecodeRuneInString (s.drop start)
      if start + d.2 ≠ s.length then (RuneError, 1) else d

end utf8

namespace unicode

/-- Go `unicode.IsSpace(r)`: in Latin-1 the characters tab, line feed, vertical tab,
form feed, carriage return, space, `U+0085` and `U+00A0`; beyond it the rest of the
table `White_Space`. -/
def IsSpace (r : Nat) : Bool :=
  if r ≤ 0xFF then
    decide (r = 0x09 ∨ r = 0x0A ∨ r = 0x0B ∨ r = 0x0C ∨ r = 0x0D ∨ r = 0x20 ∨ r = 0x85 ∨ r = 0xA0)
  else
    decide (r = 0x1680 ∨ (0x2000 ≤ r ∧ r ≤ 0x200A) ∨ r = 0x2028 ∨ r = 0x2029 ∨ r = 0x202F ∨
      r = 0x205F ∨ r = 0x3000)

end unicode

/-! ## `strings` and `fmt` -/

namespace strings

/-- Go `strings.Split(s, sep)` for a separator of one byte, which is what both call
sites pass (":" and "/"): the pieces of `s` between the occurrences of `sep`, so
one piece more than there are occurrences. -/
def Split : GoString → Byte → List GoString
  | [], _ => [[]]
  | b :: r, sep =>
    if b = sep then [] :: Split r sep
    else
      match Split r sep with
      | piece :: pieces => (b :: piece) :: pieces
      | [] => [[b]]

/-- Go `strings.Join(elems, sep)` with `sep` one byte long. -/
def Join : List GoString → Byte → GoString
  | [], _ => []
  | [a], _ => a
  | a :: b :: r, sep => a ++ sep :: Join (b :: r) sep

/-- The loop of Go `indexFunc(s, f, truth)`, `for i, r := range s`: the index of the
first code point `r` of `s`, counted from `i`, with `f(r) == truth`; `none` is `-1`.
The fuel is the number of bytes still to read. -/
def indexFuncLoop (f : Nat → Bool) (truth : Bool) : Nat → List Byte → Nat → Option Nat
  | 0, _, _ => none
  | _ + 1, [], _ => none
  | n + 1, b :: r, i =>
    if f (utf8.DecodeRuneInString (b :: r)).1 = truth then some i
    else
      indexFuncLoop f truth n ((b :: r).drop (utf8.DecodeRuneInString (b :: r)).2)
        (i + (utf8.DecodeRuneInString (b :: r)).2)

/-- Go `indexFunc(s, f, truth)`. -/
def indexFunc (s : GoString) (f : Nat → Bool) (truth : Bool) : Option Nat :=
  indexFuncLoop f truth s.length s 0

/-- The loop of Go `lastIndexFunc(s, f, truth)`, `for i := len(s); i > 0;`: the index
of the last code point `r` of `s[0:i]` with `f(r) == truth`; `none` is `-1`. -/
def lastIndexFuncLoop (f : Nat → Bool) (truth : Bool) (s : GoString) : Nat → Nat → Option Nat
  | 0, _ => none
  | n + 1, i =>
    if i = 0 then none
    else if f (utf8.DecodeLastRuneInString (s.take i)).1 = truth then
      some (i - (utf8.DecodeLastRuneInString (s.take i)).2)
    else lastIndexFuncLoop f truth s n (i - (utf8.DecodeLastRuneInString (s.take i)).2)

/-- Go `lastIndexFunc(s, f, truth)`. -/
def lastIndexFunc (s : GoString) (f : Nat → Bool) (truth : Bool) : Option Nat :=
  lastIndexFuncLoop f truth s s.length s.length

/-- Go `strings.TrimLeftFunc(s, f)`: `s` without its leading code points that satisfy
`f`. -/
def TrimLeftFunc (s : GoString) (f : Nat → Bool) : GoString :=
  match indexFunc s f false with
  | none => []
  | some i => s.drop i

/-- Go `strings.TrimRightFunc(s, f)`: `s` without its trailing code points that
satisfy `f`. -/
def TrimRightFunc (s : GoString) (f : Nat → Bool) : GoString :=
  match lastIndexFunc s f false with
  | some i =>
    if 0x80 ≤ (s.getD i 0).val then s.take (i + (utf8.DecodeRuneInString (s.drop i)).2)
    else s.take (i + 1)
  | none => []

/-- Go `strings.TrimFunc(s, f)`. -/
def TrimFunc (s : GoString) (f : Nat → Bool) : GoString :=
  TrimRightFunc (TrimLeftFunc s f) f

/-- Go `strings.TrimSpace(s)`: `s` without leading and trailing white space, as
`unicode.IsSpace` defines it, that is `TrimFunc(s, unicode.IsSpace)` (later versions
of Go go through the ASCII bytes first, to the same result). -/
def TrimSpace (s : GoString) : GoString :=
  TrimFunc s unicode.IsSpace

end strings

/-- The byte `:`. -/
def colon : Byte := 58

/-- The byte `/`. -/
def slash : Byte := 47

namespace fmt

/-- Insertion of one rendered map entry into a list sorted by key. -/
def insertEntry (e : GoString × GoString) : List (GoString × GoString) → List (GoString × GoString)
  | [] => [e]
  | x :: r => if e.1 ≤ x.1 then e :: x :: r else x :: insertEntry e r

/-- Sorts rendered map entries by key. -/
def sortEntries : List (GoString × GoString) → List (GoString × GoString)
  | [] => []
  | e :: r => insertEntry e (sortEntries r)

/-- Joins rendered operands with one space. -/
def spaced : List GoString → GoString
  | [] => []
  | [a] => a
  | a :: b :: r => a ++ 32 :: spaced (b :: r)

mutual
/-- Go `fmt.Sprint(v)` of one operand with the default verb: a string prints as
itself, an integer in decimal, a slice as `[a b]`, a map as `map[k:v ...]` with its
keys sorted, the nil interface as `<nil>`. -/
def Sprint : Value → GoString
  | .null => lit "<nil>"
  | .bool true => lit "true"
  | .bool false => lit "false"
  | .int n => lit (toString n)
  | .str s => s
  | .list xs => lit "[" ++ spaced (sprintAll xs) ++ lit "]"
  | .strs xs => lit "[" ++ spaced xs ++ lit "]"
  | .map kvs =>
    lit "map[" ++ spaced ((sortEntries (sprintEntries kvs)).map fun e => e.1 ++ colon :: e.2)
      ++ lit "]"
/-- The renderings of the elements of a slice. -/
def sprintAll : List Value → List GoString
  | [] => []
  | x :: r => Sprint x :: sprintAll r
/-- The renderings of the entries of a map. -/
def sprintEntries : List (GoString × Value) → List (GoString × GoString)
  | [] => []
  | (k, v) :: r => (k, Sprint v) :: sprintEntries r
end

end fmt

/-! ## `norman/types/convert` and `norman/types/values` -/

namespace convert

/-- Go `convert.ToMapInterface(obj)`: the type assertion
`obj.(map[string]interface{})`; `none` is the nil map. -/
def ToMapInterface : Value → Option Obj
  | .map m => some m
  | _ => none

/-- Go `convert.Singular(value)`: the first element of a `[]string` or of a
`[]interface{}` (nil for an empty slice), any other value unchanged. -/
def Singular : Value → Value
  | .strs [] => .null
  | .strs (x :: _) => .str x
  | .list [] => .null
  | .list (x :: _) => x
  | v => v

/-- Go `convert.ToString(value)`: the empty string for nil, and
`strings.TrimSpace(fmt.Sprint(single))` for `single := Singular(value)` otherwise. -/
def ToString (value : Value) : GoString :=
  match Singular value with
  | .null => []
  | single => strings.TrimSpace (fmt.Sprint single)

/-- Go `convert.ToStringSlice(data)`: a `[]string` is handed back as it is, a
`[]interface{}` is converted element by element with `ToString`; anything else gives
the nil slice. -/
def ToStringSlice : Value → List GoString
  | .strs v => v
  | .list v => v.map ToString
  | _ => []

/-- Go `convert.ToMapSlice(obj)`: the maps of a slice whose elements are all maps;
the nil slice as soon as one element is not a map, or `obj` is not a slice. -/
def ToMapSlice : Value → List Obj
  | .list vs => if vs.all fun item => (ToMapInterface item).isSome
      then vs.filterMap ToMapInterface else []
  | _ => []

/-- Go `convert.IsEmpty(v)`: nil, `""`, `0` and `false` are empty, and so are an
empty map and an empty `[]interface{}`; nothing else is.  The codec calls it on a
string only, for which it is the test `v == ""`. -/
def IsEmpty : Value → Bool
  | .null => true
  | .str s => s.isEmpty
  | .int n => decide (n = 0)
  | .bool b => !b
  | .map m => m.isEmpty
  | .list xs => xs.isEmpty
  | .strs _ => false

end convert

namespace values

/-- Go `values.GetValue(data, keys...)`: descends through maps along `keys`; an
intermediate value that is not a map is read as the nil map. -/
def GetValue : Obj → List GoString → Option Value
  | _, [] => none
  | data, [key] => mapGet data key
  | data, key :: k2 :: rest =>
    match mapGet data key with
    | some (.map m) => GetValue m (k2 :: rest)
    | _ => GetValue [] (k2 :: rest)

/-- Go `values.PutValue(data, val, keys...)`: descends through maps along `keys`,
creating the missing ones, and assigns at the last key; it gives up, leaving `data`
as it is, at an intermediate value that is not a map. -/
def PutValue : Obj → Value → List GoString → Obj
  | data, _, [] => data
  | data, val, [key] => mapSet data key val
  | data, val, key :: k2 :: rest =>
    match mapGet data key with
    | some (.map newMap) => mapSet data key (.map (PutValue newMap val (k2 :: rest)))
    | some _ => data
    | none => mapSet data key (.map (PutValue [] val (k2 :: rest)))

end values

/-! ## `encoding/base64`, `crypto/md5`, `encoding/hex` -/

namespace base64

/-- The padding character `=`. -/
def padChar : Byte := 61

/-- The alphabet of `base64.URLEncoding`: `A`-`Z`, `a`-`z`, `0`-`9`, `-`, `_`. -/
def encodeURL (i : Nat) : Byte :=
  if i < 26 then Fin.ofNat (65 + i)
  else if i < 52 then Fin.ofNat (97 + (i - 26))
  else if i < 62 then Fin.ofNat (48 + (i - 52))
  else if i = 62 then 45
  else 95

/-- The decoding table of `base64.URLEncoding`: the six bits of a character of the
alphabet, `none` for any other byte. -/
def decodeURL (c : Byte) : Option Nat :=
  if 65 ≤ c.val ∧ c.val ≤ 90 then some (c.val - 65)
  else if 97 ≤ c.val ∧ c.val ≤ 122 then some (c.val - 97 + 26)
  else if 48 ≤ c.val ∧ c.val ≤ 57 then some (c.val - 48 + 52)
  else if c.val = 45 then some 62
  else if c.val = 95 then some 63
  else none

/-- Go `base64.URLEncoding.EncodeToString(src)`: three bytes become four characters,
and a last group of one or two bytes is padded with `=` to four characters. -/
def EncodeToString : List Byte → GoString
  | [] => []
  | [a] => [encodeURL (a.val / 4), encodeURL (a.val % 4 * 16), padChar, padChar]
  | [a, b] =>
    [encodeURL (a.val / 4), encodeURL (a.val % 4 * 16 + b.val / 16),
      encodeURL (b.val % 16 * 4), padChar]
  | a :: b :: c :: r =>
    encodeURL (a.val / 4) :: encodeURL (a.val % 4 * 16 + b.val / 16) ::
      encodeURL (b.val % 16 * 4 + c.val / 64) :: encodeURL (c.val % 64) :: EncodeToString r

/-- The decoding of the quanta of four characters, the input being free of line
breaks: a full quantum gives three bytes; padding is accepted only as `xx==` or
`xxx=` at the very end, and the bits of the last character that go beyond the data
are dropped (the encoding is not strict). -/
def decodeQuanta : List Byte → Option (List Byte)
  | [] => some []
  | c0 :: c1 :: c2 :: c3 :: rest =>
    match decodeURL c0, decodeURL c1 with
    | some d0, some d1 =>
      match decodeURL c2, decodeURL c3 with
      | some d2, some d3 =>
        match decodeQuanta rest with
        | some out =>
          some (Fin.ofNat (d0 * 4 + d1 / 16) :: Fin.ofNat (d1 % 16 * 16 + d2 / 4) ::
            Fin.ofNat (d2 % 4 * 64 + d3) :: out)
        | none => none
      | some d2, none =>
        if c3 = padChar ∧ rest = [] then
          some [Fin.ofNat (d0 * 4 + d1 / 16), Fin.ofNat (d1 % 16 * 16 + d2 / 4)]
        else none
      | none, _ =>
        if c2 = padChar ∧ c3 = padChar ∧ rest = [] then some [Fin.ofNat (d0 * 4 + d1 / 16)]
        else none
    | _, _ => none
  | _ => none

/-- Go `base64.URLEncoding.DecodeString(s)`: carriage returns and line feeds are
ignored wherever they stand, the rest is decoded quantum by quantum; `none` is the
`CorruptInputError`. -/
def DecodeString (s : GoString) : Option (List Byte) :=
  decodeQuanta (s.filter fun c => decide (c ≠ 13 ∧ c ≠ 10))

end base64

namespace md5

/-- The per-round shift amounts of MD5. -/
def shifts : List Nat :=
  [7, 12, 17, 22, 7, 12, 17, 22, 7, 12, 17, 22, 7, 12, 17, 22,
   5, 9, 14, 20, 5, 9, 14, 20, 5, 9, 14, 20, 5, 9, 14, 20,
   4, 11, 16, 23, 4, 11, 16, 23, 4, 11, 16, 23, 4, 11, 16, 23,
   6, 10, 15, 21, 6, 10, 15, 21, 6, 10, 15, 21, 6, 10, 15, 21]

/-- The sine table of MD5: `floor (2^32 * |sin (i + 1)|)`. -/
def table : List Nat :=
  [0xd76aa478, 0xe8c7b756, 0x242070db, 0xc1bdceee, 0xf57c0faf, 0x4787c62a, 0xa8304613,
   0xfd469501, 0x698098d8, 0x8b44f7af, 0xffff5bb1, 0x895cd7be, 0x6b901122, 0xfd987193,
   0xa679438e, 0x49b40821, 0xf61e2562, 0xc040b340, 0x265e5a51, 0xe9b6c7aa, 0xd62f105d,
   0x02441453, 0xd8a1e681, 0xe7d3fbc8, 0x21e1cde6, 0xc33707d6, 0xf4d50d87, 0x455a14ed,
   0xa9e3e905, 0xfcefa3f8, 0x676f02d9, 0x8d2a4c8a, 0xfffa3942, 0x8771f681, 0x6d9d6122,
   0xfde5380c, 0xa4beea44, 0x4bdecfa9, 0xf6bb4b60, 0xbebfbc70, 0x289b7ec6, 0xeaa127fa,
   0xd4ef3085, 0x04881d05, 0xd9d4d039, 0xe6db99e5, 0x1fa27cf8, 0xc4ac5665, 0xf4292244,
   0x432aff97, 0xab9423a7, 0xfc93a039, 0x655b59c3, 0x8f0ccc92, 0xffeff47d, 0x85845dd1,
   0x6fa87e4f, 0xfe2ce6e0, 0xa3014314, 0x4e0811a1, 0xf7537e82, 0xbd3af235, 0x2ad7d2bb,
   0xeb86d391]

/-- The four bytes of a 32-bit word, least significant first. -/
def wordBytes (w : Nat) : List Byte :=
  [Fin.ofNat w, Fin.ofNat (w / 2 ^ 8), Fin.ofNat (w / 2 ^ 16), Fin.ofNat (w / 2 ^ 24)]

/-- The message followed by the MD5 padding: the byte `0x80`, zero bytes up to 56
modulo 64, and the bit length of the message modulo `2^64`, least significant byte
first. -/
def pad (msg : List Byte) : List Byte :=
  msg ++ (128 : Byte) :: List.replicate ((119 - msg.length % 64) % 64) (0 : Byte)
    ++ wordBytes (msg.length * 8 % 2 ^ 32) ++ wordBytes (msg.length * 8 / 2 ^ 32 % 2 ^ 32)

/-- The sixteen 32-bit words of a block of 64 bytes, each least significant byte
first. -/
def blockWords : Nat → List Byte → List Nat
  | 0, _ => []
  | n + 1, b0 :: b1 :: b2 :: b3 :: r =>
    (b0.val + b1.val * 2 ^ 8 + b2.val * 2 ^ 16 + b3.val * 2 ^ 24) :: blockWords n r
  | _ + 1, _ => []

/-- Rotation of a 32-bit word to the left. -/
def rotl (x s : Nat) : Nat :=
  (x * 2 ^ s % 2 ^ 32) ||| (x / 2 ^ (32 - s))

/-- One of the 64 steps of the MD5 compression function. -/
def step (m : List Nat) (st : Nat × Nat × Nat × Nat) (i : Nat) : Nat × Nat × Nat × Nat :=
  let (a, b, c, d) := st
  let nb := 0xffffffff - b
  let nd := 0xffffffff - d
  let f :=
    if i < 16 then (b &&& c) ||| (nb &&& d)
    else if i < 32 then (d &&& b) ||| (nd &&& c)
    else if i < 48 then b ^^^ c ^^^ d
    else c ^^^ (b ||| nd)
  let g :=
    if i < 16 then i
    else if i < 32 then (5 * i + 1) % 16
    else if i < 48 then (3 * i + 5) % 16
    else 7 * i % 16
  let x := (f + a + table.getD i 0 + m.getD g 0) % 2 ^ 32
  (d, (b + rotl x (shifts.getD i 0)) % 2 ^ 32, b, c)

/-- The compression of one block into the running state. -/
def compress (st : Nat × Nat × Nat × Nat) (m : List Nat) : Nat × Nat × Nat × Nat :=
  let (a, b, c, d) := st
  let (a1, b1, c1, d1) := (List.range 64).foldl (step m) st
  ((a + a1) % 2 ^ 32, (b + b1) % 2 ^ 32, (c + c1) % 2 ^ 32, (d + d1) % 2 ^ 32)

/-- The running state after all the blocks of a padded message; the fuel is the
number of blocks. -/
def blocks : Nat → List Byte → Nat × Nat × Nat × Nat → Nat × Nat × Nat × Nat
  | 0, _, st => st
  | n + 1, bytes, st => blocks n (bytes.drop 64) (compress st (blockWords 16 bytes))

/-- Go `md5.Sum(data)`: the 16 bytes of the MD5 digest. -/
def Sum (data : List Byte) : List Byte :=
  let (a, b, c, d) :=
    blocks ((pad data).length / 64) (pad data) (0x67452301, 0xefcdab89, 0x98badcfe, 0x10325476)
  wordBytes a ++ wordBytes b ++ wordBytes c ++ wordBytes d

end md5

namespace hex

/-- A lowercase hexadecimal digit. -/
def digit (n : Nat) : Byte :=
  if n < 10 then Fin.ofNat (48 + n) else Fin.ofNat (87 + n)

/-- Go `hex.EncodeToString(src)`: two lowercase hexadecimal digits per byte. -/
def EncodeToString : List Byte → GoString
  | [] => []
  | b :: r => digit (b.val / 16) :: digit (b.val % 16) :: EncodeToString r

end hex

/-! ## `encoding/json` for a `map[string]string` -/

namespace json

/-- Go `utf8.EncodeRune`: the UTF-8 encoding of a code point; a surrogate or a value
above `U+10FFFF` is encoded as `U+FFFD`. -/
def encodeRune (r : Nat) : List Byte :=
  if r < 0x80 then [Fin.ofNat r]
  else if r < 0x800 then [Fin.ofNat (0xC0 + r / 64), Fin.ofNat (0x80 + r % 64)]
  else if (0xD800 ≤ r ∧ r < 0xE000) ∨ 0x10FFFF < r then [0xEF, 0xBF, 0xBD]
  else if r < 0x10000 then
    [Fin.ofNat (0xE0 + r / 4096), Fin.ofNat (0x80 + r / 64 % 64), Fin.ofNat (0x80 + r % 64)]
  else
    [Fin.ofNat (0xF0 + r / 262144), Fin.ofNat (0x80 + r / 4096 % 64),
      Fin.ofNat (0x80 + r / 64 % 64), Fin.ofNat (0x80 + r % 64)]

/-- The bytes a string literal is written with for one ASCII byte of the string, with
HTML escaping on (the default of `json.Marshal`): `"` and `\` get a backslash, line
feed, carriage return and tab are `\n`, `\r`, `\t`, the other control bytes and `<`,
`>`, `&` are `\u00xx`, every other ASCII byte stands for itself. -/
def escapeByte (b : Byte) : GoString :=
  if b.val = 0x22 ∨ b.val = 0x5C then [0x5C, b]
  else if b.val = 0x0A then [0x5C, 0x6E]
  else if b.val = 0x0D then [0x5C, 0x72]
  else if b.val = 0x09 then [0x5C, 0x74]
  else if b.val < 0x20 ∨ b.val = 0x3C ∨ b.val = 0x3E ∨ b.val = 0x26 then
    [0x5C, 0x75, 0x30, 0x30, hex.digit (b.val / 16), hex.digit (b.val % 16)]
  else [b]

/-- The text between the quotes of the string literal `json.Marshal` writes for `s`:
ASCII bytes through `escapeByte`, a byte that starts no well-formed UTF-8 sequence as
the escape `\ufffd`, the line and paragraph separators `U+2028` and `U+2029` as the
escapes `\u2028` and `\u2029`, every other multi-byte sequence as it is.  The fuel
is the number of bytes still to encode. -/
def encodeBody : Nat → List Byte → GoString
  | 0, _ => []
  | _ + 1, [] => []
  | n + 1, b :: r =>
    if b.val < 0x80 then escapeByte b ++ encodeBody n r
    else
      match utf8Width (b :: r) with
      | 0 => lit "\\ufffd" ++ encodeBody n r
      | w + 1 =>
        if (b :: r).take 3 = [0xE2, 0x80, 0xA8] then lit "\\u2028" ++ encodeBody n (r.drop 2)
        else if (b :: r).take 3 = [0xE2, 0x80, 0xA9] then lit "\\u2029" ++ encodeBody n (r.drop 2)
        else (b :: r).take (w + 1) ++ encodeBody n (r.drop w)

/-- The string literal `json.Marshal` writes for the Go string `s`. -/
def encodeString (s : GoString) : GoString :=
  0x22 :: encodeBody s.length s ++ [0x22]

/-- Insertion of one entry into a list of entries sorted by key. -/
def insertByKey (e : GoString × GoString) : StateMap → StateMap
  | [] => [e]
  | x :: r => if e.1 ≤ x.1 then e :: x :: r else x :: insertByKey e r

/-- The entries of a map in the order of their keys. -/
def sortByKey : StateMap → StateMap
  | [] => []
  | e :: r => insertByKey e (sortByKey r)

/-- The members of the object, each `"key":"value"`, separated by commas. -/
def encodeMembers : StateMap → GoString
  | [] => []
  | [e] => encodeString e.1 ++ 0x3A :: encodeString e.2
  | e :: x :: r => encodeString e.1 ++ 0x3A :: encodeString e.2 ++ 0x2C :: encodeMembers (x :: r)

/-- Go `json.Marshal(stateMap)` for a `map[string]string`: a JSON object with the
keys in sorted order.  For this type `Marshal` returns no error. -/
def Marshal (stateMap : StateMap) : GoString :=
  0x7B :: encodeMembers (sortByKey stateMap) ++ [0x7D]

/-- A parsed JSON text.  The value of a number is not kept: decoding into a
`map[string]string` never reads it. -/
inductive Json where
  | null : Json
  | bool (b : Bool) : Json
  | number : Json
  | string (s : GoString) : Json
  | array (xs : List Json) : Json
  | object (members : List (GoString × Json)) : Json

/-- JSON white space: space, tab, carriage return, line feed. -/
def isSpace (c : Byte) : Bool :=
  decide (c.val = 0x20 ∨ c.val = 0x09 ∨ c.val = 0x0D ∨ c.val = 0x0A)

/-- Drops leading white space. -/
def skipSpace : List Byte → List Byte
  | [] => []
  | c :: r => if isSpace c then skipSpace r else c :: r

/-- The value of a hexadecimal digit of either case. -/
def hexVal (c : Byte) : Option Nat :=
  if 0x30 ≤ c.val ∧ c.val ≤ 0x39 then some (c.val - 0x30)
  else if 0x61 ≤ c.val ∧ c.val ≤ 0x66 then some (c.val - 0x61 + 10)
  else if 0x41 ≤ c.val ∧ c.val ≤ 0x46 then some (c.val - 0x41 + 10)
  else none

/-- Four hexadecimal digits at the head of `s`: their value and the rest. -/
def hex4 : List Byte → Option (Nat × List Byte)
  | a :: b :: c :: d :: r =>
    match hexVal a, hexVal b, hexVal c, hexVal d with
    | some x, some y, some z, some w => some (x * 4096 + y * 256 + z * 16 + w, r)
    | _, _, _, _ => none
  | _ => none

/-- The byte a one-letter escape stands for (`\"`, `\\`, `\/`, `\b`, `\f`, `\n`, `\r`,
`\t`). -/
def unescape (c : Byte) : Option Byte :=
  if c.val = 0x22 ∨ c.val = 0x5C ∨ c.val = 0x2F then some c
  else if c.val = 0x62 then some 0x08
  else if c.val = 0x66 then some 0x0C
  else if c.val = 0x6E then some 0x0A
  else if c.val = 0x72 then some 0x0D
  else if c.val = 0x74 then some 0x09
  else none

/-- Puts decoded bytes in front of the string decoded from the rest. -/
def consBytes (bs : List Byte) : Option (GoString × List Byte) → Option (GoString × List Byte)
  | some (s, r) => some (bs ++ s, r)
  | none => none

/-- Reads a string literal from just after its opening quote: the Go string it
denotes and the input after its closing quote.  A `\u` escape of a surrogate that is
not followed by its matching half, and a byte that starts no well-formed UTF-8
sequence, decode as `U+FFFD`; a raw control byte or an unknown escape is a syntax
error.  The fuel is the number of input bytes plus one. -/
def parseString : Nat → List Byte → Option (GoString × List Byte)
  | 0, _ => none
  | _ + 1, [] => none
  | n + 1, c :: r =>
    if c.val = 0x22 then some ([], r)
    else if c.val = 0x5C then
      match r with
      | [] => none
      | e :: r1 =>
        if e.val = 0x75 then
          match hex4 r1 with
          | none => none
          | some (rr, r2) =>
            if 0xD800 ≤ rr ∧ rr < 0xE000 then
              match r2 with
              | 0x5C :: 0x75 :: r3 =>
                match hex4 r3 with
                | some (rr1, r4) =>
                  if rr < 0xDC00 ∧ 0xDC00 ≤ rr1 ∧ rr1 < 0xE000 then
                    consBytes (encodeRune ((rr - 0xD800) * 1024 + (rr1 - 0xDC00) + 0x10000))
                      (parseString n r4)
                  else consBytes [0xEF, 0xBF, 0xBD] (parseString n r2)
                | none => consBytes [0xEF, 0xBF, 0xBD] (parseString n r2)
              | _ => consBytes [0xEF, 0xBF, 0xBD] (parseString n r2)
            else consBytes (encodeRune rr) (parseString n r2)
        else
          match unescape e with
          | some b => consBytes [b] (parseString n r1)
          | none => none
    else if c.val < 0x20 then none
    else if c.val < 0x80 then consBytes [c] (parseString n r)
    else
      match utf8Width (c :: r) with
      | 0 => consBytes [0xEF, 0xBF, 0xBD] (parseString n r)
      | w + 1 => consBytes ((c :: r).take (w + 1)) (parseString n (r.drop w))

/-- Drops leading decimal digits. -/
def skipDigits : List Byte → List Byte
  | [] => []
  | c :: r => if 0x30 ≤ c.val ∧ c.val ≤ 0x39 then skipDigits r else c :: r

/-- One or more decimal digits: the input after them. -/
def digits1 : List Byte → Option (List Byte)
  | c :: r => if 0x30 ≤ c.val ∧ c.val ≤ 0x39 then some (skipDigits r) else none
  | [] => none

/-- The optional exponent of a number. -/
def scanExponent : List Byte → Option (List Byte)
  | c :: r =>
    if c.val = 0x65 ∨ c.val = 0x45 then
      match r with
      | s :: r1 => if s.val = 0x2B ∨ s.val = 0x2D then digits1 r1 else digits1 r
      | [] => none
    else some (c :: r)
  | [] => some []

/-- The optional fraction of a number, then its optional exponent. -/
def scanFraction : List Byte → Option (List Byte)
  | c :: r =>
    if c.val = 0x2E then
      match digits1 r with
      | some r1 => scanExponent r1
      | none => none
    else scanExponent (c :: r)
  | [] => some []

/-- A JSON number, its leading minus sign already read: the input after it. -/
def scanUnsigned : List Byte → Option (List Byte)
  | c :: r =>
    if c.val = 0x30 then scanFraction r
    else if 0x31 ≤ c.val ∧ c.val ≤ 0x39 then scanFraction (skipDigits r)
    else none
  | [] => none

/-- A JSON number: the input after it. -/
def scanNumber : List Byte → Option (List Byte)
  | c :: r => if c.val = 0x2D then scanUnsigned r else scanUnsigned (c :: r)
  | [] => none

mutual
/-- Reads one JSON value, leading white space allowed: the value and the input after
it; `none` is a syntax error.  The fuel is the number of input bytes plus one. -/
def parseValue : Nat → List Byte → Option (Json × List Byte)
  | 0, _ => none
  | n + 1, s =>
    match skipSpace s with
    | [] => none
    | c :: r =>
      if c.val = 0x22 then
        match parseString (r.length + 1) r with
        | some (str, r1) => some (.string str, r1)
        | none => none
      else if c.val = 0x7B then
        match skipSpace r with
        | [] => none
        | c1 :: r1 =>
          if c1.val = 0x7D then some (.object [], r1)
          else
            match parseMembers n (c1 :: r1) with
            | some (ms, r2) => some (.object ms, r2)
            | none => none
      else if c.val = 0x5B then
        match skipSpace r with
        | [] => none
        | c1 :: r1 =>
          if c1.val = 0x5D then some (.array [], r1)
          else
            match parseElements n (c1 :: r1) with
            | some (xs, r2) => some (.array xs, r2)
            | none => none
      else if (c :: r).take 4 = lit "true" then some (.bool true, r.drop 3)
      else if (c :: r).take 5 = lit "false" then some (.bool false, r.drop 4)
      else if (c :: r).take 4 = lit "null" then some (.null, r.drop 3)
      else
        match scanNumber (c :: r) with
        | some r1 => some (.number, r1)
        | none => none
/-- Reads the members of an object from its first key to its closing brace. -/
def parseMembers : Nat → List Byte → Option (List (GoString × Json) × List Byte)
  | 0, _ => none
  | n + 1, s =>
    match skipSpace s with
    | [] => none
    | q :: r =>
      if q.val = 0x22 then
        match parseString (r.length + 1) r with
        | none => none
        | some (key, r1) =>
          match skipSpace r1 with
          | [] => none
          | c :: r2 =>
            if c.val = 0x3A then
              match parseValue n r2 with
              | none => none
              | some (v, r3) =>
                match skipSpace r3 with
                | [] => none
                | d :: r4 =>
                  if d.val = 0x2C then
                    match parseMembers n r4 with
                    | some (ms, r5) => some ((key, v) :: ms, r5)
                    | none => none
                  else if d.val = 0x7D then some ([(key, v)], r4)
                  else none
            else none
      else none
/-- Reads the elements of an array from its first element to its closing bracket. -/
def parseElements : Nat → List Byte → Option (List Json × List Byte)
  | 0, _ => none
  | n + 1, s =>
    match parseValue n s with
    | none => none
    | some (v, r) =>
      match skipSpace r with
      | [] => none
      | d :: r1 =>
        if d.val = 0x2C then
          match parseElements n r1 with
          | some (xs, r2) => some (v :: xs, r2)
          | none => none
        else if d.val = 0x5D then some ([v], r1)
        else none
end

/-- Go `json.Valid`-style parsing of a whole text: one JSON value with white space
around it and nothing else. -/
def parse (data : List Byte) : Option Json :=
  match parseValue (data.length + 1) data with
  | some (v, rest) => if skipSpace rest = [] then some v else none
  | none => none

/-- What decoding one member value into a Go `string` leaves in the element that is
then stored in the map: the string for a JSON string, and the zero value `""` for
`null` and for a value of any other type (which `Unmarshal` reports as an
`UnmarshalTypeError` after finishing the object). -/
def stringOf : Json → GoString
  | .string s => s
  | _ => []

/-- The decoding of the members of an object into the map, in order. -/
def storeMembers : List (GoString × Json) → StateMap → StateMap
  | [], state => state
  | (key, v) :: r, state => storeMembers r (mapSet state key (stringOf v))

/-- Go `json.Unmarshal(data, &state)` for `state` a `map[string]string`, its error
dropped: a text that is not valid JSON leaves `state` untouched; an object stores its
members; `null` sets the map to nil; any other value is a type error and leaves
`state` untouched. -/
def Unmarshal (data : List Byte) (state : StateMap) : StateMap :=
  match parse data with
  | some (.object members) => storeMembers members state
  | some .null => []
  | _ => state

end json

/-! ## The codec of `store.go` -/

/-- The constant `ingressStateAnnotation`. -/
def ingressStateAnnotation : GoString := lit "field.cattle.io/ingressState"

/-- The struct `hostPath`: the key under which `getPaths` files a target. -/
structure hostPath where
  /-- The field `host`. -/
  host : GoString
  /-- The field `path`. -/
  path : GoString
deriving DecidableEq

/-- Where a target record lives in the resource representation:
`data["rules"][rule]["paths"][path]`.  Go holds the target map by reference; the
embedding holds its place, reads the target there and writes the rewritten target
back there. -/
structure Place where
  /-- The index of the rule in `data["rules"]`. -/
  rule : Nat
  /-- The key of the target in the rule's `paths`. -/
  path : GoString
deriving DecidableEq

/-- What `store.go` takes from the rest of the repository and from the Go runtime. -/
structure Env where
  /-- The function `ref.Parse(id)` of `pkg/ref`: the namespace and the name of a
  resource identity. -/
  Parse : GoString → GoString × GoString
  /-- The function `ingress.GetStateKey(name, namespace, host, path, port)` of
  `pkg/controllers/user/ingress`. -/
  GetStateKey : GoString → GoString → GoString → GoString → GoString → GoString
  /-- The function `workload.SetPublicEnpointsFields(data)` of
  `pkg/api/store/workload`. -/
  SetPublicEnpointsFields : Obj → Obj
  /-- The order in which `range paths` visits the entries of the map that `getPaths`
  returned; Go leaves it unspecified. -/
  rangeOrder : List (hostPath × Place) → List (hostPath × Place)

/-- The function `getServiceID`. -/
def getServiceID (stateKey : GoString) : GoString :=
  match base64.DecodeString stateKey with
  | none => []
  | some bytes => lit "ingress-" ++ hex.EncodeToString (md5.Sum bytes)

/-- The function `getCertKey`. -/
def getCertKey (key : GoString) : GoString :=
  base64.EncodeToString key

/-- The assignment `result[hp] = target` of `getPaths`, the target given by its
place. -/
def putPath : List (hostPath × Place) → hostPath → Place → List (hostPath × Place)
  | [], hp, pl => [(hp, pl)]
  | (hp1, pl1) :: r, hp, pl => if hp1 = hp then (hp, pl) :: r else (hp1, pl1) :: putPath r hp pl

/-- The inner loop of `getPaths`, `for path, target := range convert.ToMapInterface(paths)`,
over the keys of the `paths` of rule number `i`. -/
def addPaths (host : GoString) (i : Nat) :
    List GoString → List (hostPath × Place) → List (hostPath × Place)
  | [], result => result
  | path :: rest, result =>
    addPaths host i rest (putPath result { host := host, path := path } { rule := i, path := path })

/-- The outer loop of `getPaths`, `for _, rule := range convert.ToMapSlice(v)`, from
rule number `i` on. -/
def rulePaths : List Obj → Nat → List (hostPath × Place) → List (hostPath × Place)
  | [], _, result => result
  | converted :: rest, i, result =>
    match mapGet converted (lit "paths") with
    | some paths =>
      rulePaths rest (i + 1)
        (addPaths (convert.ToString ((mapGet converted (lit "host")).getD .null)) i
          (((convert.ToMapInterface paths).getD []).map fun e => e.1) result)
    | none => rulePaths rest (i + 1) result

/-- The function `getPaths`: `none` is its result `(nil, false)`. -/
def getPaths (data : Obj) : Option (List (hostPath × Place)) :=
  match values.GetValue data [lit "rules"] with
  | none => none
  | some v => some (rulePaths (convert.ToMapSlice v) 0 [])

/-- The target map that `getPaths` filed for a place, as it is now:
`convert.ToMapInterface(data["rules"][rule]["paths"][path])`; `none` is the nil
map. -/
def targetAt (data : Obj) (pl : Place) : Option Obj :=
  match mapGet data (lit "rules") with
  | some (.list rules) =>
    match rules[pl.rule]? with
    | some (.map rule) =>
      match mapGet rule (lit "paths") with
      | some (.map paths) =>
        match mapGet paths pl.path with
        | some target => convert.ToMapInterface target
        | none => none
      | _ => none
    | _ => none
  | _ => none

/-- The resource representation after the target map at a place has been mutated
into `target`. -/
def putTargetAt (data : Obj) (pl : Place) (target : Obj) : Obj :=
  match mapGet data (lit "rules") with
  | some (.list rules) =>
    match rules[pl.rule]? with
    | some (.map rule) =>
      match mapGet rule (lit "paths") with
      | some (.map paths) =>
        mapSet data (lit "rules")
          (.list (rules.set pl.rule
            (.map (mapSet rule (lit "paths") (.map (mapSet paths pl.path (.map target)))))))
      | _ => data
    | _ => data
  | _ => data

/-- The function `setState`.  `json.Marshal` of a `map[string]string` returns no
error, so the annotation is always written (when `PutValue` can reach it). -/
def setState (data : Obj) (stateMap : StateMap) : Obj :=
  values.PutValue data (.str (json.Marshal stateMap)) [lit "annotations", ingressStateAnnotation]

/-- The function `getState`. -/
def getState (data : Obj) : StateMap :=
  match values.GetValue data [lit "annotations", ingressStateAnnotation] with
  | some v => json.Unmarshal (convert.ToString v) []
  | none => []

/-- The type assertion `v.(string)` in its two-result form: the empty string when
`v` is not a string. -/
def asString : Option Value → GoString
  | some (.str s) => s
  | _ => []

/-- Lines 74 to 77 of `updateRule`: the StateKey of a target,
`ingress.GetStateKey(name, namespace, host, path, convert.ToString(port))` with
`namespace, name := ref.Parse(id)` and `port` the target's `targetPort`. -/
def stateKeyOf (env : Env) (targetData : Obj) (id host path : GoString) : GoString :=
  env.GetStateKey (env.Parse id).2 (env.Parse id).1 host path
    (convert.ToString ((mapGet targetData (lit "targetPort")).getD .null))

/-- The function `updateRule`.  `target` is `none` for the nil map, on which every
path through the function ends in an assignment and so in a panic.  The result is
the mutated target map and the mutated `newState`; `oldState` is only read. -/
def updateRule (env : Env) (target : Option Obj) (id host path : GoString) (forFrontend : Bool)
    (data : Obj) (oldState newState : StateMap) : Option (Obj × StateMap) :=
  let targetData : Obj := target.getD []
  let serviceID : GoString := asString (mapGet targetData (lit "serviceId"))
  let stateKey := stateKeyOf env targetData id host path
  if forFrontend then
    match mapGet oldState stateKey with
    | some serviceValue =>
      if !convert.IsEmpty (.str serviceValue) then
        match target with
        | none => none
        | some _ =>
          some (mapDelete
            (mapSet targetData (lit "workloadIds") (.strs (strings.Split serviceValue slash)))
            (lit "serviceId"), newState)
      else
        match mapGet data (lit "namespaceId"), target with
        | some (.str ns), some _ =>
          some (mapSet targetData (lit "serviceId") (.str (ns ++ colon :: serviceID)), newState)
        | _, _ => none
    | none =>
      match mapGet data (lit "namespaceId"), target with
      | some (.str ns), some _ =>
        some (mapSet targetData (lit "serviceId") (.str (ns ++ colon :: serviceID)), newState)
      | _, _ => none
  else
    let workloadIDs := convert.ToStringSlice ((mapGet targetData (lit "workloadIds")).getD .null)
    let serviceID1 :=
      if serviceID ≠ [] then
        let splitted := strings.Split serviceID colon
        if splitted.length > 1 then splitted.getD 1 [] else serviceID
      else getServiceID stateKey
    match target with
    | none => none
    | some _ =>
      some (mapSet targetData (lit "serviceId") (.str serviceID1),
        mapSet newState stateKey (strings.Join workloadIDs slash))

/-- The body of both loops of `updateCerts` for one certificate record. -/
def updateCert (forFrontend : Bool) (oldState : StateMap) (cert : Obj) (newState : StateMap) :
    Obj × StateMap :=
  if forFrontend then
    let certName := convert.ToString ((mapGet cert (lit "certificateId")).getD .null)
    let certKey := getCertKey certName
    (mapSet cert (lit "certificateId") (.str ((mapGet oldState certKey).getD [])), newState)
  else
    let certificateID := convert.ToString ((mapGet cert (lit "certificateId")).getD .null)
    let id := strings.Split certificateID colon
    if id.length = 2 then
      let certName := id.getD 1 []
      let certKey := getCertKey certName
      (mapSet cert (lit "certificateId") (.str certName), mapSet newState certKey certificateID)
    else (cert, newState)

/-- The loop `for _, cert := range certs` of `updateCerts` over the elements of
`data["tls"]`: `values.GetSlice` hands over the elements that are maps, by reference,
and passes over the others. -/
def certsLoop (forFrontend : Bool) (oldState : StateMap) :
    List Value → StateMap → List Value × StateMap
  | [], newState => ([], newState)
  | .map cert :: rest, newState =>
    let r := updateCert forFrontend oldState cert newState
    let rs := certsLoop forFrontend oldState rest r.2
    (.map r.1 :: rs.1, rs.2)
  | v :: rest, newState =>
    let rs := certsLoop forFrontend oldState rest newState
    (v :: rs.1, rs.2)

/-- The function `updateCerts`: the mutated resource representation and the mutated
`newState`. -/
def updateCerts (data : Obj) (forFrontend : Bool) (oldState newState : StateMap) :
    Obj × StateMap :=
  match values.GetValue data [lit "tls"] with
  | some (.list certs) =>
    let r := certsLoop forFrontend oldState certs newState
    (mapSet data (lit "tls") (.list r.1), r.2)
  | _ => (data, newState)

/-- The loop `for hostpath, target := range paths` of `formatData`, over the entries
in the order Go visits them. -/
def rulesLoop (env : Env) (id : GoString) (forFrontend : Bool) (oldState : StateMap) :
    List (hostPath × Place) → Obj × StateMap → Option (Obj × StateMap)
  | [], st => some st
  | (hostpath, pl) :: rest, (data, newState) =>
    match updateRule env (targetAt data pl) id hostpath.host hostpath.path forFrontend data
        oldState newState with
    | none => none
    | some (target, newState1) =>
      rulesLoop env id forFrontend oldState rest (putTargetAt data pl target, newState1)

/-- The first step of `formatData`, "transform default backend". -/
def defaultStep (env : Env) (id : GoString) (data : Obj) (forFrontend : Bool)
    (oldState newState : StateMap) : Option (Obj × StateMap) :=
  match values.GetValue data [lit "defaultBackend"] with
  | none => some (data, newState)
  | some .null => some (data, newState)
  | some target =>
    match updateRule env (convert.ToMapInterface target) id [] (lit "/") forFrontend data
        oldState newState with
    | none => none
    | some (target1, newState1) =>
      some (mapSet data (lit "defaultBackend") (.map target1), newState1)

/-- The second step of `formatData`, "transform rules". -/
def rulesStep (env : Env) (id : GoString) (forFrontend : Bool) (oldState : StateMap)
    (st : Obj × StateMap) : Option (Obj × StateMap) :=
  match getPaths st.1 with
  | some paths => rulesLoop env id forFrontend oldState (env.rangeOrder paths) st
  | none => some st

/-- The function `formatData`: the resource representation it leaves behind, or
`none` when it panics. -/
def formatData (env : Env) (id : GoString) (data : Obj) (forFrontend : Bool) : Option Obj :=
  let oldState := getState data
  match defaultStep env id data forFrontend oldState [] with
  | none => none
  | some st1 =>
    match rulesStep env id forFrontend oldState st1 with
    | none => none
    | some st2 =>
      let st3 := updateCerts st2.1 forFrontend oldState st2.2
      some (env.SetPublicEnpointsFields (setState st3.1 st3.2))

/-! ## A reference environment -/

/-- The text before the first `sep` and the text after it; `none` when `sep` does not
occur. -/
def splitFirst (sep : Byte) : GoString → Option (GoString × GoString)
  | [] => none
  | b :: r =>
    if b = sep then some ([], r)
    else
      match splitFirst sep r with
      | some p => some (b :: p.1, p.2)
      | none => none

/-- Modelled from the spec: `ref.Parse`, `ingress.GetStateKey` and
`workload.SetPublicEnpointsFields` are not in `store.go`.  The spec says that a
resource is identified by namespace and name, that a StateKey is a URL-safe
reversible binary-to-text encoding applied to a composite key string, an
order-significant function of (name, namespace, host, path, stringified port), and
that the derivation of the public endpoint display fields is outside the codec.
Here the identity is read as `namespace:name` (all of it the name when there is no
`:`), the composite is the five components in that order joined by `/`, the public
endpoint step leaves the representation alone, and `range` visits the entries in the
order `getPaths` filed them. -/
def specEnv : Env where
  Parse id :=
    match splitFirst colon id with
    | some p => p
    | none => ([], id)
  GetStateKey name namespace0 host path port :=
    base64.EncodeToString (strings.Join [name, namespace0, host, path, port] slash)
  SetPublicEnpointsFields data := data
  rangeOrder paths := paths

/-- The fields of the resource representation that the codec reads or writes are
left as they are by `workload.SetPublicEnpointsFields`. -/
def Env.keepsCodecFields (env : Env) : Prop :=
  ∀ (data : Obj) (k : GoString),
    k ∈ [lit "defaultBackend", lit "rules", lit "tls", lit "annotations", lit "namespaceId"] →
      mapGet (env.SetPublicEnpointsFields data) k = mapGet data k

/-! ## Vocabulary of the statements -/

/-- The text of the `certificateId` of a certificate record, as both loops of
`updateCerts` read it. -/
def certificateIdOf (cert : Obj) : GoString :=
  convert.ToString ((mapGet cert (lit "certificateId")).getD .null)

/-- The `certificateId` of every certificate record of `data["tls"]`, in order. -/
def certificateIds (data : Obj) : List GoString :=
  match mapGet data (lit "tls") with
  | some (.list certs) =>
    certs.filterMap fun v => (convert.ToMapInterface v).map certificateIdOf
  | _ => []

/-- The `certificateId` of every certificate record of `data["tls"]`, in order, as
the string it is (the empty string when it is not a string). -/
def certificateIdStrings (data : Obj) : List GoString :=
  match mapGet data (lit "tls") with
  | some (.list certs) =>
    certs.filterMap fun v =>
      (convert.ToMapInterface v).map fun cert => asString (mapGet cert (lit "certificateId"))
  | _ => []

/-- A certificate record whose `certificateId` is the string `ns:name`, with no `:`
in `ns` and none in `name`, and with no white space at either end of `ns:name` or of
`name`. -/
def qualifiedCert (v : Value) (p : GoString × GoString) : Prop :=
  ∃ m, v = .map m ∧ mapGet m (lit "certificateId") = some (.str (p.1 ++ colon :: p.2)) ∧
    colon ∉ p.1 ∧ colon ∉ p.2 ∧
    strings.TrimSpace (p.1 ++ colon :: p.2) = p.1 ++ colon :: p.2 ∧ strings.TrimSpace p.2 = p.2

/-- The State Map after the toward-storage loop of `updateCerts` has gone through
records with the given namespaces and names. -/
def certState : List (GoString × GoString) → StateMap → StateMap
  | [], s => s
  | p :: r, s => certState r (mapSet s (getCertKey p.2) (p.1 ++ colon :: p.2))

/-- A resource representation that holds nothing but the state annotation, with the
given text. -/
def annotated (text : GoString) : Obj :=
  [(lit "annotations", .map [( ingressStateAnnotation, .str text)])]

/-- The text of the state annotation of a resource representation, as `getState`
reads it; `none` when the annotation is absent. -/
def stateAnnotation (data : Obj) : Option GoString :=
  (values.GetValue data [lit "annotations", ingressStateAnnotation]).map convert.ToString

/-- An ASCII byte that `json.Marshal` writes as itself inside a string literal: a
printable ASCII byte other than `"`, `\`, `<`, `>` and `&`. -/
def plainByte (b : Byte) : Bool :=
  decide (0x20 ≤ b.val ∧ b.val < 0x80 ∧ b.val ≠ 0x22 ∧ b.val ≠ 0x5C ∧ b.val ≠ 0x3C ∧
    b.val ≠ 0x3E ∧ b.val ≠ 0x26)

/-- A string made of plain bytes only. -/
def plainText (s : GoString) : Bool :=
  s.all plainByte

/-- The assignments `state[k] = v` of a list of entries, in order. -/
def writeAll : List (GoString × GoString) → StateMap → StateMap
  | [], s => s
  | e :: r, s => writeAll r (mapSet s e.1 e.2)

/-- The workload binding identifiers of a target, as `updateRule` reads them toward
storage. -/
def workloadIDsOf (target : Obj) : List GoString :=
  convert.ToStringSlice ((mapGet target (lit "workloadIds")).getD .null)

/-- The default backend, when it is a map. -/
def defaultTarget (data : Obj) : Option Obj :=
  match mapGet data (lit "defaultBackend") with
  | some (.map t) => some t
  | _ => none

/-- What `getPaths` reads of one rule: nothing when the rule has no `paths`, and
otherwise the text of its host and the keys of its `paths`. -/
def ruleShape (converted : Obj) : Option (GoString × List GoString) :=
  (mapGet converted (lit "paths")).map fun paths =>
    (convert.ToString ((mapGet converted (lit "host")).getD .null),
      ((convert.ToMapInterface paths).getD []).map fun e => e.1)

/-- The entries that the toward-storage loop of `updateCerts` writes to the new State
Map, in order. -/
def certWrites : List Value → List (GoString × GoString)
  | [] => []
  | .map cert :: rest =>
    if (strings.Split (certificateIdOf cert) colon).length = 2 then
      (getCertKey ((strings.Split (certificateIdOf cert) colon).getD 1 []), certificateIdOf cert)
        :: certWrites rest
    else certWrites rest
  | _ :: rest => certWrites rest

/-- The certificate entries that `formatData` writes toward storage. -/
def certEntries (data : Obj) : List (GoString × GoString) :=
  match mapGet data (lit "tls") with
  | some (.list certs) => certWrites certs
  | _ => []

/-- The entry that `updateRule` writes toward storage for the target filed under an
entry of `getPaths`: its StateKey and its workload identifiers joined by `/`. -/
def ruleEntry (env : Env) (id : GoString) (data : Obj) (e : hostPath × Place) :
    GoString × GoString :=
  (stateKeyOf env ((targetAt data e.2).getD []) id e.1.host e.1.path,
    strings.Join (workloadIDsOf ((targetAt data e.2).getD [])) slash)

/-- The entry that `updateRule` writes toward storage for the default backend. -/
def defaultEntry (env : Env) (id : GoString) (data : Obj) : List (GoString × GoString) :=
  match defaultTarget data with
  | some t => [(stateKeyOf env t id [] (lit "/"), strings.Join (workloadIDsOf t) slash)]
  | none => []

/-- The StateKeys of the targets that `formatData` rewrites: the default backend, then
the targets filed by `getPaths`. -/
def targetKeys (env : Env) (id : GoString) (data : Obj) : List GoString :=
  ((defaultEntry env id data) ++ ((getPaths data).getD []).map (ruleEntry env id data)).map
    fun e => e.1

/-- No target that `formatData` rewrites is the nil map: the default backend is
absent, nil or a map, and every target filed by `getPaths` is a map. -/
def wellFormedTargets (data : Obj) : Prop :=
  (mapGet data (lit "defaultBackend") = none ∨ mapGet data (lit "defaultBackend") = some .null ∨
    (defaultTarget data).isSome) ∧
  ∀ e ∈ (getPaths data).getD [], (targetAt data e.2).isSome = true

/-- What `updateRule` toward the client does to the field `workloadIds` of a target
`t`, giving `t2`, when the old State Map is `old` and the target's StateKey is `key`:
it stays as it is when `key` is absent or maps to the empty string, and it becomes
the `[]string` of the pieces of the value between its `/` otherwise. -/
def clientRewrite (old : StateMap) (key : GoString) (t t2 : Obj) : Prop :=
  ((mapGet old key = none ∨ mapGet old key = some []) →
    mapGet t2 (lit "workloadIds") = mapGet t (lit "workloadIds")) ∧
  (∀ v, mapGet old key = some v → v ≠ [] →
    mapGet t2 (lit "workloadIds") = some (.strs (strings.Split v slash)))

/-- The default backend is absent, nil or a map. -/
def wellFormedDefault (data : Obj) : Prop :=
  mapGet data (lit "defaultBackend") = none ∨ mapGet data (lit "defaultBackend") = some .null ∨
    (defaultTarget data).isSome

/-- The State Map that `formatData` builds toward storage: the entry of the default
backend, the entries of the targets filed by `getPaths` in the order `range` visits
them, and the entries of the certificates. -/
def storedState (env : Env) (id : GoString) (data : Obj) : StateMap :=
  writeAll (defaultEntry env id data ++
    (env.rangeOrder ((getPaths data).getD [])).map (ruleEntry env id data) ++
    certEntries data) []

/-- An example resource: a workload-backed default backend, one rule for the host
`a.com` with a workload-backed target at `/x`, and one certificate. -/
def exampleIngress : Obj :=
  [(lit "namespaceId", .str (lit "ns1")),
    (lit "defaultBackend", .map [(lit "targetPort", .int 80),
      (lit "workloadIds", .list [.str (lit "deployment:ns1:web")])]),
    (lit "rules", .list [.map [(lit "host", .str (lit "a.com")),
      (lit "paths", .map [(lit "/x", .map [(lit "targetPort", .int 8080),
        (lit "workloadIds",
          .list [.str (lit "deployment:ns1:api"), .str (lit "deployment:ns1:jobs")])])])]]),
    (lit "tls", .list [.map [(lit "certificateId", .str (lit "ns1:certA"))]])]

/-- An example resource whose default backend and whose rule without host at the
path `/` have the same port: the default backend is bound to the workload `a`, the
rule to the workload `b`. -/
def collidingIngress : Obj :=
  [(lit "namespaceId", .str (lit "ns1")),
    (lit "defaultBackend", .map [(lit "targetPort", .int 80),
      (lit "workloadIds", .list [.str (lit "a")])]),
    (lit "rules", .list [.map [(lit "paths", .map [(lit "/", .map [(lit "targetPort", .int 80),
      (lit "workloadIds", .list [.str (lit "b")])])])]])]

/-- An example resource as storage holds it: the certificate `a`, and the
certificate `certA` that the run toward storage left as it was. -/
def storedCerts : Obj :=
  [(lit "tls", .list ([.map [(lit "certificateId", .str (lit "a"))]] ++
    .map [(lit "certificateId", .str (lit "certA"))] :: []))]

/-- A character of the URL-safe base64 alphabet: `A`-`Z`, `a`-`z`, `0`-`9`, `-` or
`_`. -/
def inAlphabet (c : Byte) : Bool :=
  decide ((65 ≤ c.val ∧ c.val ≤ 90) ∨ (97 ≤ c.val ∧ c.val ≤ 122) ∨ (48 ≤ c.val ∧ c.val ≤ 57) ∨
    c.val = 45 ∨ c.val = 95)

/-- A valid padded URL-safe base64 text, after the words of the claim: groups of four
characters of the alphabet, where the last group may end in one or two `=`. -/
def validBase64URL : GoString → Bool
  | [] => true
  | c0 :: c1 :: c2 :: c3 :: rest =>
    inAlphabet c0 && inAlphabet c1 &&
      (if rest = [] then
        (inAlphabet c2 && (inAlphabet c3 || decide (c3 = base64.padChar))) ||
          (decide (c2 = base64.padChar) && decide (c3 = base64.padChar))
      else inAlphabet c2 && inAlphabet c3 && validBase64URL rest)
  | _ => false

/-- A text without its carriage returns and line feeds. -/
def withoutLineBreaks (s : GoString) : GoString :=
  s.filter fun c => decide (c ≠ 13 ∧ c ≠ 10)

/-- The reference definition of `getServiceID`, after the words of the claim: the
empty string for a text that is not valid padded URL-safe base64, and otherwise
`ingress-` followed by the lowercase hexadecimal rendering of the MD5 digest of the
decoded bytes. -/
def referenceServiceID (k : GoString) : GoString :=
  if validBase64URL k then
    lit "ingress-" ++ hex.EncodeToString (md5.Sum ((base64.decodeQuanta k).getD []))
  else []

/-- The target records of the rules from rule number `i` on, in the order in which
`getPaths` goes through them: for each rule that has `paths` and each key `p` of its
`paths`, the host text of the rule with `p`, and the place `rules[i].paths[p]`. -/
def ruleTargets : List Obj → Nat → List (hostPath × Place)
  | [], _ => []
  | converted :: rest, i =>
    (match ruleShape converted with
      | some sh => sh.2.map fun p =>
          (({ host := sh.1, path := p } : hostPath), ({ rule := i, path := p } : Place))
      | none => []) ++ ruleTargets rest (i + 1)

/-- Every target record `rules[i].paths[p]` of a resource representation, with the
host text of its rule and `p`. -/
def allTargets (data : Obj) : List (hostPath × Place) :=
  match values.GetValue data [lit "rules"] with
  | none => []
  | some v => ruleTargets (convert.ToMapSlice v) 0

/-- An example resource with two rules for the host `a.com` that both have the path
`/x`: the first sends it to port 80 and the workload `w1`, the second to port 81 and
the workload `w2`. -/
def repeatedPathIngress : Obj :=
  [(lit "namespaceId", .str (lit "ns1")),
    (lit "rules", .list [
      .map [(lit "host", .str (lit "a.com")),
        (lit "paths", .map [(lit "/x", .map [(lit "targetPort", .int 80),
          (lit "workloadIds", .list [.str (lit "w1")])])])],
      .map [(lit "host", .str (lit "a.com")),
        (lit "paths", .map [(lit "/x", .map [(lit "targetPort", .int 81),
          (lit "workloadIds", .list [.str (lit "w2")])])])]])]

/-- An example resource with a default backend on port 80, bound to the workload
`a`, and two rules without host that both have the path `/` and the port 80: the
first is bound to the workload `b`, the second to the workload `c`. -/
def doubleRootIngress : Obj :=
  [(lit "namespaceId", .str (lit "ns1")),
    (lit "defaultBackend", .map [(lit "targetPort", .int 80),
      (lit "workloadIds", .list [.str (lit "a")])]),
    (lit "rules", .list [
      .map [(lit "paths", .map [(lit "/", .map [(lit "targetPort", .int 80),
        (lit "workloadIds", .list [.str (lit "b")])])])],
      .map [(lit "paths", .map [(lit "/", .map [(lit "targetPort", .int 80),
        (lit "workloadIds", .list [.str (lit "c")])])])]])]

/-- The text of the `targetPort` of a target, as `updateRule` hands it to
`GetStateKey`. -/
def portOf (target : Obj) : GoString :=
  convert.ToString ((mapGet target (lit "targetPort")).getD .null)

/-- A resource representation that holds nothing but a `tls` list, one record for
each of the given `certificateId` strings. -/
def tlsOf (ids : List GoString) : Obj :=
  [(lit "tls", .list (ids.map fun s => .map [(lit "certificateId", .str s)]))]

/-- The resource representation after `updateCerts` toward storage and then
`updateCerts` toward the client with the State Map of the first run. -/
def certRoundTrip (data : Obj) : Obj :=
  (updateCerts (updateCerts data false [] []).1 true (updateCerts data false [] []).2 []).1

namespace utf8

/-- The loop of Go `utf8.ValidString(s)`: every code point of `s` is a well-formed
UTF-8 sequence.  The fuel is the number of bytes still to read. -/
def validLoop : Nat → List Byte → Bool
  | _, [] => true
  | 0, _ :: _ => false
  | n + 1, b :: r =>
    match utf8Width (b :: r) with
    | 0 => false
    | w + 1 => validLoop n (r.drop w)

/-- Go `utf8.ValidString(s)`. -/
def ValidString (s : GoString) : Bool :=
  validLoop s.length s

end utf8

namespace json

/-- The string `s` with every byte that starts no well-formed UTF-8 sequence replaced
by `U+FFFD`, from a position on.  The fuel is the number of bytes still to read. -/
def coerceLoop : Nat → List Byte → GoString
  | 0, _ => []
  | _ + 1, [] => []
  | n + 1, b :: r =>
    match utf8Width (b :: r) with
    | 0 => [0xEF, 0xBF, 0xBD] ++ coerceLoop n r
    | w + 1 => (b :: r).take (w + 1) ++ coerceLoop n (r.drop w)

/-- The string that the string literal written by `json.Marshal` for `s` denotes: `s`
with every byte that starts no well-formed UTF-8 sequence replaced by `U+FFFD`. -/
def coerced (s : GoString) : GoString :=
  coerceLoop s.length s

end json

/-- The field value `v` is the list of strings `ws`, held as a `[]string` or as a
`[]interface{}` of strings. -/
def holdsStrings (v : Option Value) (ws : List GoString) : Prop :=
  v = some (.strs ws) ∨ v = some (.list (ws.map Value.str))

/-- The strings of a `[]string`, or of a `[]interface{}` read element by element with
the type assertion `.(string)`; no strings for any other value. -/
def rawStrings : Value → List GoString
  | .strs l => l
  | .list xs => xs.map fun v => asString (some v)
  | _ => []

/-- The strings of the `workloadIds` of the target at a place. -/
def rawIdsAt (data : Obj) (pl : Place) : Option (List GoString) :=
  (targetAt data pl).map fun t => rawStrings ((mapGet t (lit "workloadIds")).getD .null)

/-- The result of `formatData` toward storage and then `formatData` toward the client
on what the first call left; `none` when one of the two panics. -/
def roundTrip (env : Env) (id : GoString) (data : Obj) : Option Obj :=
  (formatData env id data false).bind fun d1 => formatData env id d1 true

/-- An example resource with three rules: the target of the first is bound to the
workload ` a `, with a space at either end; the target of the second to a workload
made of the byte `0xFF`; the target of the third, for the host `d.com` at `/d` on port
80, to the workload `w`.  Its certificate is named after the text that the reference
environment encodes as the StateKey of the third target. -/
def awkwardIngress : Obj :=
  [(lit "namespaceId", .str (lit "ns1")),
    (lit "rules", .list [
      .map [(lit "host", .str (lit "a.com")),
        (lit "paths", .map [(lit "/p", .map [(lit "targetPort", .int 80),
          (lit "workloadIds", .list [.str (lit " a ")])])])],
      .map [(lit "host", .str (lit "b.com")),
        (lit "paths", .map [(lit "/q", .map [(lit "targetPort", .int 80),
          (lit "workloadIds", .list [.str [0xFF]])])])],
      .map [(lit "host", .str (lit "d.com")),
        (lit "paths", .map [(lit "/d", .map [(lit "targetPort", .int 80),
          (lit "workloadIds", .list [.str (lit "w")])])])]]),
    (lit "tls", .list [.map [(lit "certificateId", .str (lit "x:ing/ns1/d.com//d/80"))]])]

/-- An example resource with two rules whose hosts are `a.com` and ` a.com`, the
second with a space in front, that both have the path `/x`: the first sends it to
port 80 and the workload `w1`, the second to port 81 and the workload `w2`. -/
def paddedHostIngress : Obj :=
  [(lit "namespaceId", .str (lit "ns1")),
    (lit "rules", .list [
      .map [(lit "host", .str (lit "a.com")),
        (lit "paths", .map [(lit "/x", .map [(lit "targetPort", .int 80),
          (lit "workloadIds", .list [.str (lit "w1")])])])],
      .map [(lit "host", .str (lit " a.com")),
        (lit "paths", .map [(lit "/x", .map [(lit "targetPort", .int 81),
          (lit "workloadIds", .list [.str (lit "w2")])])])]])]

/-- An example resource whose default backend, bound to the workload `a`, and whose
rule without host at the path `/`, bound to the workload ` b ` with a space at either
end, have the port 80. -/
def paddedRootIngress : Obj :=
  [(lit "namespaceId", .str (lit "ns1")),
    (lit "defaultBackend", .map [(lit "targetPort", .int 80),
      (lit "workloadIds", .list [.str (lit "a")])]),
    (lit "rules", .list [.map [(lit "paths", .map [(lit "/", .map [(lit "targetPort", .int 80),
      (lit "workloadIds", .list [.str (lit " b ")])])])]])]

/-! ## Maps -/

theorem mapGet_mapSet_same {α : Type} (m : List (GoString × α)) (k : GoString) (v : α) :
    mapGet (mapSet m k v) k = some v := by
  induction m with
  | nil => simp [mapSet, mapGet]
  | cons e r ih =>
    obtain ⟨k1, v1⟩ := e
    by_cases h : k1 = k
    · simp [mapSet, mapGet, h]
    · simp [mapSet, mapGet, h, ih]

theorem mapGet_mapSet_ne {α : Type} (m : List (GoString × α)) (k k2 : GoString) (v : α)
    (h : k ≠ k2) : mapGet (mapSet m k v) k2 = mapGet m k2 := by
  induction m with
  | nil => simp [mapSet, mapGet, h]
  | cons e r ih =>
    obtain ⟨k1, v1⟩ := e
    by_cases h1 : k1 = k
    · subst h1
      simp [mapSet, mapGet, h]
    · simp [mapSet, mapGet, h1, ih]

theorem mapSet_mapSet_same {α : Type} (m : List (GoString × α)) (k : GoString) (v w : α) :
    mapSet (mapSet m k v) k w = mapSet m k w := by
  induction m with
  | nil => simp [mapSet]
  | cons e r ih =>
    obtain ⟨k1, v1⟩ := e
    by_cases h : k1 = k
    · simp [mapSet, h]
    · simp [mapSet, h, ih]

theorem mapSet_of_mapGet {α : Type} (m : List (GoString × α)) (k : GoString) (v : α)
    (h : mapGet m k = some v) : mapSet m k v = m := by
  induction m with
  | nil => simp [mapGet] at h
  | cons e r ih =>
    obtain ⟨k1, v1⟩ := e
    by_cases h1 : k1 = k
    · simp [mapGet, h1] at h
      simp [mapSet, h1, h]
    · simp [mapGet, h1] at h
      simp [mapSet, h1, ih h]

theorem mapSet_comm {α : Type} (m : List (GoString × α)) (k1 k2 : GoString) (v1 v2 : α)
    (h : k1 ≠ k2) (hp : (mapGet m k1).isSome) :
    mapSet (mapSet m k1 v1) k2 v2 = mapSet (mapSet m k2 v2) k1 v1 := by
  induction m with
  | nil => simp [mapGet] at hp
  | cons e r ih =>
    obtain ⟨k, v⟩ := e
    by_cases ha : k = k1
    · subst ha
      simp [mapSet, h]
    · by_cases hb : k = k2
      · subst hb
        simp [mapSet, ha]
      · simp [mapGet, ha] at hp
        simp [mapSet, ha, hb, ih hp]

theorem mapGet_mapDelete_ne {α : Type} (m : List (GoString × α)) (k k2 : GoString)
    (h : k ≠ k2) : mapGet (mapDelete m k) k2 = mapGet m k2 := by
  induction m with
  | nil => simp [mapDelete, mapGet]
  | cons e r ih =>
    obtain ⟨k1, v1⟩ := e
    by_cases h1 : k1 = k
    · subst h1
      simpa [mapDelete, mapGet, h] using ih
    · have hf : mapDelete ((k1, v1) :: r) k = (k1, v1) :: mapDelete r k := by
        simp [mapDelete, List.filter, h1]
      rw [hf]
      by_cases h2 : k1 = k2
      · simp [mapGet, h2]
      · simp [mapGet, h2, ih]

theorem mapGet_mapDelete_same {α : Type} (m : List (GoString × α)) (k : GoString) :
    mapGet (mapDelete m k) k = none := by
  induction m with
  | nil => simp [mapDelete, mapGet]
  | cons e r ih =>
    obtain ⟨k1, v1⟩ := e
    by_cases h1 : k1 = k
    · subst h1
      simpa [mapDelete, mapGet] using ih
    · simpa [mapDelete, mapGet, h1] using ih

/-! ## `strings.Split` and `strings.Join` -/

theorem Split_ne_nil (s : GoString) (sep : Byte) : strings.Split s sep ≠ [] := by
  induction s with
  | nil => simp [strings.Split]
  | cons b r ih =>
    unfold strings.Split
    split
    · simp
    · split <;> simp

theorem Split_of_not_mem (s : GoString) (sep : Byte) (h : sep ∉ s) :
    strings.Split s sep = [s] := by
  induction s with
  | nil => simp [strings.Split]
  | cons b r ih =>
    have hb : b ≠ sep := fun e => h (by simp [e])
    have hr : sep ∉ r := fun e => h (by simp [e])
    simp [strings.Split, hb, ih hr]

theorem Split_append_sep (a b : GoString) (sep : Byte) (h : sep ∉ a) :
    strings.Split (a ++ sep :: b) sep = a :: strings.Split b sep := by
  induction a with
  | nil => simp [strings.Split]
  | cons c r ih =>
    have hc : c ≠ sep := fun e => h (by simp [e])
    have hr : sep ∉ r := fun e => h (by simp [e])
    simp [strings.Split, hc, ih hr]

/-! ## `updateRule` on service identifiers -/

theorem updateRule_client_service (env : Env) (target : Obj) (id host path : GoString)
    (data : Obj) (oldState newState : StateMap) (ns : GoString)
    (hdata : mapGet data (lit "namespaceId") = some (.str ns))
    (hkey : mapGet oldState (stateKeyOf env target id host path) = none ∨
      mapGet oldState (stateKeyOf env target id host path) = some []) :
    updateRule env (some target) id host path true data oldState newState =
      some (mapSet target (lit "serviceId")
        (.str (ns ++ colon :: asString (mapGet target (lit "serviceId")))), newState) := by
  rcases hkey with h | h <;> simp [updateRule, h, hdata, convert.IsEmpty]

theorem updateRule_storage (env : Env) (target : Obj) (id host path : GoString)
    (data : Obj) (oldState newState : StateMap) :
    updateRule env (some target) id host path false data oldState newState =
      some (mapSet target (lit "serviceId") (.str
          (if asString (mapGet target (lit "serviceId")) ≠ [] then
            (if (strings.Split (asString (mapGet target (lit "serviceId"))) colon).length > 1
              then (strings.Split (asString (mapGet target (lit "serviceId"))) colon).getD 1 []
              else asString (mapGet target (lit "serviceId")))
           else getServiceID (stateKeyOf env target id host path))),
        mapSet newState (stateKeyOf env target id host path)
          (strings.Join
            (convert.ToStringSlice ((mapGet target (lit "workloadIds")).getD .null)) slash)) := by
  simp [updateRule]

/-- C3: a target whose StateKey is absent from, or empty in, the old State Map, on a
resource whose `namespaceId` is `ns`, with service identifier `s` (the empty string
when the field is missing or not a string), `ns` and `s` free of `:`: `updateRule`
toward the client sets `serviceId` to `ns:s`, and `updateRule` toward storage on the
result, whatever its other arguments, sets `serviceId` back to `s`. -/
theorem C3_service_id_round_trip (env : Env) (target : Obj) (id host path : GoString)
    (data : Obj) (oldState newState : StateMap) (ns s : GoString)
    (hns : colon ∉ ns) (hs : colon ∉ s)
    (hdata : mapGet data (lit "namespaceId") = some (.str ns))
    (hsvc : asString (mapGet target (lit "serviceId")) = s)
    (hkey : mapGet oldState (stateKeyOf env target id host path) = none ∨
      mapGet oldState (stateKeyOf env target id host path) = some []) :
    ∃ t1, updateRule env (some target) id host path true data oldState newState
        = some (t1, newState) ∧
      mapGet t1 (lit "serviceId") = some (.str (ns ++ colon :: s)) ∧
      ∀ (id2 host2 path2 : GoString) (data2 : Obj) (old2 new2 : StateMap),
        ∃ t2 n2, updateRule env (some t1) id2 host2 path2 false data2 old2 new2 = some (t2, n2) ∧
          mapGet t2 (lit "serviceId") = some (.str s) := by
  refine ⟨_, updateRule_client_service env target id host path data oldState newState ns hdata
    hkey, ?_, ?_⟩
  · rw [mapGet_mapSet_same, hsvc]
  · intro id2 host2 path2 data2 old2 new2
    refine ⟨_, _, updateRule_storage env _ id2 host2 path2 data2 old2 new2, ?_⟩
    rw [mapGet_mapSet_same, mapGet_mapSet_same, hsvc]
    have hsplit : strings.Split (ns ++ colon :: s) colon = [ns, s] := by
      rw [Split_append_sep _ _ _ hns, Split_of_not_mem _ _ hs]
    simp [asString, hsplit]

/-- C3, at an instance: namespace `ns1`, service `web`, a target on port 80 and an
empty old State Map. -/
theorem C3_service_id_round_trip_witness :
    ∃ t1, updateRule specEnv (some [(lit "targetPort", .int 80), (lit "serviceId", .str (lit "web"))])
        (lit "ns1:ing") (lit "a.com") (lit "/x") true [(lit "namespaceId", .str (lit "ns1"))] [] []
        = some (t1, []) ∧
      mapGet t1 (lit "serviceId") = some (.str (lit "ns1" ++ colon :: lit "web")) ∧
      ∀ (id2 host2 path2 : GoString) (data2 : Obj) (old2 new2 : StateMap),
        ∃ t2 n2, updateRule specEnv (some t1) id2 host2 path2 false data2 old2 new2
            = some (t2, n2) ∧
          mapGet t2 (lit "serviceId") = some (.str (lit "web")) :=
  C3_service_id_round_trip specEnv _ _ _ _ _ [] [] (lit "ns1") (lit "web") (by decide) (by decide)
    rfl rfl (Or.inl rfl)

/-! ## `base64.URLEncoding` decodes what it encodes -/

theorem decodeURL_encodeURL (i : Nat) (h : i < 64) :
    base64.decodeURL (base64.encodeURL i) = some i := by
  have key : ∀ j : Fin 64, base64.decodeURL (base64.encodeURL j.val) = some j.val := by decide
  exact key ⟨i, h⟩

theorem encodeURL_plain (i : Nat) (h : i < 64) :
    base64.encodeURL i ≠ 13 ∧ base64.encodeURL i ≠ 10 ∧ base64.encodeURL i ≠ base64.padChar := by
  have key : ∀ j : Fin 64, base64.encodeURL j.val ≠ 13 ∧ base64.encodeURL j.val ≠ 10 ∧
      base64.encodeURL j.val ≠ base64.padChar := by decide
  exact key ⟨i, h⟩

theorem decodeURL_padChar : base64.decodeURL base64.padChar = none := by decide

theorem ofNat_val (a : Byte) (n : Nat) (h : n = a.val) : (Fin.ofNat n : Byte) = a := by
  apply Fin.ext
  subst h
  simp [Fin.ofNat]

theorem filter_EncodeToString (src : List Byte) :
    (base64.EncodeToString src).filter (fun c => decide (c ≠ 13 ∧ c ≠ 10))
      = base64.EncodeToString src := by
  rw [List.filter_eq_self]
  induction src using base64.EncodeToString.induct with
  | case1 => simp [base64.EncodeToString]
  | case2 a =>
    intro c hc
    simp only [base64.EncodeToString, List.mem_cons, List.mem_singleton, List.mem_nil_iff,
      or_false] at hc
    have h1 := encodeURL_plain (a.val / 4) (by omega)
    have h2 := encodeURL_plain (a.val % 4 * 16) (by omega)
    rcases hc with rfl | rfl | rfl | rfl
    · simp [h1.1, h1.2.1]
    · simp [h2.1, h2.2.1]
    · decide
    · decide
  | case3 a b =>
    intro c hc
    simp only [base64.EncodeToString, List.mem_cons, List.mem_singleton, List.mem_nil_iff,
      or_false] at hc
    have h1 := encodeURL_plain (a.val / 4) (by omega)
    have h2 := encodeURL_plain (a.val % 4 * 16 + b.val / 16) (by omega)
    have h3 := encodeURL_plain (b.val % 16 * 4) (by omega)
    rcases hc with rfl | rfl | rfl | rfl
    · simp [h1.1, h1.2.1]
    · simp [h2.1, h2.2.1]
    · simp [h3.1, h3.2.1]
    · decide
  | case4 a b c r ih =>
    intro x hx
    simp only [base64.EncodeToString, List.mem_cons] at hx
    have h1 := encodeURL_plain (a.val / 4) (by omega)
    have h2 := encodeURL_plain (a.val % 4 * 16 + b.val / 16) (by omega)
    have h3 := encodeURL_plain (b.val % 16 * 4 + c.val / 64) (by omega)
    have h4 := encodeURL_plain (c.val % 64) (by omega)
    rcases hx with rfl | rfl | rfl | rfl | hx
    · simp [h1.1, h1.2.1]
    · simp [h2.1, h2.2.1]
    · simp [h3.1, h3.2.1]
    · simp [h4.1, h4.2.1]
    · exact ih x hx

theorem decodeQuanta_EncodeToString (src : List Byte) :
    base64.decodeQuanta (base64.EncodeToString src) = some src := by
  induction src using base64.EncodeToString.induct with
  | case1 => simp [base64.EncodeToString, base64.decodeQuanta]
  | case2 a =>
    have h1 := decodeURL_encodeURL (a.val / 4) (by omega)
    have h2 := decodeURL_encodeURL (a.val % 4 * 16) (by omega)
    simp only [base64.EncodeToString, base64.decodeQuanta, h1, h2, decodeURL_padChar]
    simp only [and_self, if_true, Option.some.injEq, List.cons.injEq, and_true]
    exact ofNat_val _ _ (by omega)
  | case3 a b =>
    have h1 := decodeURL_encodeURL (a.val / 4) (by omega)
    have h2 := decodeURL_encodeURL (a.val % 4 * 16 + b.val / 16) (by omega)
    have h3 := decodeURL_encodeURL (b.val % 16 * 4) (by omega)
    simp only [base64.EncodeToString, base64.decodeQuanta, h1, h2, h3, decodeURL_padChar]
    simp only [and_self, if_true, Option.some.injEq, List.cons.injEq, and_true]
    exact ⟨ofNat_val _ _ (by omega), ofNat_val _ _ (by omega)⟩
  | case4 a b c r ih =>
    have h1 := decodeURL_encodeURL (a.val / 4) (by omega)
    have h2 := decodeURL_encodeURL (a.val % 4 * 16 + b.val / 16) (by omega)
    have h3 := decodeURL_encodeURL (b.val % 16 * 4 + c.val / 64) (by omega)
    have h4 := decodeURL_encodeURL (c.val % 64) (by omega)
    simp only [base64.EncodeToString, base64.decodeQuanta, h1, h2, h3, h4, ih]
    simp only [Option.some.injEq, List.cons.injEq, and_true]
    exact ⟨ofNat_val _ _ (by omega), ofNat_val _ _ (by omega), ofNat_val _ _ (by omega)⟩

theorem DecodeString_EncodeToString (src : List Byte) :
    base64.DecodeString (base64.EncodeToString src) = some src := by
  rw [base64.DecodeString, filter_EncodeToString, decodeQuanta_EncodeToString]

theorem EncodeToString_injective (a b : List Byte)
    (h : base64.EncodeToString a = base64.EncodeToString b) : a = b := by
  have := DecodeString_EncodeToString a
  rw [h, DecodeString_EncodeToString] at this
  exact (Option.some.inj this).symm

/-! ## The synthetic service identifier -/

theorem hex_digit_ne_colon (n : Nat) (h : n < 16) : hex.digit n ≠ colon := by
  have key : ∀ j : Fin 16, hex.digit j.val ≠ colon := by decide
  exact key ⟨n, h⟩

theorem colon_not_mem_hex (src : List Byte) : colon ∉ hex.EncodeToString src := by
  induction src with
  | nil => simp [hex.EncodeToString]
  | cons b r ih =>
    simp only [hex.EncodeToString, List.mem_cons, not_or]
    exact ⟨(hex_digit_ne_colon _ (by omega)).symm, (hex_digit_ne_colon _ (by omega)).symm, ih⟩

theorem getServiceID_EncodeToString (bytes : List Byte) :
    getServiceID (base64.EncodeToString bytes)
      = lit "ingress-" ++ hex.EncodeToString (md5.Sum bytes) := by
  simp [getServiceID, DecodeString_EncodeToString]

theorem colon_not_mem_getServiceID (stateKey : GoString) : colon ∉ getServiceID stateKey := by
  unfold getServiceID
  split
  · simp
  · rw [List.mem_append, not_or]
    exact ⟨by decide, colon_not_mem_hex _⟩

/-- C6: a target with no service identifier (the field absent, empty, or not a
string) whose StateKey is the URL-safe base64 encoding of some bytes: `updateRule`
toward storage sets `serviceId` to `getServiceID(stateKey)`, which is not empty and
begins with `ingress-`; and `updateRule` toward storage on the result, whatever its
other arguments, leaves `serviceId` as it is. -/
theorem C6_synthetic_identifier (env : Env) (target : Obj) (id host path : GoString)
    (data : Obj) (oldState newState : StateMap) (bytes : List Byte)
    (hsvc : asString (mapGet target (lit "serviceId")) = [])
    (hkey : stateKeyOf env target id host path = base64.EncodeToString bytes) :
    ∃ t1 n1, updateRule env (some target) id host path false data oldState newState
        = some (t1, n1) ∧
      mapGet t1 (lit "serviceId") = some (.str (getServiceID (stateKeyOf env target id host path))) ∧
      getServiceID (stateKeyOf env target id host path) ≠ [] ∧
      (∃ rest, getServiceID (stateKeyOf env target id host path) = lit "ingress-" ++ rest) ∧
      ∀ (id2 host2 path2 : GoString) (data2 : Obj) (old2 new2 : StateMap),
        ∃ t2 n2, updateRule env (some t1) id2 host2 path2 false data2 old2 new2 = some (t2, n2) ∧
          mapGet t2 (lit "serviceId") = mapGet t1 (lit "serviceId") := by
  have hid : getServiceID (stateKeyOf env target id host path)
      = lit "ingress-" ++ hex.EncodeToString (md5.Sum bytes) := by
    rw [hkey, getServiceID_EncodeToString]
  have hne : getServiceID (stateKeyOf env target id host path) ≠ [] := by
    rw [hid]
    intro h
    have hnil : lit "ingress-" = [] := (List.append_eq_nil.mp h).1
    exact absurd hnil (by decide)
  refine ⟨_, _, updateRule_storage env target id host path data oldState newState, ?_, hne,
    ⟨_, hid⟩, ?_⟩
  · rw [mapGet_mapSet_same, hsvc]
    simp
  · intro id2 host2 path2 data2 old2 new2
    refine ⟨_, _, updateRule_storage env _ id2 host2 path2 data2 old2 new2, ?_⟩
    rw [mapGet_mapSet_same, mapGet_mapSet_same, hsvc]
    simp only [ne_eq, not_true_eq_false, if_false, asString]
    rw [if_pos hne, Split_of_not_mem _ _ (colon_not_mem_getServiceID _)]
    simp

/-- C6, at an instance: the rule of the spec's example (host `a.com`, path `/x`,
port 80) on the resource `ns1:ing`, with no service identifier. -/
theorem C6_synthetic_identifier_witness :
    ∃ t1 n1, updateRule specEnv (some [(lit "targetPort", .int 80)]) (lit "ns1:ing")
        (lit "a.com") (lit "/x") false [] [] [] = some (t1, n1) ∧
      mapGet t1 (lit "serviceId") = some (.str (getServiceID
        (stateKeyOf specEnv [(lit "targetPort", .int 80)] (lit "ns1:ing") (lit "a.com") (lit "/x")))) ∧
      getServiceID
        (stateKeyOf specEnv [(lit "targetPort", .int 80)] (lit "ns1:ing") (lit "a.com") (lit "/x"))
          ≠ [] ∧
      (∃ rest, getServiceID
        (stateKeyOf specEnv [(lit "targetPort", .int 80)] (lit "ns1:ing") (lit "a.com") (lit "/x"))
          = lit "ingress-" ++ rest) ∧
      ∀ (id2 host2 path2 : GoString) (data2 : Obj) (old2 new2 : StateMap),
        ∃ t2 n2, updateRule specEnv (some t1) id2 host2 path2 false data2 old2 new2
            = some (t2, n2) ∧
          mapGet t2 (lit "serviceId") = mapGet t1 (lit "serviceId") :=
  C6_synthetic_identifier specEnv [(lit "targetPort", .int 80)] (lit "ns1:ing") (lit "a.com")
    (lit "/x") [] [] [] (lit "ing/ns1/a.com//x/80") rfl rfl

/-! ## `updateCerts` -/

theorem ToString_str (s : GoString) : convert.ToString (.str s) = strings.TrimSpace s := by
  simp [convert.ToString, convert.Singular, fmt.Sprint]

theorem GetValue_single (data : Obj) (k : GoString) : values.GetValue data [k] = mapGet data k := by
  simp [values.GetValue]

theorem certsLoop_append (ff : Bool) (old : StateMap) (a b : List Value) (s : StateMap) :
    certsLoop ff old (a ++ b) s =
      ((certsLoop ff old a s).1 ++ (certsLoop ff old b (certsLoop ff old a s).2).1,
        (certsLoop ff old b (certsLoop ff old a s).2).2) := by
  induction a generalizing s with
  | nil => simp [certsLoop]
  | cons v r ih =>
    cases v <;> simp [certsLoop, ih]

theorem certsLoop_length (ff : Bool) (old : StateMap) (a : List Value) (s : StateMap) :
    (certsLoop ff old a s).1.length = a.length := by
  induction a generalizing s with
  | nil => simp [certsLoop]
  | cons v r ih =>
    cases v <;> simp [certsLoop, ih]

theorem updateCert_malformed (old : StateMap) (cert : Obj) (s : StateMap)
    (h : (strings.Split (certificateIdOf cert) colon).length ≠ 2) :
    updateCert false old cert s = (cert, s) := by
  unfold certificateIdOf at h
  simp [updateCert, h]

/-- C9: a certificate record of `data["tls"]` whose `certificateId` does not split
on `:` into exactly two parts: `updateCerts` toward storage leaves the record as it
is, at its place in the list, and the new State Map is the one the call builds when
the record is not in the list at all. -/
theorem C9_malformed_certificate_skipped (data : Obj) (before after : List Value) (cert : Obj)
    (oldState newState : StateMap)
    (htls : mapGet data (lit "tls") = some (.list (before ++ .map cert :: after)))
    (hbad : (strings.Split (certificateIdOf cert) colon).length ≠ 2) :
    ∃ before1 after1,
      (updateCerts data false oldState newState).1
        = mapSet data (lit "tls") (.list (before1 ++ .map cert :: after1)) ∧
      before1.length = before.length ∧
      (updateCerts data false oldState newState).2
        = (updateCerts (mapSet data (lit "tls") (.list (before ++ after))) false oldState
            newState).2 := by
  refine ⟨(certsLoop false oldState before newState).1,
    (certsLoop false oldState after (certsLoop false oldState before newState).2).1, ?_,
    certsLoop_length _ _ _ _, ?_⟩
  · simp [updateCerts, GetValue_single, htls, certsLoop_append, certsLoop,
      updateCert_malformed _ _ _ hbad]
  · simp [updateCerts, GetValue_single, htls, mapGet_mapSet_same, certsLoop_append, certsLoop,
      updateCert_malformed _ _ _ hbad]

/-- C9, at the spec's instance: the identifier `certA`, with no separator, between
two well-formed records. -/
theorem C9_malformed_certificate_skipped_witness :
    ∃ before1 after1,
      (updateCerts [(lit "tls", .list ([.map [(lit "certificateId", .str (lit "ns1:a"))]] ++
          .map [(lit "certificateId", .str (lit "certA"))] ::
          [.map [(lit "certificateId", .str (lit "ns1:b"))]]))] false [] []).1
        = mapSet [(lit "tls", .list ([.map [(lit "certificateId", .str (lit "ns1:a"))]] ++
          .map [(lit "certificateId", .str (lit "certA"))] ::
          [.map [(lit "certificateId", .str (lit "ns1:b"))]]))] (lit "tls")
            (.list (before1 ++ .map [(lit "certificateId", .str (lit "certA"))] :: after1)) ∧
      before1.length = [Value.map [(lit "certificateId", .str (lit "ns1:a"))]].length ∧
      (updateCerts [(lit "tls", .list ([.map [(lit "certificateId", .str (lit "ns1:a"))]] ++
          .map [(lit "certificateId", .str (lit "certA"))] ::
          [.map [(lit "certificateId", .str (lit "ns1:b"))]]))] false [] []).2
        = (updateCerts (mapSet [(lit "tls", .list ([.map [(lit "certificateId", .str (lit "ns1:a"))]] ++
          .map [(lit "certificateId", .str (lit "certA"))] ::
          [.map [(lit "certificateId", .str (lit "ns1:b"))]]))] (lit "tls")
            (.list ([.map [(lit "certificateId", .str (lit "ns1:a"))]] ++
              [.map [(lit "certificateId", .str (lit "ns1:b"))]]))) false [] []).2 :=
  C9_malformed_certificate_skipped _ _ _ _ [] [] rfl (by decide)

theorem certificateIdOf_qualified (m : Obj) (p : GoString × GoString)
    (h : mapGet m (lit "certificateId") = some (.str (p.1 ++ colon :: p.2)))
    (ht : strings.TrimSpace (p.1 ++ colon :: p.2) = p.1 ++ colon :: p.2) :
    certificateIdOf m = p.1 ++ colon :: p.2 := by
  simp [certificateIdOf, h, ToString_str, ht]

theorem updateCert_storage_qualified (old : StateMap) (m : Obj) (p : GoString × GoString)
    (s : StateMap) (h : certificateIdOf m = p.1 ++ colon :: p.2)
    (h1 : colon ∉ p.1) (h2 : colon ∉ p.2) :
    updateCert false old m s
      = (mapSet m (lit "certificateId") (.str p.2),
          mapSet s (getCertKey p.2) (p.1 ++ colon :: p.2)) := by
  have hsplit : strings.Split (p.1 ++ colon :: p.2) colon = [p.1, p.2] := by
    rw [Split_append_sep _ _ _ h1, Split_of_not_mem _ _ h2]
  unfold certificateIdOf at h
  simp [updateCert, h, hsplit]

theorem certsLoop_storage_state (old : StateMap) (certs : List Value)
    (ids : List (GoString × GoString)) (h : List.Forall₂ qualifiedCert certs ids)
    (s : StateMap) : (certsLoop false old certs s).2 = certState ids s := by
  induction h generalizing s with
  | nil => simp [certsLoop, certState]
  | cons hq _ ih =>
    obtain ⟨m, rfl, hm, h1, h2, ht, _⟩ := hq
    simp [certsLoop, certState,
      updateCert_storage_qualified old m _ s (certificateIdOf_qualified m _ hm ht) h1 h2, ih]

theorem updateCert_client (old : StateMap) (m : Obj) (s : StateMap) :
    updateCert true old m s
      = (mapSet m (lit "certificateId")
          (.str ((mapGet old (getCertKey (certificateIdOf m))).getD [])), s) := by
  simp [updateCert, certificateIdOf]

theorem certsLoop_round_trip (old final : StateMap) (certs : List Value)
    (ids : List (GoString × GoString)) (h : List.Forall₂ qualifiedCert certs ids)
    (hfinal : ∀ p ∈ ids, mapGet final (getCertKey p.2) = some (p.1 ++ colon :: p.2))
    (s s2 : StateMap) :
    certsLoop true final (certsLoop false old certs s).1 s2 = (certs, s2) := by
  induction h generalizing s with
  | nil => simp [certsLoop]
  | @cons v p vs ps hq _ ih =>
    obtain ⟨m, rfl, hm, h1, h2, ht, ht2⟩ := hq
    have hp := hfinal p (by simp)
    have hrest := ih (fun q hq => hfinal q (by simp [hq]))
    have hname : certificateIdOf (mapSet m (lit "certificateId") (.str p.2)) = p.2 := by
      simp [certificateIdOf, mapGet_mapSet_same, ToString_str, ht2]
    simp only [certsLoop,
      updateCert_storage_qualified old m p s (certificateIdOf_qualified m p hm ht) h1 h2,
      updateCert_client, hname, hp, Option.getD_some, mapSet_mapSet_same,
      mapSet_of_mapGet _ _ _ hm, hrest]

theorem mapGet_certState_of_not_mem (ids : List (GoString × GoString)) (s : StateMap)
    (k : GoString) (h : ∀ q ∈ ids, getCertKey q.2 ≠ k) :
    mapGet (certState ids s) k = mapGet s k := by
  induction ids generalizing s with
  | nil => simp [certState]
  | cons q r ih =>
    rw [certState, ih _ (fun x hx => h x (by simp [hx])), mapGet_mapSet_ne _ _ _ _ (h q (by simp))]

theorem mapGet_certState (ids : List (GoString × GoString)) (s : StateMap)
    (hsame : ∀ p ∈ ids, ∀ q ∈ ids, p.2 = q.2 → p.1 = q.1) (p : GoString × GoString)
    (hp : p ∈ ids) : mapGet (certState ids s) (getCertKey p.2) = some (p.1 ++ colon :: p.2) := by
  induction ids generalizing s with
  | nil => simp at hp
  | cons q r ih =>
    rw [certState]
    by_cases hr : p ∈ r
    · exact ih _ (fun a ha b hb => hsame a (by simp [ha]) b (by simp [hb])) hr
    · have hpq : p = q := by
        rcases List.mem_cons.mp hp with h | h
        · exact h
        · exact absurd h hr
      subst hpq
      rw [mapGet_certState_of_not_mem, mapGet_mapSet_same]
      intro x hx hk
      have hname : x.2 = p.2 := EncodeToString_injective _ _ hk
      have hns : x.1 = p.1 := hsame x (by simp [hx]) p (by simp) hname
      exact hr (by rw [← Prod.ext hns hname]; exact hx)

/-- C2, amended: a `tls` list in which every record's `certificateId` is a string
`ns:name` (no `:` in `ns` or `name`, no white space at either end of `ns:name` or of
`name`) and in which records with the same name have the same namespace:
`updateCerts` toward storage writes, for every record, the state
entry `getCertKey(name) -> ns:name`, and `updateCerts` toward the client with the
State Map of that run gives back the resource representation the first run started
from, so every `certificateId` is again its qualified value. -/
theorem C2_certificate_round_trip (data : Obj) (certs : List Value)
    (ids : List (GoString × GoString)) (oldState newState newState2 : StateMap)
    (htls : mapGet data (lit "tls") = some (.list certs))
    (hform : List.Forall₂ qualifiedCert certs ids)
    (hsame : ∀ p ∈ ids, ∀ q ∈ ids, p.2 = q.2 → p.1 = q.1) :
    (∀ p ∈ ids, mapGet (updateCerts data false oldState newState).2 (getCertKey p.2)
        = some (p.1 ++ colon :: p.2)) ∧
      updateCerts (updateCerts data false oldState newState).1 true
          (updateCerts data false oldState newState).2 newState2 = (data, newState2) := by
  have hrun : updateCerts data false oldState newState
      = (mapSet data (lit "tls") (.list (certsLoop false oldState certs newState).1),
          certState ids newState) := by
    simp [updateCerts, GetValue_single, htls, certsLoop_storage_state oldState certs ids hform]
  rw [hrun]
  have hlook : ∀ p ∈ ids, mapGet (certState ids newState) (getCertKey p.2)
      = some (p.1 ++ colon :: p.2) := fun p hp => mapGet_certState ids newState hsame p hp
  refine ⟨hlook, ?_⟩
  simp only [updateCerts, GetValue_single, mapGet_mapSet_same,
    certsLoop_round_trip oldState _ certs ids hform hlook, mapSet_mapSet_same,
    mapSet_of_mapGet _ _ _ htls]

/-- C2, amended, at the spec's instance: the single record `ns1:certA`. -/
theorem C2_certificate_round_trip_witness :
    (∀ p ∈ [(lit "ns1", lit "certA")],
      mapGet (updateCerts [(lit "tls", .list [.map [(lit "certificateId", .str (lit "ns1:certA"))]])]
        false [] []).2 (getCertKey p.2) = some (p.1 ++ colon :: p.2)) ∧
      updateCerts
        (updateCerts [(lit "tls", .list [.map [(lit "certificateId", .str (lit "ns1:certA"))]])]
          false [] []).1 true
        (updateCerts [(lit "tls", .list [.map [(lit "certificateId", .str (lit "ns1:certA"))]])]
          false [] []).2 []
        = ([(lit "tls", .list [.map [(lit "certificateId", .str (lit "ns1:certA"))]])], []) :=
  C2_certificate_round_trip _ _ [(lit "ns1", lit "certA")] [] [] [] rfl
    (List.Forall₂.cons ⟨_, rfl, rfl, by decide, by decide, by decide, by decide⟩
      List.Forall₂.nil)
    (by decide)

/-- C2 as stated fails.  Two records `ns1:c` and `ns2:c`, each of the form `ns:name`,
share the key `getCertKey("c")`; the second entry replaces the first, and the run
toward the client gives both records the identifier `ns2:c`.  And `convert.ToString`
trims the identifier before it is split: the record ` ns1:sp `, with a space at
either end, comes back as `ns1:sp`, and the record `ns1: sp`, stored under the key of
the name ` sp`, is looked up under the key of `sp` and comes back empty. -/
theorem C2_counterexample :
    certificateIds (tlsOf [lit "ns1:c", lit "ns2:c"]) = [lit "ns1:c", lit "ns2:c"] ∧
    certificateIds (certRoundTrip (tlsOf [lit "ns1:c", lit "ns2:c"]))
      = [lit "ns2:c", lit "ns2:c"] ∧
    certificateIdStrings (tlsOf [lit " ns1:sp "]) = [lit " ns1:sp "] ∧
    certificateIdStrings (certRoundTrip (tlsOf [lit " ns1:sp "])) = [lit "ns1:sp"] ∧
    certificateIdStrings (tlsOf [lit "ns1: sp"]) = [lit "ns1: sp"] ∧
    certificateIdStrings (certRoundTrip (tlsOf [lit "ns1: sp"])) = [[]] := by
  decide

/-! ## `getState` -/

theorem storeMembers_isSome (members : List (GoString × json.Json)) (state : StateMap)
    (k : GoString) (h : (∃ x, (k, x) ∈ members) ∨ (mapGet state k).isSome) :
    (mapGet (json.storeMembers members state) k).isSome := by
  induction members generalizing state with
  | nil =>
    rcases h with ⟨x, hx⟩ | h
    · simp at hx
    · simpa [json.storeMembers] using h
  | cons e r ih =>
    obtain ⟨key, v⟩ := e
    rw [json.storeMembers]
    apply ih
    rcases h with ⟨x, hx⟩ | h
    · rcases List.mem_cons.mp hx with he | hr
      · right
        have hk : key = k := (Prod.mk.inj he).1.symm
        rw [hk, mapGet_mapSet_same]
        rfl
      · exact Or.inl ⟨x, hr⟩
    · right
      by_cases hk : key = k
      · rw [hk, mapGet_mapSet_same]
        rfl
      · rw [mapGet_mapSet_ne _ _ _ _ hk]
        exact h

/-- C10, amended: `getState` returns the empty State Map when the annotation is
absent, when its text is not valid JSON, and when it is valid JSON other than an
object; when it is a valid JSON object, `getState` returns the map decoded from its
members, in which every member's key is present, so an object that has a member
whose value is not a string does not give the empty map. -/
theorem C10_getState_fails_soft (data : Obj) :
    (values.GetValue data [lit "annotations", ingressStateAnnotation] = none →
      getState data = []) ∧
    (∀ v, values.GetValue data [lit "annotations", ingressStateAnnotation] = some v →
      json.parse (convert.ToString v) = none → getState data = []) ∧
    (∀ v j, values.GetValue data [lit "annotations", ingressStateAnnotation] = some v →
      json.parse (convert.ToString v) = some j → (∀ members, j ≠ .object members) →
        getState data = []) ∧
    (∀ v members, values.GetValue data [lit "annotations", ingressStateAnnotation] = some v →
      json.parse (convert.ToString v) = some (.object members) →
        getState data = json.storeMembers members [] ∧
        ∀ k x, (k, x) ∈ members → (mapGet (getState data) k).isSome) := by
  refine ⟨?_, ?_, ?_, ?_⟩
  · intro h
    simp [getState, h]
  · intro v h hp
    simp [getState, h, json.Unmarshal, hp]
  · intro v j h hp hj
    cases j with
    | object members => exact absurd rfl (hj members)
    | null => simp [getState, h, json.Unmarshal, hp]
    | bool b => simp [getState, h, json.Unmarshal, hp]
    | number => simp [getState, h, json.Unmarshal, hp]
    | string s => simp [getState, h, json.Unmarshal, hp]
    | array xs => simp [getState, h, json.Unmarshal, hp]
  · intro v members h hp
    have hs : getState data = json.storeMembers members [] := by
      simp [getState, h, json.Unmarshal, hp]
    refine ⟨hs, ?_⟩
    intro k x hx
    rw [hs]
    exact storeMembers_isSome members [] k (Or.inl ⟨x, hx⟩)

/-- C10, amended, at instances: no annotation; the text `oops`; the text `[1]`; and
the object with the string member `a` and the number member `b`. -/
theorem C10_getState_fails_soft_witness :
    getState [] = [] ∧
    getState (annotated (lit "oops")) = [] ∧
    getState (annotated (lit "[1]")) = [] ∧
    (mapGet (getState (annotated (lit "\x7b\"a\":\"x\",\"b\":5\x7d"))) (lit "b")).isSome :=
  ⟨(C10_getState_fails_soft []).1 rfl,
    (C10_getState_fails_soft (annotated (lit "oops"))).2.1 (.str (lit "oops")) rfl rfl,
    (C10_getState_fails_soft (annotated (lit "[1]"))).2.2.1 (.str (lit "[1]"))
      (.array [.number]) rfl rfl (by simp),
    ((C10_getState_fails_soft (annotated (lit "\x7b\"a\":\"x\",\"b\":5\x7d"))).2.2.2
      (.str (lit "\x7b\"a\":\"x\",\"b\":5\x7d"))
      [(lit "a", .string (lit "x")), (lit "b", .number)] rfl rfl).2 (lit "b") .number (by simp)⟩

/-- C10 as stated fails: the annotation text is a valid JSON object whose member `b`
is a number; `getState` returns a map with two entries, `a` with its string and `b`
with the empty string, not the empty State Map. -/
theorem C10_counterexample :
    getState (annotated (lit "\x7b\"a\":\"x\",\"b\":5\x7d")) = [(lit "a", lit "x"), (lit "b", [])] := by
  decide

/-! ## `formatData` can panic -/

/-- C4 fails on the code: toward the client, a service-backed default backend on a
resource representation without a string `namespaceId` makes `updateRule` evaluate
`data["namespaceId"].(string)`, which panics; and in either direction a
`defaultBackend` that is not a map reaches `updateRule` as the nil map, whose
assignment panics.  This holds with any `ref.Parse`, `GetStateKey`,
`SetPublicEnpointsFields` and visiting order. -/
theorem C4_formatData_panics (env : Env) (id : GoString) :
    formatData env id [(lit "defaultBackend", .map [(lit "targetPort", .int 80)])] true = none ∧
    formatData env id
      [(lit "namespaceId", .int 7), (lit "defaultBackend", .map [(lit "targetPort", .int 80)])]
      true = none ∧
    formatData env id [(lit "defaultBackend", .str (lit "web"))] false = none ∧
    formatData env id
      [(lit "namespaceId", .str (lit "ns1")), (lit "defaultBackend", .str (lit "web"))] true
        = none := by
  refine ⟨?_, ?_, ?_, ?_⟩
  · have hs : getState [(lit "defaultBackend", .map [(lit "targetPort", .int 80)])] = [] := rfl
    have hn : mapGet [(lit "defaultBackend", Value.map [(lit "targetPort", .int 80)])]
        (lit "namespaceId") = none := rfl
    have hd : values.GetValue [(lit "defaultBackend", Value.map [(lit "targetPort", .int 80)])]
        [lit "defaultBackend"] = some (.map [(lit "targetPort", .int 80)]) := rfl
    simp [formatData, defaultStep, hs, hd, updateRule, convert.ToMapInterface, mapGet, hn]
  · have hs : getState [(lit "namespaceId", .int 7),
        (lit "defaultBackend", .map [(lit "targetPort", .int 80)])] = [] := rfl
    have hn : mapGet [(lit "namespaceId", Value.int 7),
        (lit "defaultBackend", Value.map [(lit "targetPort", .int 80)])]
        (lit "namespaceId") = some (.int 7) := rfl
    have hd : values.GetValue [(lit "namespaceId", Value.int 7),
        (lit "defaultBackend", Value.map [(lit "targetPort", .int 80)])]
        [lit "defaultBackend"] = some (.map [(lit "targetPort", .int 80)]) := rfl
    simp [formatData, defaultStep, hs, hd, updateRule, convert.ToMapInterface, mapGet, hn]
  · have hd : values.GetValue [(lit "defaultBackend", Value.str (lit "web"))]
        [lit "defaultBackend"] = some (.str (lit "web")) := rfl
    simp [formatData, defaultStep, hd, updateRule, convert.ToMapInterface]
  · have hs : getState [(lit "namespaceId", .str (lit "ns1")),
        (lit "defaultBackend", .str (lit "web"))] = [] := rfl
    have hn : mapGet [(lit "namespaceId", Value.str (lit "ns1")),
        (lit "defaultBackend", Value.str (lit "web"))]
        (lit "namespaceId") = some (.str (lit "ns1")) := rfl
    have hd : values.GetValue [(lit "namespaceId", Value.str (lit "ns1")),
        (lit "defaultBackend", Value.str (lit "web"))]
        [lit "defaultBackend"] = some (.str (lit "web")) := rfl
    simp [formatData, defaultStep, hs, hd, updateRule, convert.ToMapInterface, mapGet, hn]

/-! ## What each step of `formatData` leaves alone -/

theorem mapGet_putTargetAt (data : Obj) (pl : Place) (t : Obj) (k : GoString)
    (h : lit "rules" ≠ k) : mapGet (putTargetAt data pl t) k = mapGet data k := by
  unfold putTargetAt
  split
  · split
    · split
      · exact mapGet_mapSet_ne _ _ _ _ h
      · rfl
    · rfl
  · rfl

theorem targetAt_mapSet (data : Obj) (pl : Place) (k : GoString) (x : Value)
    (h : k ≠ lit "rules") : targetAt (mapSet data k x) pl = targetAt data pl := by
  simp only [targetAt, mapGet_mapSet_ne _ _ _ _ h]

theorem getPaths_mapSet (data : Obj) (k : GoString) (x : Value) (h : k ≠ lit "rules") :
    getPaths (mapSet data k x) = getPaths data := by
  simp only [getPaths, GetValue_single, mapGet_mapSet_ne _ _ _ _ h]

theorem putTargetAt_mapSet (data : Obj) (pl : Place) (t : Obj) (k : GoString) (x : Value)
    (h : k ≠ lit "rules") :
    putTargetAt (mapSet data k x) pl t = mapSet (putTargetAt data pl t) k x := by
  unfold putTargetAt
  rw [mapGet_mapSet_ne _ _ _ _ h]
  split
  · rename_i rules hr
    split
    · split
      · exact (mapSet_comm _ _ _ _ _ h.symm (by rw [hr]; rfl)).symm
      · rfl
    · rfl
  · rfl

theorem updateRule_nil (env : Env) (id host path : GoString) (ff : Bool) (data : Obj)
    (old ns : StateMap) : updateRule env none id host path ff data old ns = none := by
  unfold updateRule
  cases ff
  · simp
  · simp only [if_true]
    split
    · split
      · rfl
      · split
        · rename_i h
          cases h
        · rfl
    · split
      · rename_i h
        cases h
      · rfl

theorem updateRule_storage_indep (env : Env) (target : Option Obj) (id host path : GoString)
    (d1 d2 : Obj) (o1 o2 ns : StateMap) :
    updateRule env target id host path false d1 o1 ns
      = updateRule env target id host path false d2 o2 ns := by
  cases target with
  | none => rw [updateRule_nil, updateRule_nil]
  | some t => rw [updateRule_storage, updateRule_storage]

theorem updateRule_client_newState (env : Env) (target : Option Obj) (id host path : GoString)
    (data : Obj) (old ns : StateMap) (r : Obj × StateMap)
    (h : updateRule env target id host path true data old ns = some r) : r.2 = ns := by
  unfold updateRule at h
  simp only [if_true] at h
  split at h
  · split at h
    · split at h
      · cases h
      · cases h
        rfl
    · split at h
      · cases h
        rfl
      · cases h
  · split at h
    · cases h
      rfl
    · cases h

theorem certsLoop_client_newState (old : StateMap) (certs : List Value) (ns : StateMap) :
    (certsLoop true old certs ns).2 = ns := by
  induction certs generalizing ns with
  | nil => rfl
  | cons v r ih =>
    cases v <;> simp [certsLoop, ih, updateCert_client]

theorem certsLoop_storage_indep (o1 o2 : StateMap) (certs : List Value) (ns : StateMap) :
    certsLoop false o1 certs ns = certsLoop false o2 certs ns := by
  induction certs generalizing ns with
  | nil => rfl
  | cons v r ih =>
    cases v <;> simp [certsLoop, ih, updateCert]

theorem updateCerts_client_newState (data : Obj) (old ns : StateMap) :
    (updateCerts data true old ns).2 = ns := by
  unfold updateCerts
  split
  · exact certsLoop_client_newState _ _ _
  · rfl

theorem mapGet_updateCerts (data : Obj) (ff : Bool) (old ns : StateMap) (k : GoString)
    (h : lit "tls" ≠ k) : mapGet (updateCerts data ff old ns).1 k = mapGet data k := by
  unfold updateCerts
  split
  · exact mapGet_mapSet_ne _ _ _ _ h
  · rfl

theorem mapGet_defaultStep (env : Env) (id : GoString) (data : Obj) (ff : Bool)
    (old ns : StateMap) (r : Obj × StateMap) (k : GoString) (hk : lit "defaultBackend" ≠ k)
    (h : defaultStep env id data ff old ns = some r) : mapGet r.1 k = mapGet data k := by
  unfold defaultStep at h
  split at h
  · cases h
    rfl
  · cases h
    rfl
  · split at h
    · cases h
    · cases h
      exact mapGet_mapSet_ne _ _ _ _ hk

theorem defaultStep_client_newState (env : Env) (id : GoString) (data : Obj)
    (old ns : StateMap) (r : Obj × StateMap)
    (h : defaultStep env id data true old ns = some r) : r.2 = ns := by
  unfold defaultStep at h
  split at h
  · cases h
    rfl
  · cases h
    rfl
  · split at h
    · cases h
    · rename_i t n1 hu
      cases h
      exact updateRule_client_newState _ _ _ _ _ _ _ _ (t, n1) hu

theorem mapGet_rulesLoop (env : Env) (id : GoString) (ff : Bool) (old : StateMap)
    (l : List (hostPath × Place)) (st r : Obj × StateMap) (k : GoString)
    (hk : lit "rules" ≠ k) (h : rulesLoop env id ff old l st = some r) :
    mapGet r.1 k = mapGet st.1 k := by
  induction l generalizing st with
  | nil =>
    simp only [rulesLoop] at h
    cases h
    rfl
  | cons e rest ih =>
    obtain ⟨hp, pl⟩ := e
    obtain ⟨data, ns⟩ := st
    simp only [rulesLoop] at h
    split at h
    · cases h
    · rw [ih _ h]
      exact mapGet_putTargetAt _ _ _ _ hk

theorem rulesLoop_client_newState (env : Env) (id : GoString) (old : StateMap)
    (l : List (hostPath × Place)) (st r : Obj × StateMap)
    (h : rulesLoop env id true old l st = some r) : r.2 = st.2 := by
  induction l generalizing st with
  | nil =>
    simp only [rulesLoop] at h
    cases h
    rfl
  | cons e rest ih =>
    obtain ⟨hp, pl⟩ := e
    obtain ⟨data, ns⟩ := st
    simp only [rulesLoop] at h
    split at h
    · cases h
    · rename_i t n1 hu
      rw [ih _ h]
      exact updateRule_client_newState _ _ _ _ _ _ _ _ (t, n1) hu

theorem GetValue_pair_congr (d1 d2 : Obj) (k1 k2 : GoString) (h : mapGet d1 k1 = mapGet d2 k1) :
    values.GetValue d1 [k1, k2] = values.GetValue d2 [k1, k2] := by
  simp only [values.GetValue, h]

theorem GetValue_PutValue_pair (data : Obj) (x : Value) (k1 k2 : GoString)
    (h : mapGet data k1 = none ∨ ∃ a, mapGet data k1 = some (.map a)) :
    values.GetValue (values.PutValue data x [k1, k2]) [k1, k2] = some x := by
  rcases h with h | ⟨a, h⟩
  · simp [values.PutValue, values.GetValue, h, mapGet_mapSet_same, mapSet, mapGet]
  · simp [values.PutValue, values.GetValue, h, mapGet_mapSet_same]

theorem mapGet_PutValue_pair_of_not_map (data : Obj) (x v : Value) (k1 k2 : GoString)
    (h : mapGet data k1 = some v) (hv : ∀ a, v ≠ .map a) :
    values.PutValue data x [k1, k2] = data := by
  cases v with
  | map a => exact absurd rfl (hv a)
  | null => simp [values.PutValue, h]
  | bool b => simp [values.PutValue, h]
  | int n => simp [values.PutValue, h]
  | str s => simp [values.PutValue, h]
  | list xs => simp [values.PutValue, h]
  | strs xs => simp [values.PutValue, h]

theorem mapGet_rulesStep (env : Env) (id : GoString) (ff : Bool) (old : StateMap)
    (st r : Obj × StateMap) (k : GoString) (hk : lit "rules" ≠ k)
    (h : rulesStep env id ff old st = some r) : mapGet r.1 k = mapGet st.1 k := by
  unfold rulesStep at h
  split at h
  · exact mapGet_rulesLoop _ _ _ _ _ _ _ _ hk h
  · cases h
    rfl

theorem rulesStep_client_newState (env : Env) (id : GoString) (old : StateMap)
    (st r : Obj × StateMap) (h : rulesStep env id true old st = some r) : r.2 = st.2 := by
  unfold rulesStep at h
  split at h
  · exact rulesLoop_client_newState _ _ _ _ _ _ h
  · cases h
    rfl

theorem specEnv_keepsCodecFields : specEnv.keepsCodecFields := fun _ _ _ => rfl

/-! ## The state annotation toward the client -/

/-- C5, amended: toward the client nothing is added to the new State Map, and
`formatData`, when it completes, ends by writing that empty map: the state
annotation then holds the JSON text of the empty object whenever the `annotations`
field was absent or a map, whatever it held before; an `annotations` field that is
not a map is left as it was.  (`SetPublicEnpointsFields` is taken to leave the
codec's fields alone.) -/
theorem C5_client_rewrites_state (env : Env) (henv : env.keepsCodecFields)
    (id : GoString) (data d1 : Obj) (h : formatData env id data true = some d1) :
    ((mapGet data (lit "annotations") = none ∨
        ∃ a, mapGet data (lit "annotations") = some (.map a)) →
      values.GetValue d1 [lit "annotations", ingressStateAnnotation]
        = some (.str (lit "\x7b\x7d"))) ∧
    (∀ v, mapGet data (lit "annotations") = some v → (∀ a, v ≠ .map a) →
      mapGet d1 (lit "annotations") = mapGet data (lit "annotations")) := by
  unfold formatData at h
  simp only at h
  split at h
  · cases h
  · rename_i st1 h1
    split at h
    · cases h
    · rename_i st2 h2
      cases h
      have hn1 : st1.2 = [] := defaultStep_client_newState _ _ _ _ _ _ h1
      have hn2 : st2.2 = [] := by rw [rulesStep_client_newState _ _ _ _ _ h2, hn1]
      have hn3 : (updateCerts st2.1 true (getState data) st2.2).2 = [] := by
        rw [updateCerts_client_newState, hn2]
      have ha : mapGet (updateCerts st2.1 true (getState data) st2.2).1 (lit "annotations")
          = mapGet data (lit "annotations") := by
        rw [mapGet_updateCerts _ _ _ _ _ (by decide),
          mapGet_rulesStep _ _ _ _ _ _ _ (by decide) h2,
          mapGet_defaultStep _ _ _ _ _ _ _ _ (by decide) h1]
      have hspf := henv (setState (updateCerts st2.1 true (getState data) st2.2).1
        (updateCerts st2.1 true (getState data) st2.2).2) (lit "annotations") (by simp)
      refine ⟨?_, ?_⟩
      · intro hann
        rw [GetValue_pair_congr _ _ _ _ hspf, hn3, setState]
        have hm : json.Marshal [] = lit "\x7b\x7d" := by decide
        rw [hm]
        exact GetValue_PutValue_pair _ _ _ _ (by rw [ha]; exact hann)
      · intro v hv hnot
        rw [hspf, setState, mapGet_PutValue_pair_of_not_map _ _ v _ _ (by rw [ha]; exact hv) hnot,
          ha]

/-- C5, amended, at an instance: a resource of namespace `ns1` with a service-backed
default backend and a stored state `{"k":"v"}`. -/
theorem C5_client_rewrites_state_witness :
    formatData specEnv (lit "ns1:ing")
        [(lit "namespaceId", .str (lit "ns1")),
          (lit "defaultBackend", .map [(lit "targetPort", .int 80),
            (lit "serviceId", .str (lit "web"))]),
          (lit "annotations", .map [( ingressStateAnnotation, .str (lit "\x7b\"k\":\"v\"\x7d"))])]
        true
      = some [(lit "namespaceId", .str (lit "ns1")),
          (lit "defaultBackend", .map [(lit "targetPort", .int 80),
            (lit "serviceId", .str (lit "ns1:web"))]),
          (lit "annotations", .map [( ingressStateAnnotation, .str (lit "\x7b\x7d"))])] ∧
    values.GetValue
        [(lit "namespaceId", .str (lit "ns1")),
          (lit "defaultBackend", .map [(lit "targetPort", .int 80),
            (lit "serviceId", .str (lit "ns1:web"))]),
          (lit "annotations", .map [( ingressStateAnnotation, .str (lit "\x7b\x7d"))])]
        [lit "annotations", ingressStateAnnotation]
      = some (.str (lit "\x7b\x7d")) :=
  ⟨rfl, (C5_client_rewrites_state specEnv specEnv_keepsCodecFields (lit "ns1:ing")
    [(lit "namespaceId", .str (lit "ns1")),
      (lit "defaultBackend", .map [(lit "targetPort", .int 80), (lit "serviceId", .str (lit "web"))]),
      (lit "annotations", .map [( ingressStateAnnotation, .str (lit "\x7b\"k\":\"v\"\x7d"))])]
    _ rfl).1 (Or.inr ⟨_, rfl⟩)⟩

/-- C5 as stated fails: the resource carries the state annotation `{"k":"v"}`; after
`formatData` toward the client the annotation is the text of the empty object. -/
theorem C5_counterexample :
    stateAnnotation (annotated (lit "\x7b\"k\":\"v\"\x7d")) = some (lit "\x7b\"k\":\"v\"\x7d") ∧
    (formatData specEnv (lit "ns1:ing") (annotated (lit "\x7b\"k\":\"v\"\x7d")) true).map
        stateAnnotation = some (some (lit "\x7b\x7d")) := by
  decide

/-! ## The state annotation toward storage -/

theorem defaultStep_storage_mapSet (env : Env) (id : GoString) (data : Obj) (k : GoString)
    (x : Value) (o1 o2 ns : StateMap) (hk : k ≠ lit "defaultBackend") :
    defaultStep env id (mapSet data k x) false o1 ns
      = (defaultStep env id data false o2 ns).map fun r => (mapSet r.1 k x, r.2) := by
  unfold defaultStep
  rw [GetValue_single, GetValue_single, mapGet_mapSet_ne _ _ _ _ hk]
  cases hd : mapGet data (lit "defaultBackend") with
  | none => rfl
  | some target =>
    have hcomm : ∀ y, mapSet (mapSet data k x) (lit "defaultBackend") y
        = mapSet (mapSet data (lit "defaultBackend") y) k x :=
      fun y => (mapSet_comm _ _ _ _ _ hk.symm (by rw [hd]; rfl)).symm
    cases target with
    | null => rfl
    | map t =>
      simp only [convert.ToMapInterface, updateRule_storage, Option.map, hcomm]
    | bool b => simp only [convert.ToMapInterface, updateRule_nil, Option.map]
    | int n => simp only [convert.ToMapInterface, updateRule_nil, Option.map]
    | str v => simp only [convert.ToMapInterface, updateRule_nil, Option.map]
    | list xs => simp only [convert.ToMapInterface, updateRule_nil, Option.map]
    | strs xs => simp only [convert.ToMapInterface, updateRule_nil, Option.map]

theorem rulesLoop_storage_mapSet (env : Env) (id : GoString) (k : GoString) (x : Value)
    (o1 o2 : StateMap) (hk : k ≠ lit "rules") (l : List (hostPath × Place)) (data : Obj)
    (ns : StateMap) :
    rulesLoop env id false o1 l (mapSet data k x, ns)
      = (rulesLoop env id false o2 l (data, ns)).map fun r => (mapSet r.1 k x, r.2) := by
  induction l generalizing data ns with
  | nil => rfl
  | cons e rest ih =>
    obtain ⟨hp, pl⟩ := e
    simp only [rulesLoop, targetAt_mapSet _ _ _ _ hk]
    rw [updateRule_storage_indep env _ id hp.host hp.path (mapSet data k x) data o1 o2 ns]
    cases updateRule env (targetAt data pl) id hp.host hp.path false data o2 ns with
    | none => rfl
    | some r =>
      obtain ⟨t, n1⟩ := r
      simp only [putTargetAt_mapSet _ _ _ _ _ hk, ih]

theorem rulesStep_storage_mapSet (env : Env) (id : GoString) (k : GoString) (x : Value)
    (o1 o2 : StateMap) (hk : k ≠ lit "rules") (data : Obj) (ns : StateMap) :
    rulesStep env id false o1 (mapSet data k x, ns)
      = (rulesStep env id false o2 (data, ns)).map fun r => (mapSet r.1 k x, r.2) := by
  unfold rulesStep
  simp only [getPaths_mapSet _ _ _ hk]
  cases getPaths data with
  | none => rfl
  | some paths => exact rulesLoop_storage_mapSet env id k x o1 o2 hk _ data ns

theorem updateCerts_storage_mapSet (data : Obj) (k : GoString) (x : Value)
    (o1 o2 ns : StateMap) (hk : k ≠ lit "tls") :
    updateCerts (mapSet data k x) false o1 ns
      = (mapSet (updateCerts data false o2 ns).1 k x, (updateCerts data false o2 ns).2) := by
  unfold updateCerts
  rw [GetValue_single, GetValue_single, mapGet_mapSet_ne _ _ _ _ hk]
  split
  · rename_i certs hc
    simp only [certsLoop_storage_indep o1 o2]
    rw [(mapSet_comm _ _ _ _ _ hk.symm (by rw [hc]; rfl)).symm]
  · rfl

theorem formatData_storage_mapSet (env : Env) (id : GoString) (data : Obj) (a : Obj)
    (hfinal : ∀ (d : Obj) (s : StateMap),
      mapGet d (lit "annotations") = mapGet data (lit "annotations") →
        setState (mapSet d (lit "annotations") (.map a)) s = setState d s) :
    formatData env id (mapSet data (lit "annotations") (.map a)) false
      = formatData env id data false := by
  unfold formatData
  simp only
  rw [defaultStep_storage_mapSet env id data _ _ _ (getState data) [] (by decide)]
  cases h1 : defaultStep env id data false (getState data) [] with
  | none => rfl
  | some st1 =>
    obtain ⟨d1, n1⟩ := st1
    simp only [Option.map]
    rw [rulesStep_storage_mapSet env id _ _ _ (getState data) (by decide)]
    cases h2 : rulesStep env id false (getState data) (d1, n1) with
    | none => rfl
    | some st2 =>
      obtain ⟨d2, n2⟩ := st2
      simp only [Option.map]
      rw [updateCerts_storage_mapSet d2 _ _ _ (getState data) n2 (by decide)]
      simp only
      rw [hfinal]
      rw [mapGet_updateCerts _ _ _ _ _ (by decide),
        mapGet_rulesStep _ _ _ _ _ _ _ (by decide) h2,
        mapGet_defaultStep _ _ _ _ _ _ _ _ (by decide) h1]

/-- C8: toward storage the result of `formatData` does not depend on the state
annotation it finds: putting any value at `annotations[ ingressStateAnnotation]` of
the resource representation (creating the annotation, or replacing its value)
before the call changes nothing in what the call produces. -/
theorem C8_storage_replaces_state_wholesale (env : Env) (id : GoString) (data : Obj)
    (v : Value) :
    formatData env id
        (values.PutValue data v [lit "annotations", ingressStateAnnotation]) false
      = formatData env id data false := by
  cases ha : mapGet data (lit "annotations") with
  | none =>
    have hp : values.PutValue data v [lit "annotations", ingressStateAnnotation]
        = mapSet data (lit "annotations") (.map [( ingressStateAnnotation, v)]) := by
      simp [values.PutValue, ha, mapSet]
    rw [hp]
    apply formatData_storage_mapSet
    intro d s hd
    rw [ha] at hd
    simp [setState, values.PutValue, mapGet_mapSet_same, hd, mapSet_mapSet_same, mapSet]
  | some w =>
    cases w with
    | map a =>
      have hp : values.PutValue data v [lit "annotations", ingressStateAnnotation]
          = mapSet data (lit "annotations") (.map (mapSet a ingressStateAnnotation v)) := by
        simp [values.PutValue, ha]
      rw [hp]
      apply formatData_storage_mapSet
      intro d s hd
      rw [ha] at hd
      simp [setState, values.PutValue, mapGet_mapSet_same, hd, mapSet_mapSet_same]
    | null => rw [mapGet_PutValue_pair_of_not_map _ _ _ _ _ ha (by simp)]
    | bool b => rw [mapGet_PutValue_pair_of_not_map _ _ _ _ _ ha (by simp)]
    | int n => rw [mapGet_PutValue_pair_of_not_map _ _ _ _ _ ha (by simp)]
    | str t => rw [mapGet_PutValue_pair_of_not_map _ _ _ _ _ ha (by simp)]
    | list xs => rw [mapGet_PutValue_pair_of_not_map _ _ _ _ _ ha (by simp)]
    | strs xs => rw [mapGet_PutValue_pair_of_not_map _ _ _ _ _ ha (by simp)]

/-! ## `json.Unmarshal` reads back what `json.Marshal` wrote -/

theorem plainByte_spec (b : Byte) (h : plainByte b = true) :
    0x20 ≤ b.val ∧ b.val < 0x80 ∧ b.val ≠ 0x22 ∧ b.val ≠ 0x5C ∧ b.val ≠ 0x3C ∧
      b.val ≠ 0x3E ∧ b.val ≠ 0x26 := by
  simpa [plainByte] using h

theorem plainText_cons (b : Byte) (s : GoString) :
    plainText (b :: s) = true ↔ plainByte b = true ∧ plainText s = true := by
  simp [plainText]

theorem utf8Width_nil : utf8Width [] = 0 := rfl

theorem utf8Width_ascii (b : Byte) (r : List Byte) (h : b.val < 0x80) : utf8Width (b :: r) = 1 := by
  simp only [utf8Width, if_pos h]

theorem utf8Width_append (s t : List Byte) (h : utf8Width s ≠ 0) :
    utf8Width (s ++ t) = utf8Width s := by
  cases s with
  | nil => exact absurd rfl h
  | cons b0 r =>
    by_cases h1 : b0.val < 0x80
    · simp only [List.cons_append, utf8Width, if_pos h1]
    · by_cases h2 : 0xC2 ≤ b0.val ∧ b0.val ≤ 0xDF
      · cases r with
        | nil =>
          simp only [utf8Width, if_neg h1, if_pos h2] at h
          exact absurd rfl h
        | cons b1 r1 => simp only [List.cons_append, utf8Width, if_neg h1, if_pos h2]
      · by_cases h3 : 0xE0 ≤ b0.val ∧ b0.val ≤ 0xEF
        · rcases r with _ | ⟨b1, _ | ⟨b2, r2⟩⟩
          · simp only [utf8Width, if_neg h1, if_neg h2, if_pos h3] at h
            exact absurd rfl h
          · simp only [utf8Width, if_neg h1, if_neg h2, if_pos h3] at h
            exact absurd rfl h
          · simp only [List.cons_append, utf8Width, if_neg h1, if_neg h2, if_pos h3]
        · by_cases h4 : 0xF0 ≤ b0.val ∧ b0.val ≤ 0xF4
          · rcases r with _ | ⟨b1, _ | ⟨b2, _ | ⟨b3, r3⟩⟩⟩
            · simp only [utf8Width, if_neg h1, if_neg h2, if_neg h3, if_pos h4] at h
              exact absurd rfl h
            · simp only [utf8Width, if_neg h1, if_neg h2, if_neg h3, if_pos h4] at h
              exact absurd rfl h
            · simp only [utf8Width, if_neg h1, if_neg h2, if_neg h3, if_pos h4] at h
              exact absurd rfl h
            · simp only [List.cons_append, utf8Width, if_neg h1, if_neg h2, if_neg h3, if_pos h4]
          · simp only [utf8Width, if_neg h1, if_neg h2, if_neg h3, if_neg h4] at h
            exact absurd rfl h

theorem utf8Width_le_length (s : List Byte) : utf8Width s ≤ s.length := by
  cases s with
  | nil => exact Nat.le_refl _
  | cons b0 r =>
    by_cases h1 : b0.val < 0x80
    · simp only [utf8Width, if_pos h1, List.length_cons]
      omega
    · by_cases h2 : 0xC2 ≤ b0.val ∧ b0.val ≤ 0xDF
      · cases r with
        | nil => simp only [utf8Width, if_neg h1, if_pos h2]; omega
        | cons b1 r1 =>
          simp only [utf8Width, if_neg h1, if_pos h2, List.length_cons]
          split_ifs <;> omega
      · by_cases h3 : 0xE0 ≤ b0.val ∧ b0.val ≤ 0xEF
        · rcases r with _ | ⟨b1, _ | ⟨b2, r2⟩⟩
          · simp only [utf8Width, if_neg h1, if_neg h2, if_pos h3]; omega
          · simp only [utf8Width, if_neg h1, if_neg h2, if_pos h3]; omega
          · simp only [utf8Width, if_neg h1, if_neg h2, if_pos h3, List.length_cons]
            split_ifs <;> omega
        · by_cases h4 : 0xF0 ≤ b0.val ∧ b0.val ≤ 0xF4
          · rcases r with _ | ⟨b1, _ | ⟨b2, _ | ⟨b3, r3⟩⟩⟩
            · simp only [utf8Width, if_neg h1, if_neg h2, if_neg h3, if_pos h4]; omega
            · simp only [utf8Width, if_neg h1, if_neg h2, if_neg h3, if_pos h4]; omega
            · simp only [utf8Width, if_neg h1, if_neg h2, if_neg h3, if_pos h4]; omega
            · simp only [utf8Width, if_neg h1, if_neg h2, if_neg h3, if_pos h4, List.length_cons]
              split_ifs <;> omega
          · simp only [utf8Width, if_neg h1, if_neg h2, if_neg h3, if_neg h4]; omega

theorem utf8Width_take (s : List Byte) (w : Nat) (h : utf8Width s = w + 1) :
    utf8Width (s.take (w + 1)) = w + 1 := by
  cases s with
  | nil => cases h
  | cons b0 r =>
    by_cases h1 : b0.val < 0x80
    · simp only [utf8Width, if_pos h1] at h ⊢
      have hw : w = 0 := by omega
      subst hw
      simp only [List.take_succ_cons, List.take_zero, utf8Width, if_pos h1]
    · by_cases h2 : 0xC2 ≤ b0.val ∧ b0.val ≤ 0xDF
      · cases r with
        | nil =>
          simp only [utf8Width, if_neg h1, if_pos h2] at h
          cases h
        | cons b1 r1 =>
          simp only [utf8Width, if_neg h1, if_pos h2] at h
          have hw : w = 1 := by
            split_ifs at h
            omega
          subst hw
          simp only [List.take_succ_cons, List.take_zero, utf8Width, if_neg h1, if_pos h2]
          exact h
      · by_cases h3 : 0xE0 ≤ b0.val ∧ b0.val ≤ 0xEF
        · rcases r with _ | ⟨b1, _ | ⟨b2, r2⟩⟩
          · simp only [utf8Width, if_neg h1, if_neg h2, if_pos h3] at h
            cases h
          · simp only [utf8Width, if_neg h1, if_neg h2, if_pos h3] at h
            cases h
          · simp only [utf8Width, if_neg h1, if_neg h2, if_pos h3] at h
            have hw : w = 2 := by split_ifs at h <;> omega
            subst hw
            simp only [List.take_succ_cons, List.take_zero, utf8Width, if_neg h1, if_neg h2,
              if_pos h3]
            exact h
        · by_cases h4 : 0xF0 ≤ b0.val ∧ b0.val ≤ 0xF4
          · rcases r with _ | ⟨b1, _ | ⟨b2, _ | ⟨b3, r3⟩⟩⟩
            · simp only [utf8Width, if_neg h1, if_neg h2, if_neg h3, if_pos h4] at h
              cases h
            · simp only [utf8Width, if_neg h1, if_neg h2, if_neg h3, if_pos h4] at h
              cases h
            · simp only [utf8Width, if_neg h1, if_neg h2, if_neg h3, if_pos h4] at h
              cases h
            · simp only [utf8Width, if_neg h1, if_neg h2, if_neg h3, if_pos h4] at h
              have hw : w = 3 := by split_ifs at h <;> omega
              subst hw
              simp only [List.take_succ_cons, List.take_zero, utf8Width, if_neg h1, if_neg h2,
                if_neg h3, if_pos h4]
              exact h
          · simp only [utf8Width, if_neg h1, if_neg h2, if_neg h3, if_neg h4] at h
            cases h

theorem parseString_quote (k : Nat) (r : List Byte) :
    json.parseString (k + 1) (0x22 :: r) = some ([], r) := by
  simp only [json.parseString]
  rfl

theorem parseString_u (k : Nat) (r1 : List Byte) :
    json.parseString (k + 1) (0x5C :: 0x75 :: r1)
      = match json.hex4 r1 with
        | none => none
        | some (rr, r2) =>
          if 0xD800 ≤ rr ∧ rr < 0xE000 then
            match r2 with
            | 0x5C :: 0x75 :: r3 =>
              match json.hex4 r3 with
              | some (rr1, r4) =>
                if rr < 0xDC00 ∧ 0xDC00 ≤ rr1 ∧ rr1 < 0xE000 then
                  json.consBytes
                    (json.encodeRune ((rr - 0xD800) * 1024 + (rr1 - 0xDC00) + 0x10000))
                    (json.parseString k r4)
                else json.consBytes [0xEF, 0xBF, 0xBD] (json.parseString k r2)
              | none => json.consBytes [0xEF, 0xBF, 0xBD] (json.parseString k r2)
            | _ => json.consBytes [0xEF, 0xBF, 0xBD] (json.parseString k r2)
          else json.consBytes (json.encodeRune rr) (json.parseString k r2) := by
  simp only [json.parseString]
  rfl

theorem parseString_escape (k : Nat) (e : Byte) (r1 : List Byte) (he : e.val ≠ 0x75) :
    json.parseString (k + 1) (0x5C :: e :: r1)
      = match json.unescape e with
        | some b => json.consBytes [b] (json.parseString k r1)
        | none => none := by
  simp only [json.parseString, if_neg he]
  rfl

theorem parseString_ascii (k : Nat) (c : Byte) (r : List Byte) (h1 : c.val ≠ 0x22)
    (h2 : c.val ≠ 0x5C) (h3 : ¬ c.val < 0x20) (h4 : c.val < 0x80) :
    json.parseString (k + 1) (c :: r) = json.consBytes [c] (json.parseString k r) := by
  simp only [json.parseString, if_neg h1, if_neg h2, if_neg h3, if_pos h4]

theorem parseString_multi (k : Nat) (c : Byte) (r : List Byte) (h : ¬ c.val < 0x80) :
    json.parseString (k + 1) (c :: r)
      = match utf8Width (c :: r) with
        | 0 => json.consBytes [0xEF, 0xBF, 0xBD] (json.parseString k r)
        | w + 1 => json.consBytes ((c :: r).take (w + 1)) (json.parseString k (r.drop w)) := by
  have h1 : c.val ≠ 0x22 := by omega
  have h2 : c.val ≠ 0x5C := by omega
  have h3 : ¬ c.val < 0x20 := by omega
  simp only [json.parseString, if_neg h1, if_neg h2, if_neg h3, if_neg h]

set_option maxRecDepth 100000 in
theorem hexVal_digit (b : Byte) :
    json.hexVal (hex.digit (b.val / 16)) = some (b.val / 16) ∧
      json.hexVal (hex.digit (b.val % 16)) = some (b.val % 16) := by
  revert b
  decide

theorem hex4_cons (a b c d : Byte) (r : List Byte) (x y z w : Nat)
    (ha : json.hexVal a = some x) (hb : json.hexVal b = some y) (hc : json.hexVal c = some z)
    (hd : json.hexVal d = some w) :
    json.hex4 (a :: b :: c :: d :: r) = some (x * 4096 + y * 256 + z * 16 + w, r) := by
  simp only [json.hex4, ha, hb, hc, hd]

theorem parseString_escapeByte (b : Byte) (h : b.val < 0x80) (k : Nat) (t : List Byte) :
    json.parseString (k + 1) (json.escapeByte b ++ t)
      = json.consBytes [b] (json.parseString k t) := by
  unfold json.escapeByte
  by_cases h1 : b.val = 0x22 ∨ b.val = 0x5C
  · rw [if_pos h1]
    have he : b.val ≠ 0x75 := by omega
    have hu : json.unescape b = some b := by
      unfold json.unescape
      rw [if_pos (by omega)]
    simp only [List.cons_append, List.nil_append]
    rw [parseString_escape k b t he, hu]
  · rw [if_neg h1]
    by_cases h2 : b.val = 0x0A
    · rw [if_pos h2]
      have hb : b = 0x0A := Fin.ext h2
      subst hb
      exact parseString_escape k 0x6E t (by decide)
    · rw [if_neg h2]
      by_cases h3 : b.val = 0x0D
      · rw [if_pos h3]
        have hb : b = 0x0D := Fin.ext h3
        subst hb
        exact parseString_escape k 0x72 t (by decide)
      · rw [if_neg h3]
        by_cases h4 : b.val = 0x09
        · rw [if_pos h4]
          have hb : b = 0x09 := Fin.ext h4
          subst hb
          exact parseString_escape k 0x74 t (by decide)
        · rw [if_neg h4]
          by_cases h5 : b.val < 0x20 ∨ b.val = 0x3C ∨ b.val = 0x3E ∨ b.val = 0x26
          · rw [if_pos h5]
            simp only [List.cons_append, List.nil_append]
            have h0 : json.hexVal 0x30 = some 0 := by decide
            rw [parseString_u, hex4_cons _ _ _ _ t 0 0 _ _ h0 h0 (hexVal_digit b).1
              (hexVal_digit b).2]
            have hv : 0 * 4096 + 0 * 256 + b.val / 16 * 16 + b.val % 16 = b.val := by omega
            simp only [hv]
            rw [if_neg (by omega)]
            have hr : json.encodeRune b.val = [b] := by
              unfold json.encodeRune
              rw [if_pos h, ofNat_val b b.val rfl]
            rw [hr]
          · rw [if_neg h5]
            simp only [List.cons_append, List.nil_append]
            exact parseString_ascii k b t (by omega) (by omega) (by omega) h

theorem lit_ufffd : lit "\\ufffd" = [0x5C, 0x75, 0x66, 0x66, 0x66, 0x64] := by decide

theorem lit_u2028 : lit "\\u2028" = [0x5C, 0x75, 0x32, 0x30, 0x32, 0x38] := by decide

theorem lit_u2029 : lit "\\u2029" = [0x5C, 0x75, 0x32, 0x30, 0x32, 0x39] := by decide

theorem parseString_ufffd (k : Nat) (t : List Byte) :
    json.parseString (k + 1) (lit "\\ufffd" ++ t)
      = json.consBytes [0xEF, 0xBF, 0xBD] (json.parseString k t) := by
  rw [lit_ufffd]
  simp only [List.cons_append, List.nil_append]
  rw [parseString_u, hex4_cons _ _ _ _ t 15 15 15 13 (by decide) (by decide) (by decide)
    (by decide)]
  rfl

theorem parseString_u2028 (k : Nat) (t : List Byte) :
    json.parseString (k + 1) (lit "\\u2028" ++ t)
      = json.consBytes [0xE2, 0x80, 0xA8] (json.parseString k t) := by
  rw [lit_u2028]
  simp only [List.cons_append, List.nil_append]
  rw [parseString_u, hex4_cons _ _ _ _ t 2 0 2 8 (by decide) (by decide) (by decide)
    (by decide)]
  rfl

theorem parseString_u2029 (k : Nat) (t : List Byte) :
    json.parseString (k + 1) (lit "\\u2029" ++ t)
      = json.consBytes [0xE2, 0x80, 0xA9] (json.parseString k t) := by
  rw [lit_u2029]
  simp only [List.cons_append, List.nil_append]
  rw [parseString_u, hex4_cons _ _ _ _ t 2 0 2 9 (by decide) (by decide) (by decide)
    (by decide)]
  rfl

theorem length_escapeByte_pos (b : Byte) : 0 < (json.escapeByte b).length := by
  unfold json.escapeByte
  split_ifs <;> simp

theorem consBytes_some (bs s : GoString) (r : List Byte) :
    json.consBytes bs (some (s, r)) = some (bs ++ s, r) := rfl

theorem take3_sep (b : Byte) (r : List Byte) (x : Byte)
    (h : (b :: r).take 3 = [0xE2, 0x80, x]) : ∃ r2, b = 0xE2 ∧ r = 0x80 :: x :: r2 := by
  rcases r with _ | ⟨b1, _ | ⟨b2, r2⟩⟩
  · simp at h
  · simp at h
  · simp only [List.take_succ_cons, List.take_zero, List.cons.injEq, and_true] at h
    exact ⟨r2, h.1, by rw [h.2.1, h.2.2]⟩

theorem parseString_encodeBody (n : Nat) :
    ∀ (s rest : GoString) (k : Nat), (json.encodeBody n s).length < k →
      json.parseString k (json.encodeBody n s ++ 0x22 :: rest)
        = some (json.coerceLoop n s, rest) := by
  induction n with
  | zero =>
    intro s rest k hk
    obtain ⟨m, rfl⟩ : ∃ m, k = m + 1 := ⟨k - 1, by omega⟩
    simp only [json.encodeBody, json.coerceLoop, List.nil_append]
    exact parseString_quote m rest
  | succ n ih =>
    intro s rest k hk
    cases s with
    | nil =>
      obtain ⟨m, rfl⟩ : ∃ m, k = m + 1 := ⟨k - 1, by omega⟩
      simp only [json.encodeBody, json.coerceLoop, List.nil_append]
      exact parseString_quote m rest
    | cons b r =>
      obtain ⟨m, rfl⟩ : ∃ m, k = m + 1 := ⟨k - 1, by omega⟩
      by_cases h1 : b.val < 0x80
      · have he : json.encodeBody (n + 1) (b :: r) = json.escapeByte b ++ json.encodeBody n r := by
          simp only [json.encodeBody, if_pos h1]
        have hc : json.coerceLoop (n + 1) (b :: r) = b :: json.coerceLoop n r := by
          simp only [json.coerceLoop, utf8Width_ascii b r h1, List.take_succ_cons, List.take_zero,
            List.drop_zero, List.singleton_append]
        rw [he] at hk ⊢
        have hpos := length_escapeByte_pos b
        rw [List.length_append] at hk
        rw [hc, List.append_assoc, parseString_escapeByte b h1, ih r rest m (by omega)]
        rfl
      · cases hw : utf8Width (b :: r) with
        | zero =>
          have he : json.encodeBody (n + 1) (b :: r) = lit "\\ufffd" ++ json.encodeBody n r := by
            simp only [json.encodeBody, if_neg h1, hw]
          have hc : json.coerceLoop (n + 1) (b :: r) = [0xEF, 0xBF, 0xBD] ++ json.coerceLoop n r := by
            simp only [json.coerceLoop, hw]
          rw [he] at hk ⊢
          rw [List.length_append, lit_ufffd] at hk
          simp only [List.length_cons, List.length_nil] at hk
          rw [hc, List.append_assoc, parseString_ufffd, ih r rest m (by omega)]
          rfl
        | succ w =>
          have hc : json.coerceLoop (n + 1) (b :: r)
              = (b :: r).take (w + 1) ++ json.coerceLoop n (r.drop w) := by
            simp only [json.coerceLoop, hw]
          by_cases h28 : (b :: r).take 3 = [0xE2, 0x80, 0xA8]
          · have he : json.encodeBody (n + 1) (b :: r)
                = lit "\\u2028" ++ json.encodeBody n (r.drop 2) := by
              simp only [json.encodeBody, if_neg h1, hw, if_pos h28]
            obtain ⟨r2, hb, hr⟩ := take3_sep b r 0xA8 h28
            subst hb hr
            have hw3 : w = 2 := by
              have : utf8Width (0xE2 :: 0x80 :: 0xA8 :: r2) = 3 := by
                simp only [utf8Width]
                rfl
              omega
            subst hw3
            rw [he] at hk ⊢
            rw [List.length_append, lit_u2028] at hk
            simp only [List.length_cons, List.length_nil] at hk
            rw [hc, List.append_assoc, parseString_u2028, ih _ rest m (by omega)]
            rfl
          · by_cases h29 : (b :: r).take 3 = [0xE2, 0x80, 0xA9]
            · have he : json.encodeBody (n + 1) (b :: r)
                  = lit "\\u2029" ++ json.encodeBody n (r.drop 2) := by
                simp only [json.encodeBody, if_neg h1, hw, if_neg h28, if_pos h29]
              obtain ⟨r2, hb, hr⟩ := take3_sep b r 0xA9 h29
              subst hb hr
              have hw3 : w = 2 := by
                have : utf8Width (0xE2 :: 0x80 :: 0xA9 :: r2) = 3 := by
                  simp only [utf8Width]
                  rfl
                omega
              subst hw3
              rw [he] at hk ⊢
              rw [List.length_append, lit_u2029] at hk
              simp only [List.length_cons, List.length_nil] at hk
              rw [hc, List.append_assoc, parseString_u2029, ih _ rest m (by omega)]
              rfl
            · have he : json.encodeBody (n + 1) (b :: r)
                  = (b :: r).take (w + 1) ++ json.encodeBody n (r.drop w) := by
                simp only [json.encodeBody, if_neg h1, hw, if_neg h28, if_neg h29]
              have hlen : w + 1 ≤ (b :: r).length := by
                have := utf8Width_le_length (b :: r)
                omega
              have htk : (b :: r).take (w + 1) = b :: r.take w := rfl
              have hlt : (r.take w).length = w := by
                rw [List.length_take]
                simp only [List.length_cons] at hlen
                omega
              rw [he] at hk ⊢
              rw [List.length_append] at hk
              have hwidth : utf8Width ((b :: r).take (w + 1) ++
                  (json.encodeBody n (r.drop w) ++ 0x22 :: rest)) = w + 1 := by
                rw [utf8Width_append _ _ (by rw [utf8Width_take _ w hw]; omega),
                  utf8Width_take _ w hw]
              rw [hc, List.append_assoc]
              rw [htk] at hwidth hk ⊢
              rw [List.cons_append, parseString_multi m b _ h1]
              rw [List.cons_append] at hwidth
              rw [hwidth]
              simp only []
              have hdrop : (r.take w ++ (json.encodeBody n (r.drop w) ++ 0x22 :: rest)).drop w
                  = json.encodeBody n (r.drop w) ++ 0x22 :: rest := by
                rw [List.drop_append_of_le_length (by omega), List.drop_of_length_le (by omega)]
                rfl
              have htake : (b :: (r.take w ++ (json.encodeBody n (r.drop w) ++ 0x22 :: rest))).take
                  (w + 1) = b :: r.take w := by
                rw [List.take_succ_cons, List.take_append_of_le_length (by omega),
                  List.take_of_length_le (by omega)]
              simp only [List.length_cons] at hk
              rw [hdrop, htake, ih _ rest m (by omega)]
              rfl

theorem coerceLoop_of_valid (n : Nat) :
    ∀ s : GoString, utf8.validLoop n s = true → json.coerceLoop n s = s := by
  induction n with
  | zero =>
    intro s h
    cases s with
    | nil => rfl
    | cons b r => simp [utf8.validLoop] at h
  | succ n ih =>
    intro s h
    cases s with
    | nil => rfl
    | cons b r =>
      cases hw : utf8Width (b :: r) with
      | zero => simp [utf8.validLoop, hw] at h
      | succ w =>
        simp only [utf8.validLoop, hw] at h
        simp only [json.coerceLoop, hw, ih _ h]
        exact List.take_append_drop (w + 1) (b :: r)

theorem coerced_of_valid (s : GoString) (h : utf8.ValidString s = true) : json.coerced s = s :=
  coerceLoop_of_valid s.length s h

theorem validLoop_succ (n : Nat) :
    ∀ s : GoString, utf8.validLoop n s = true → utf8.validLoop (n + 1) s = true := by
  induction n with
  | zero =>
    intro s h
    cases s with
    | nil => rfl
    | cons b r => simp [utf8.validLoop] at h
  | succ n ih =>
    intro s h
    cases s with
    | nil => rfl
    | cons b r =>
      cases hw : utf8Width (b :: r) with
      | zero => simp [utf8.validLoop, hw] at h
      | succ w =>
        simp only [utf8.validLoop, hw] at h ⊢
        exact ih _ h

theorem validLoop_add (n m : Nat) (s : GoString) (h : utf8.validLoop n s = true) :
    utf8.validLoop (n + m) s = true := by
  induction m with
  | zero => exact h
  | succ m ih => exact validLoop_succ _ _ ih

theorem validLoop_append (n : Nat) :
    ∀ (a b : GoString) (m : Nat), utf8.validLoop n a = true → utf8.validLoop m b = true →
      utf8.validLoop (n + m) (a ++ b) = true := by
  induction n with
  | zero =>
    intro a b m ha hb
    cases a with
    | nil =>
      rw [Nat.zero_add]
      exact hb
    | cons b0 r => simp [utf8.validLoop] at ha
  | succ n ih =>
    intro a b m ha hb
    cases a with
    | nil =>
      rw [Nat.add_comm]
      exact validLoop_add m (n + 1) b hb
    | cons b0 r =>
      cases hw : utf8Width (b0 :: r) with
      | zero => simp [utf8.validLoop, hw] at ha
      | succ w =>
        simp only [utf8.validLoop, hw] at ha
        have hwidth : utf8Width (b0 :: (r ++ b)) = w + 1 := by
          have := utf8Width_append (b0 :: r) b (by rw [hw]; omega)
          rw [List.cons_append] at this
          rw [this, hw]
        have hlen : w ≤ r.length := by
          have := utf8Width_le_length (b0 :: r)
          rw [hw] at this
          simp only [List.length_cons] at this
          omega
        have hfuel : n + 1 + m = (n + m) + 1 := by omega
        rw [List.cons_append, hfuel]
        simp only [utf8.validLoop, hwidth]
        rw [List.drop_append_of_le_length hlen]
        exact ih _ b m ha hb

theorem ValidString_append (a b : GoString) (ha : utf8.ValidString a = true)
    (hb : utf8.ValidString b = true) : utf8.ValidString (a ++ b) = true := by
  unfold utf8.ValidString at *
  rw [List.length_append]
  exact validLoop_append _ a b _ ha hb

theorem ValidString_Join (ws : List GoString) (h : ∀ w ∈ ws, utf8.ValidString w = true) :
    utf8.ValidString (strings.Join ws slash) = true := by
  induction ws with
  | nil => rfl
  | cons a r ih =>
    cases r with
    | nil => exact h a (by simp)
    | cons b r2 =>
      have hr := ih fun w hw => h w (List.mem_cons_of_mem _ hw)
      have hs : utf8.ValidString (slash :: strings.Join (b :: r2) slash) = true :=
        ValidString_append [slash] _ (by decide) hr
      exact ValidString_append a _ (h a (by simp)) hs

theorem ValidString_of_ascii (s : GoString) (h : ∀ b ∈ s, b.val < 0x80) :
    utf8.ValidString s = true := by
  induction s with
  | nil => rfl
  | cons b r ih =>
    have hb := h b (by simp)
    have hr := ih fun c hc => h c (List.mem_cons_of_mem _ hc)
    unfold utf8.ValidString at hr ⊢
    simp only [List.length_cons, utf8.validLoop, utf8Width_ascii b r hb, List.drop_zero]
    exact hr

theorem DecodeRuneInString_ascii (a : Byte) (t : List Byte) (ha : a.val < 0x80) :
    utf8.DecodeRuneInString (a :: t) = (a.val, 1) := by
  simp only [utf8.DecodeRuneInString, utf8Width_ascii a t ha]

theorem DecodeLastRuneInString_ascii (u : List Byte) (b : Byte) (hb : b.val < 0x80) :
    utf8.DecodeLastRuneInString (u ++ [b]) = (b.val, 1) := by
  simp only [utf8.DecodeLastRuneInString, List.reverse_append, List.reverse_cons,
    List.reverse_nil, List.nil_append, List.cons_append, if_pos hb]

theorem TrimLeftFunc_head (a : Byte) (t : List Byte) (f : Nat → Bool) (ha : a.val < 0x80)
    (hf : f a.val = false) : strings.TrimLeftFunc (a :: t) f = a :: t := by
  simp only [strings.TrimLeftFunc, strings.indexFunc, List.length_cons, strings.indexFuncLoop,
    DecodeRuneInString_ascii a t ha, hf, if_true, List.drop_zero]

theorem TrimRightFunc_last (u : List Byte) (b : Byte) (f : Nat → Bool) (hb : b.val < 0x80)
    (hf : f b.val = false) : strings.TrimRightFunc (u ++ [b]) f = u ++ [b] := by
  have hlen : (u ++ [b]).length = u.length + 1 := by simp
  have hidx : strings.lastIndexFunc (u ++ [b]) f false = some u.length := by
    simp only [strings.lastIndexFunc, hlen, strings.lastIndexFuncLoop]
    rw [if_neg (by omega)]
    have htake : (u ++ [b]).take (u.length + 1) = u ++ [b] := by
      rw [← hlen, List.take_length]
    rw [htake, DecodeLastRuneInString_ascii u b hb]
    simp only [hf, if_true]
    rfl
  have hget : (u ++ [b]).getD u.length 0 = b := by
    simp [List.getD]
  have htake : (u ++ [b]).take (u.length + 1) = u ++ [b] := by
    rw [← hlen, List.take_length]
  simp only [strings.TrimRightFunc, hidx, hget]
  rw [if_neg (by omega), htake]

theorem TrimSpace_of_ends (s t u : List Byte) (a b : Byte) (hs : s = a :: t)
    (hl : s = u ++ [b]) (ha : a.val < 0x80) (hfa : unicode.IsSpace a.val = false)
    (hb : b.val < 0x80) (hfb : unicode.IsSpace b.val = false) : strings.TrimSpace s = s := by
  unfold strings.TrimSpace strings.TrimFunc
  rw [hs, TrimLeftFunc_head a t _ ha hfa, ← hs, hl, TrimRightFunc_last u b _ hb hfb]

theorem TrimSpace_Marshal (m : StateMap) : strings.TrimSpace (json.Marshal m) = json.Marshal m :=
  TrimSpace_of_ends _ _ (0x7B :: json.encodeMembers (json.sortByKey m)) 0x7B 0x7D rfl rfl
    (by decide) (by decide) (by decide) (by decide)

theorem TrimSpace_nil : strings.TrimSpace [] = [] := rfl

theorem skipSpace_quote (r : List Byte) : json.skipSpace (0x22 :: r) = 0x22 :: r := rfl

theorem skipSpace_colon (r : List Byte) : json.skipSpace (0x3A :: r) = 0x3A :: r := rfl

theorem skipSpace_comma (r : List Byte) : json.skipSpace (0x2C :: r) = 0x2C :: r := rfl

theorem skipSpace_close (r : List Byte) : json.skipSpace (0x7D :: r) = 0x7D :: r := rfl

theorem skipSpace_open (r : List Byte) : json.skipSpace (0x7B :: r) = 0x7B :: r := rfl

theorem parseValue_quote (n : Nat) (r : List Byte) :
    json.parseValue (n + 1) (0x22 :: r)
      = match json.parseString (r.length + 1) r with
        | some (str, r1) => some (.string str, r1)
        | none => none := by
  simp only [json.parseValue]
  rfl

theorem parseValue_open (n : Nat) (r : List Byte) :
    json.parseValue (n + 1) (0x7B :: r)
      = match json.skipSpace r with
        | [] => none
        | c1 :: r1 =>
          if c1.val = 0x7D then some (.object [], r1)
          else
            match json.parseMembers n (c1 :: r1) with
            | some (ms, r2) => some (.object ms, r2)
            | none => none := by
  simp only [json.parseValue]
  rfl

theorem parseMembers_quote (n : Nat) (r : List Byte) :
    json.parseMembers (n + 1) (0x22 :: r)
      = match json.parseString (r.length + 1) r with
        | none => none
        | some (key, r1) =>
          match json.skipSpace r1 with
          | [] => none
          | c :: r2 =>
            if c.val = 0x3A then
              match json.parseValue n r2 with
              | none => none
              | some (v, r3) =>
                match json.skipSpace r3 with
                | [] => none
                | d :: r4 =>
                  if d.val = 0x2C then
                    match json.parseMembers n r4 with
                    | some (ms, r5) => some ((key, v) :: ms, r5)
                    | none => none
                  else if d.val = 0x7D then some ([(key, v)], r4)
                  else none
            else none := by
  simp only [json.parseMembers]
  rfl

theorem encodeString_append (s rest : GoString) :
    json.encodeString s ++ rest = 0x22 :: (json.encodeBody s.length s ++ 0x22 :: rest) := by
  simp [json.encodeString]

theorem parseValue_string (v tail : GoString) (n : Nat) :
    json.parseValue (n + 1) (json.encodeString v ++ tail)
      = some (.string (json.coerced v), tail) := by
  rw [encodeString_append, parseValue_quote,
    parseString_encodeBody _ v tail _ (by simp only [List.length_append, List.length_cons]; omega)]
  rfl

theorem parseMember_head (k v tail : GoString) (n : Nat) :
    json.parseMembers (n + 2) (json.encodeString k ++ 0x3A :: (json.encodeString v ++ tail))
      = match json.skipSpace tail with
        | [] => none
        | d :: r4 =>
          if d.val = 0x2C then
            match json.parseMembers (n + 1) r4 with
            | some (ms, r5) => some ((json.coerced k, .string (json.coerced v)) :: ms, r5)
            | none => none
          else if d.val = 0x7D then some ([(json.coerced k, .string (json.coerced v))], r4)
          else none := by
  rw [encodeString_append, parseMembers_quote,
    parseString_encodeBody _ k _ _ (by simp only [List.length_append, List.length_cons]; omega)]
  simp only [skipSpace_colon]
  rw [if_pos (show ((0x3A : Byte).val = 0x3A) from rfl), parseValue_string v tail n]
  rfl

theorem encodeMembers_cons_cons (e x : GoString × GoString) (r : StateMap) :
    json.encodeMembers (e :: x :: r)
      = json.encodeString e.1 ++ 0x3A :: json.encodeString e.2 ++
          0x2C :: json.encodeMembers (x :: r) := rfl

theorem parseMembers_encodeMembers (es : StateMap) (rest : GoString) (hne : es ≠ [])
    (n : Nat) (hn : es.length < n) :
    json.parseMembers (n + 1) (json.encodeMembers es ++ 0x7D :: rest)
      = some (es.map fun e => (json.coerced e.1, .string (json.coerced e.2)), rest) := by
  induction es generalizing n with
  | nil => exact absurd rfl hne
  | cons e r ih =>
    obtain ⟨m, rfl⟩ : ∃ m, n = m + 1 := ⟨n - 1, by simp at hn; omega⟩
    cases r with
    | nil =>
      have hsh : json.encodeMembers [e] ++ 0x7D :: rest
          = json.encodeString e.1 ++ 0x3A :: (json.encodeString e.2 ++ 0x7D :: rest) := by
        simp [json.encodeMembers]
      rw [hsh, parseMember_head e.1 e.2 _ m, skipSpace_close]
      simp only [List.map]
      rw [if_neg (show ¬ ((0x7D : Byte).val = 0x2C) by decide),
        if_pos (show ((0x7D : Byte).val = 0x7D) from rfl)]
    | cons x r2 =>
      have hsh : json.encodeMembers (e :: x :: r2) ++ 0x7D :: rest
          = json.encodeString e.1 ++ 0x3A :: (json.encodeString e.2 ++ 0x2C ::
              (json.encodeMembers (x :: r2) ++ 0x7D :: rest)) := by
        simp [encodeMembers_cons_cons]
      have hm : (x :: r2).length < m := by
        simp at hn ⊢
        omega
      rw [hsh, parseMember_head e.1 e.2 _ m, skipSpace_comma]
      simp only []
      rw [if_pos (show ((0x2C : Byte).val = 0x2C) from rfl), ih (by simp) m hm]
      simp

theorem length_le_encodeMembers (es : StateMap) : es.length ≤ (json.encodeMembers es).length := by
  induction es with
  | nil => simp
  | cons e r ih =>
    cases r with
    | nil => simp [json.encodeMembers, json.encodeString]
    | cons x r2 =>
      rw [encodeMembers_cons_cons]
      simp only [List.length_append, List.length_cons, json.encodeString] at ih ⊢
      omega

theorem parse_Marshal_sorted (es : StateMap) :
    json.parse (0x7B :: json.encodeMembers es ++ [0x7D])
      = some (.object (es.map fun e => (json.coerced e.1, .string (json.coerced e.2)))) := by
  unfold json.parse
  cases es with
  | nil => rfl
  | cons e r =>
    have hq : ∃ t, json.encodeMembers (e :: r) = 0x22 :: t := by
      cases r with
      | nil => exact ⟨_, by simp [json.encodeMembers, json.encodeString]; rfl⟩
      | cons x r2 => exact ⟨_, by rw [encodeMembers_cons_cons]; simp [json.encodeString]; rfl⟩
    obtain ⟨t, ht⟩ := hq
    have hlen := length_le_encodeMembers (e :: r)
    have hpm := parseMembers_encodeMembers (e :: r) [] (by simp)
      ((json.encodeMembers (e :: r)).length + 1) (by omega)
    have hv : json.parseValue ((0x7B :: json.encodeMembers (e :: r) ++ [0x7D]).length + 1)
        (0x7B :: json.encodeMembers (e :: r) ++ [0x7D])
        = some (.object ((e :: r).map fun e => (json.coerced e.1, .string (json.coerced e.2))),
            []) := by
      have hl : (0x7B :: json.encodeMembers (e :: r) ++ [0x7D]).length + 1
          = ((json.encodeMembers (e :: r)).length + 1 + 1) + 1 := by simp
      rw [hl, List.cons_append, parseValue_open]
      rw [ht] at hpm ⊢
      simp only [List.cons_append, skipSpace_quote]
      rw [if_neg (show ¬ ((0x22 : Byte).val = 0x7D) by decide)]
      simp only [List.cons_append] at hpm
      rw [hpm]
    rw [hv]
    rfl

theorem storeMembers_strings (es : StateMap) (state : StateMap) :
    json.storeMembers (es.map fun e => (json.coerced e.1, .string (json.coerced e.2))) state
      = writeAll (es.map fun e => (json.coerced e.1, json.coerced e.2)) state := by
  induction es generalizing state with
  | nil => rfl
  | cons e r ih => simp [json.storeMembers, writeAll, json.stringOf, ih]

theorem insertByKey_perm (e : GoString × GoString) (l : StateMap) :
    (json.insertByKey e l).Perm (e :: l) := by
  induction l with
  | nil => exact List.Perm.refl _
  | cons x r ih =>
    unfold json.insertByKey
    split
    · exact List.Perm.refl _
    · exact (List.Perm.cons x ih).trans (List.Perm.swap e x r)

theorem sortByKey_perm (l : StateMap) : (json.sortByKey l).Perm l := by
  induction l with
  | nil => exact List.Perm.refl _
  | cons e r ih => exact (insertByKey_perm e _).trans (List.Perm.cons e ih)

theorem mapGet_writeAll_of_not_mem (l : StateMap) (s : StateMap) (k : GoString)
    (h : k ∉ l.map Prod.fst) : mapGet (writeAll l s) k = mapGet s k := by
  induction l generalizing s with
  | nil => rfl
  | cons e r ih =>
    simp only [List.map, List.mem_cons, not_or] at h
    rw [writeAll, ih _ h.2, mapGet_mapSet_ne _ _ _ _ (Ne.symm h.1)]

theorem mapGet_writeAll_of_mem (l : StateMap) (s : StateMap) (k v : GoString)
    (hn : (l.map Prod.fst).Nodup) (h : (k, v) ∈ l) : mapGet (writeAll l s) k = some v := by
  induction l generalizing s with
  | nil => simp at h
  | cons e r ih =>
    simp only [List.map, List.nodup_cons] at hn
    rw [writeAll]
    rcases List.mem_cons.mp h with he | hr
    · subst he
      rw [mapGet_writeAll_of_not_mem _ _ _ hn.1, mapGet_mapSet_same]
    · exact ih _ hn.2 hr

theorem mapGet_eq_some_of_mem (l : StateMap) (k v : GoString) (hn : (l.map Prod.fst).Nodup)
    (h : (k, v) ∈ l) : mapGet l k = some v := by
  induction l with
  | nil => simp at h
  | cons e r ih =>
    obtain ⟨k1, v1⟩ := e
    simp only [List.map, List.nodup_cons] at hn
    rcases List.mem_cons.mp h with he | hr
    · cases he
      simp [mapGet]
    · have hne : k1 ≠ k := by
        intro hk
        subst hk
        exact hn.1 (List.mem_map.mpr ⟨(k1, v), hr, rfl⟩)
      simp [mapGet, hne, ih hn.2 hr]

theorem mem_of_mapGet_eq_some {α : Type} (l : List (GoString × α)) (k : GoString) (v : α)
    (h : mapGet l k = some v) : (k, v) ∈ l := by
  induction l with
  | nil => simp [mapGet] at h
  | cons e r ih =>
    obtain ⟨k1, v1⟩ := e
    by_cases hk : k1 = k
    · simp [mapGet, hk] at h
      simp [hk, h]
    · simp [mapGet, hk] at h
      simp [ih h]

theorem mapGet_eq_none_iff {α : Type} (l : List (GoString × α)) (k : GoString) :
    mapGet l k = none ↔ k ∉ l.map Prod.fst := by
  induction l with
  | nil => simp [mapGet]
  | cons e r ih =>
    obtain ⟨k1, v1⟩ := e
    by_cases hk : k1 = k
    · simp [mapGet, hk]
    · simp only [mapGet, if_neg hk, ih, List.map, List.mem_cons, not_or]
      exact ⟨fun h => ⟨Ne.symm hk, h⟩, fun h => h.2⟩

/-- A State Map with distinct keys, all of them well-formed UTF-8, is read back by
`json.Unmarshal` from what `json.Marshal` wrote, key for key, each value with its
bytes that start no well-formed sequence replaced by `U+FFFD`. -/
theorem mapGet_Unmarshal_Marshal (m : StateMap)
    (hk : ∀ e ∈ m, utf8.ValidString e.1 = true)
    (hn : (m.map Prod.fst).Nodup) (k : GoString) :
    mapGet (json.Unmarshal (json.Marshal m) []) k = (mapGet m k).map json.coerced := by
  have hperm := sortByKey_perm m
  have hmap : (json.sortByKey m).map (fun e => (json.coerced e.1, json.coerced e.2))
      = (json.sortByKey m).map fun e => (e.1, json.coerced e.2) :=
    List.map_congr_left fun e he => by
      rw [coerced_of_valid e.1 (hk e (hperm.subset he))]
  have hkeys : ((json.sortByKey m).map fun e => (e.1, json.coerced e.2)).map Prod.fst
      = (json.sortByKey m).map Prod.fst := by
    rw [List.map_map]
    rfl
  have hns : ((json.sortByKey m).map Prod.fst).Nodup := (hperm.map Prod.fst).nodup_iff.mpr hn
  have hu : json.Unmarshal (json.Marshal m) []
      = writeAll ((json.sortByKey m).map fun e => (e.1, json.coerced e.2)) [] := by
    unfold json.Unmarshal json.Marshal
    rw [parse_Marshal_sorted, ← hmap]
    exact storeMembers_strings _ _
  rw [hu]
  cases hm : mapGet m k with
  | none =>
    have hnot : k ∉ ((json.sortByKey m).map fun e => (e.1, json.coerced e.2)).map Prod.fst := by
      rw [hkeys]
      intro hmem
      exact (mapGet_eq_none_iff m k).mp hm ((hperm.map Prod.fst).subset hmem)
    rw [mapGet_writeAll_of_not_mem _ _ _ hnot]
    rfl
  | some v =>
    have hmem : (k, json.coerced v) ∈ (json.sortByKey m).map fun e => (e.1, json.coerced e.2) :=
      List.mem_map.mpr ⟨(k, v), hperm.symm.subset (mem_of_mapGet_eq_some m k v hm), rfl⟩
    exact mapGet_writeAll_of_mem _ _ _ _ (by rw [hkeys]; exact hns) hmem

/-! ## Targets and their places -/

theorem Split_Join (ws : List GoString) (sep : Byte) (hne : ws ≠ [])
    (h : ∀ w ∈ ws, sep ∉ w) : strings.Split (strings.Join ws sep) sep = ws := by
  induction ws with
  | nil => exact absurd rfl hne
  | cons a r ih =>
    cases r with
    | nil => simpa [strings.Join] using Split_of_not_mem a sep (h a (by simp))
    | cons b r2 =>
      have : strings.Join (a :: b :: r2) sep = a ++ sep :: strings.Join (b :: r2) sep := rfl
      rw [this, Split_append_sep _ _ _ (h a (by simp)),
        ih (by simp) (fun w hw => h w (by simp [hw]))]

theorem keys_mapSet_of_mem {α : Type} (m : List (GoString × α)) (k : GoString) (v : α)
    (h : (mapGet m k).isSome) : (mapSet m k v).map Prod.fst = m.map Prod.fst := by
  induction m with
  | nil => simp [mapGet] at h
  | cons e r ih =>
    obtain ⟨k1, v1⟩ := e
    by_cases hk : k1 = k
    · simp [mapSet, hk]
    · simp only [mapGet, if_neg hk] at h
      simp [mapSet, hk, ih h]

theorem targetAt_cases (data : Obj) (pl : Place) (t : Obj) (h : targetAt data pl = some t) :
    ∃ rules rule paths, mapGet data (lit "rules") = some (.list rules) ∧
      rules[pl.rule]? = some (.map rule) ∧ mapGet rule (lit "paths") = some (.map paths) ∧
      mapGet paths pl.path = some (.map t) := by
  unfold targetAt at h
  split at h
  · rename_i rules hr
    split at h
    · rename_i rule hrule
      split at h
      · rename_i paths hp
        split at h
        · rename_i target ht
          cases target <;> simp [convert.ToMapInterface] at h
          subst h
          exact ⟨rules, rule, paths, hr, hrule, hp, ht⟩
        · cases h
      · cases h
    · cases h
  · cases h

theorem putTargetAt_of_targetAt (data : Obj) (pl : Place) (t1 : Obj) (rules : List Value)
    (rule paths : Obj) (hr : mapGet data (lit "rules") = some (.list rules))
    (hrule : rules[pl.rule]? = some (.map rule))
    (hp : mapGet rule (lit "paths") = some (.map paths)) :
    putTargetAt data pl t1 = mapSet data (lit "rules")
      (.list (rules.set pl.rule
        (.map (mapSet rule (lit "paths") (.map (mapSet paths pl.path (.map t1))))))) := by
  simp only [putTargetAt, hr, hrule, hp]

theorem targetAt_putTargetAt_same (data : Obj) (pl : Place) (t t1 : Obj)
    (h : targetAt data pl = some t) : targetAt (putTargetAt data pl t1) pl = some t1 := by
  obtain ⟨rules, rule, paths, hr, hrule, hp, ht⟩ := targetAt_cases data pl t h
  have hlt : pl.rule < rules.length := by
    by_contra hge
    rw [List.getElem?_eq_none (by omega)] at hrule
    cases hrule
  rw [putTargetAt_of_targetAt data pl t1 rules rule paths hr hrule hp]
  simp only [targetAt, mapGet_mapSet_same, List.getElem?_set_self hlt, convert.ToMapInterface]

theorem targetAt_putTargetAt_ne (data : Obj) (pl pl2 : Place) (t1 : Obj) (hne : pl2 ≠ pl) :
    targetAt (putTargetAt data pl t1) pl2 = targetAt data pl2 := by
  unfold putTargetAt
  split
  · rename_i rules hr
    split
    · rename_i rule hrule
      split
      · rename_i paths hp
        simp only [targetAt, mapGet_mapSet_same, hr]
        by_cases hi : pl.rule = pl2.rule
        · have hpath : pl.path ≠ pl2.path := by
            intro hpp
            apply hne
            cases pl
            cases pl2
            simp_all
          have hlt : pl.rule < rules.length := by
            by_contra hge
            rw [List.getElem?_eq_none (by omega)] at hrule
            cases hrule
          rw [← hi, List.getElem?_set_self hlt, hrule]
          simp only [mapGet_mapSet_same, hp, mapGet_mapSet_ne _ _ _ _ hpath]
        · rw [List.getElem?_set_ne hi]
      · rfl
    · rfl
  · rfl

/-! ## `getPaths` sees the same rules after a target has been rewritten -/

theorem rulePaths_cons_shape (r : Obj) (rest : List Obj) (i : Nat)
    (acc : List (hostPath × Place)) :
    rulePaths (r :: rest) i acc
      = match ruleShape r with
        | some sh => rulePaths rest (i + 1) (addPaths sh.1 i sh.2 acc)
        | none => rulePaths rest (i + 1) acc := by
  unfold ruleShape
  cases h : mapGet r (lit "paths") <;> simp [rulePaths, h]

theorem rulePaths_set (R : List Obj) (i : Nat) (r1 : Obj) (n : Nat)
    (acc : List (hostPath × Place))
    (h : ∀ r, R[i]? = some r → ruleShape r1 = ruleShape r) :
    rulePaths (R.set i r1) n acc = rulePaths R n acc := by
  induction R generalizing i n acc with
  | nil => rfl
  | cons r rest ih =>
    cases i with
    | zero =>
      rw [List.set_cons_zero, rulePaths_cons_shape, rulePaths_cons_shape, h r (by simp)]
    | succ j =>
      rw [List.set_cons_succ, rulePaths_cons_shape, rulePaths_cons_shape]
      have hj : ∀ r0, rest[j]? = some r0 → ruleShape r1 = ruleShape r0 := fun r0 h0 =>
        h r0 (by simpa using h0)
      cases ruleShape r with
      | none => exact ih j _ _ hj
      | some sh => exact ih j _ _ hj

theorem ToMapSlice_all (vs : List Value)
    (h : (vs.all fun item => (convert.ToMapInterface item).isSome) = true) :
    convert.ToMapSlice (.list vs) = vs.map fun v => (convert.ToMapInterface v).getD [] := by
  simp only [convert.ToMapSlice, h, if_true]
  induction vs with
  | nil => rfl
  | cons v r ih =>
    simp only [List.all_cons, Bool.and_eq_true] at h
    cases v with
    | map m => simp [convert.ToMapInterface, ih h.2]
    | null => simp [convert.ToMapInterface] at h
    | bool b => simp [convert.ToMapInterface] at h
    | int n => simp [convert.ToMapInterface] at h
    | str t => simp [convert.ToMapInterface] at h
    | list xs => simp [convert.ToMapInterface] at h
    | strs xs => simp [convert.ToMapInterface] at h

theorem all_set_map (vs : List Value) (i : Nat) (rule r1 : Obj)
    (hi : vs[i]? = some (.map rule)) :
    ((vs.set i (.map r1)).all fun item => (convert.ToMapInterface item).isSome)
      = vs.all fun item => (convert.ToMapInterface item).isSome := by
  induction vs generalizing i with
  | nil => rfl
  | cons v r ih =>
    cases i with
    | zero =>
      simp only [List.getElem?_cons_zero, Option.some.injEq] at hi
      subst hi
      simp [convert.ToMapInterface]
    | succ j =>
      simp only [List.getElem?_cons_succ] at hi
      simp only [List.set_cons_succ, List.all_cons, ih j hi]

theorem ToMapSlice_set (vs : List Value) (i : Nat) (rule r1 : Obj)
    (hi : vs[i]? = some (.map rule)) (n : Nat) (acc : List (hostPath × Place))
    (hshape : ruleShape r1 = ruleShape rule) :
    rulePaths (convert.ToMapSlice (.list (vs.set i (.map r1)))) n acc
      = rulePaths (convert.ToMapSlice (.list vs)) n acc := by
  cases hall : vs.all fun item => (convert.ToMapInterface item).isSome with
  | false =>
    have h2 := all_set_map vs i rule r1 hi
    rw [hall] at h2
    simp [convert.ToMapSlice, hall, h2]
  | true =>
    have h2 := all_set_map vs i rule r1 hi
    rw [hall] at h2
    rw [ToMapSlice_all _ hall, ToMapSlice_all _ h2, List.map_set]
    apply rulePaths_set
    intro r hr
    rw [List.getElem?_map, hi] at hr
    simp only [Option.map, convert.ToMapInterface, Option.getD_some, Option.some.injEq] at hr
    rw [← hr]
    exact hshape

theorem ruleShape_put (rule paths : Obj) (p : GoString) (x : Value)
    (hp : mapGet rule (lit "paths") = some (.map paths)) (hx : (mapGet paths p).isSome) :
    ruleShape (mapSet rule (lit "paths") (.map (mapSet paths p x))) = ruleShape rule := by
  simp only [ruleShape, mapGet_mapSet_same, hp, Option.map,
    mapGet_mapSet_ne _ (lit "paths") (lit "host") _ (by decide), convert.ToMapInterface,
    Option.getD_some]
  have := keys_mapSet_of_mem paths p x hx
  simp only [List.map] at this ⊢
  rw [show (fun e : GoString × Value => e.1) = Prod.fst from rfl, this]

theorem getPaths_putTargetAt (data : Obj) (pl : Place) (t t1 : Obj)
    (h : targetAt data pl = some t) : getPaths (putTargetAt data pl t1) = getPaths data := by
  obtain ⟨rules, rule, paths, hr, hrule, hp, ht⟩ := targetAt_cases data pl t h
  rw [putTargetAt_of_targetAt data pl t1 rules rule paths hr hrule hp]
  simp only [getPaths, GetValue_single, mapGet_mapSet_same, hr]
  rw [ToMapSlice_set rules pl.rule rule _ hrule 0 []
    (ruleShape_put rule paths pl.path _ hp (by rw [ht]; rfl))]

/-! ## `getPaths` files every place once -/

theorem mem_putPath (acc : List (hostPath × Place)) (hp : hostPath) (pl : Place)
    (e : hostPath × Place) (h : e ∈ putPath acc hp pl) : e = (hp, pl) ∨ e ∈ acc := by
  induction acc with
  | nil =>
    simp only [putPath, List.mem_singleton] at h
    exact Or.inl h
  | cons x r ih =>
    obtain ⟨hp1, pl1⟩ := x
    unfold putPath at h
    split at h
    · rcases List.mem_cons.mp h with h1 | h1
      · exact Or.inl h1
      · exact Or.inr (List.mem_cons_of_mem _ h1)
    · rcases List.mem_cons.mp h with h1 | h1
      · exact Or.inr (by rw [h1]; exact List.mem_cons_self _ _)
      · rcases ih h1 with h2 | h2
        · exact Or.inl h2
        · exact Or.inr (List.mem_cons_of_mem _ h2)

theorem putPath_keys_nodup (acc : List (hostPath × Place)) (hp : hostPath) (pl : Place)
    (h : (acc.map Prod.fst).Nodup) : ((putPath acc hp pl).map Prod.fst).Nodup := by
  induction acc with
  | nil => simp [putPath]
  | cons x r ih =>
    obtain ⟨hp1, pl1⟩ := x
    simp only [List.map, List.nodup_cons] at h
    unfold putPath
    split
    · rename_i heq
      simp only [List.map, List.nodup_cons]
      exact ⟨by rw [← heq]; exact h.1, h.2⟩
    · rename_i hne
      simp only [List.map, List.nodup_cons]
      refine ⟨?_, ih h.2⟩
      intro hmem
      obtain ⟨e, he, hk⟩ := List.mem_map.mp hmem
      rcases mem_putPath r hp pl e he with h1 | h1
      · rw [h1] at hk
        exact hne hk.symm
      · exact h.1 (List.mem_map.mpr ⟨e, h1, hk⟩)

theorem addPaths_inv (host : GoString) (i : Nat) (g : Nat → GoString) (hg : g i = host)
    (ks : List GoString) (acc : List (hostPath × Place))
    (h1 : (acc.map Prod.fst).Nodup)
    (h2 : ∀ e ∈ acc, e.2.rule ≤ i ∧ e.1 = { host := g e.2.rule, path := e.2.path }) :
    ((addPaths host i ks acc).map Prod.fst).Nodup ∧
      ∀ e ∈ addPaths host i ks acc,
        e.2.rule ≤ i ∧ e.1 = { host := g e.2.rule, path := e.2.path } := by
  induction ks generalizing acc with
  | nil => exact ⟨h1, h2⟩
  | cons p rest ih =>
    rw [addPaths]
    apply ih
    · exact putPath_keys_nodup _ _ _ h1
    · intro e he
      rcases mem_putPath _ _ _ _ he with h3 | h3
      · rw [h3]
        exact ⟨Nat.le_refl _, by simp [hg]⟩
      · exact h2 e h3

theorem rulePaths_inv (R : List Obj) (i : Nat) (acc : List (hostPath × Place))
    (h1 : (acc.map Prod.fst).Nodup)
    (h2 : ∃ g : Nat → GoString,
      ∀ e ∈ acc, e.2.rule < i ∧ e.1 = { host := g e.2.rule, path := e.2.path }) :
    ((rulePaths R i acc).map Prod.fst).Nodup ∧
      ∃ g : Nat → GoString,
        ∀ e ∈ rulePaths R i acc, e.1 = { host := g e.2.rule, path := e.2.path } := by
  induction R generalizing i acc with
  | nil =>
    obtain ⟨g, hg⟩ := h2
    exact ⟨h1, g, fun e he => (hg e he).2⟩
  | cons r rest ih =>
    obtain ⟨g, hg⟩ := h2
    rw [rulePaths_cons_shape]
    cases hs : ruleShape r with
    | none =>
      exact ih (i + 1) acc h1 ⟨g, fun e he => ⟨Nat.lt_succ_of_lt (hg e he).1, (hg e he).2⟩⟩
    | some sh =>
      have hold : ∀ e ∈ acc, e.2.rule ≤ i ∧
          e.1 = { host := Function.update g i sh.1 e.2.rule, path := e.2.path } := by
        intro e he
        have hlt := (hg e he).1
        refine ⟨Nat.le_of_lt hlt, ?_⟩
        rw [Function.update_noteq (Nat.ne_of_lt hlt)]
        exact (hg e he).2
      have hnew := addPaths_inv sh.1 i (Function.update g i sh.1) (by simp) sh.2 acc h1 hold
      exact ih (i + 1) _ hnew.1
        ⟨Function.update g i sh.1, fun e he => ⟨Nat.lt_succ_of_le (hnew.2 e he).1, (hnew.2 e he).2⟩⟩

theorem getPaths_places_nodup (data : Obj) (L : List (hostPath × Place))
    (h : getPaths data = some L) : (L.map Prod.snd).Nodup := by
  unfold getPaths at h
  split at h
  · cases h
  · rename_i v hv
    simp only [Option.some.injEq] at h
    obtain ⟨hk, g, hg⟩ := rulePaths_inv (convert.ToMapSlice v) 0 [] (by simp)
      ⟨fun _ => [], fun e he => by simp at he⟩
    rw [h] at hk hg
    have hmap : L.map Prod.fst
        = (L.map Prod.snd).map fun pl => ({ host := g pl.rule, path := pl.path } : hostPath) := by
      rw [List.map_map]
      exact List.map_congr_left fun e he => hg e he
    rw [hmap] at hk
    exact List.Nodup.of_map _ hk

/-! ## What the two loops over the targets do -/

theorem workloadIDsOf_congr (t t1 : Obj)
    (h : ∀ k : GoString, k ≠ lit "serviceId" → mapGet t1 k = mapGet t k) :
    workloadIDsOf t1 = workloadIDsOf t := by
  simp only [workloadIDsOf, h (lit "workloadIds") (by decide)]

theorem stateKeyOf_congr (env : Env) (t t1 : Obj) (id host path : GoString)
    (h : ∀ k, k ≠ lit "serviceId" → mapGet t1 k = mapGet t k) :
    stateKeyOf env t1 id host path = stateKeyOf env t id host path := by
  simp only [stateKeyOf, h (lit "targetPort") (by decide)]

theorem updateRule_storage_entry (env : Env) (t : Obj) (id host path : GoString) (data : Obj)
    (old nst : StateMap) :
    ∃ t1, updateRule env (some t) id host path false data old nst
        = some (t1, mapSet nst (stateKeyOf env t id host path)
            (strings.Join (workloadIDsOf t) slash)) ∧
      ∀ k, k ≠ lit "serviceId" → mapGet t1 k = mapGet t k :=
  ⟨_, updateRule_storage env t id host path data old nst,
    fun _ hk => mapGet_mapSet_ne _ _ _ _ (Ne.symm hk)⟩

theorem updateRule_client_some (env : Env) (t : Obj) (id host path : GoString) (data : Obj)
    (old nst : StateMap) (ns : GoString)
    (hns : mapGet data (lit "namespaceId") = some (.str ns)) :
    ∃ t2, updateRule env (some t) id host path true data old nst = some (t2, nst) ∧
      ((mapGet old (stateKeyOf env t id host path) = none ∨
          mapGet old (stateKeyOf env t id host path) = some []) →
        mapGet t2 (lit "workloadIds") = mapGet t (lit "workloadIds")) ∧
      (∀ v, mapGet old (stateKeyOf env t id host path) = some v → v ≠ [] →
        mapGet t2 (lit "workloadIds") = some (.strs (strings.Split v slash))) := by
  by_cases hk : mapGet old (stateKeyOf env t id host path) = none ∨
      mapGet old (stateKeyOf env t id host path) = some []
  · refine ⟨_, updateRule_client_service env t id host path data old nst ns hns hk, ?_, ?_⟩
    · intro _
      exact mapGet_mapSet_ne _ _ _ _ (by decide)
    · intro v hv hne
      rcases hk with h | h
      · rw [h] at hv
        cases hv
      · rw [h] at hv
        cases hv
        exact absurd rfl hne
  · cases hv : mapGet old (stateKeyOf env t id host path) with
    | none => exact absurd (Or.inl hv) hk
    | some v =>
      have hne : v ≠ [] := by
        intro h
        exact hk (Or.inr (by rw [hv, h]))
      have hemp : convert.IsEmpty (.str v) = false := by
        cases v with
        | nil => exact absurd rfl hne
        | cons b r => rfl
      refine ⟨mapDelete (mapSet t (lit "workloadIds") (.strs (strings.Split v slash)))
          (lit "serviceId"), ?_, ?_, ?_⟩
      · simp [updateRule, hv, hemp]
      · intro h
        rcases h with h | h
        · cases h
        · cases h
          exact absurd rfl hne
      · intro w hw _
        cases hw
        rw [mapGet_mapDelete_ne _ (lit "serviceId") (lit "workloadIds") (by decide),
          mapGet_mapSet_same]

theorem rulesLoop_storage_trace (env : Env) (id : GoString) (old : StateMap)
    (l : List (hostPath × Place)) (d : Obj) (nst : StateMap)
    (hnd : (l.map Prod.snd).Nodup) (hsome : ∀ e ∈ l, (targetAt d e.2).isSome) :
    ∃ d1, rulesLoop env id false old l (d, nst)
        = some (d1, writeAll (l.map (ruleEntry env id d)) nst) ∧
      getPaths d1 = getPaths d ∧
      ∀ pl t, targetAt d pl = some t →
        ∃ t1, targetAt d1 pl = some t1 ∧ ∀ k, k ≠ lit "serviceId" → mapGet t1 k = mapGet t k := by
  induction l generalizing d nst with
  | nil => exact ⟨d, rfl, rfl, fun pl t h => ⟨t, h, fun _ _ => rfl⟩⟩
  | cons e rest ih =>
    obtain ⟨hp, pl⟩ := e
    simp only [List.map, List.nodup_cons] at hnd
    obtain ⟨t, ht⟩ := Option.isSome_iff_exists.mp (hsome (hp, pl) (by simp))
    obtain ⟨t1, hu, hsame⟩ := updateRule_storage_entry env t id hp.host hp.path d old nst
    have hother : ∀ pl2, pl2 ≠ pl → targetAt (putTargetAt d pl t1) pl2 = targetAt d pl2 :=
      fun pl2 h2 => targetAt_putTargetAt_ne d pl pl2 t1 h2
    have hrest : ∀ e ∈ rest, e.2 ≠ pl := by
      intro e he heq
      exact hnd.1 (List.mem_map.mpr ⟨e, he, heq⟩)
    obtain ⟨d1, hloop, hpaths, htargets⟩ := ih (putTargetAt d pl t1)
      (mapSet nst (stateKeyOf env t id hp.host hp.path) (strings.Join (workloadIDsOf t) slash))
      hnd.2 (fun e he => by rw [hother e.2 (hrest e he)]; exact hsome e (by simp [he]))
    have hentries : rest.map (ruleEntry env id (putTargetAt d pl t1))
        = rest.map (ruleEntry env id d) :=
      List.map_congr_left fun e he => by simp only [ruleEntry, hother e.2 (hrest e he)]
    refine ⟨d1, ?_, ?_, ?_⟩
    · simp only [rulesLoop, ht, hu, hloop, hentries, List.map, writeAll, ruleEntry,
        Option.getD_some]
    · rw [hpaths, getPaths_putTargetAt d pl t t1 ht]
    · intro pl2 t2 h2
      by_cases heq : pl2 = pl
      · rw [heq] at h2 ⊢
        have h21 : t2 = t := by
          rw [ht] at h2
          exact (Option.some.inj h2).symm
        rw [h21]
        obtain ⟨t3, h3, hs3⟩ := htargets pl t1 (targetAt_putTargetAt_same d pl t t1 ht)
        exact ⟨t3, h3, fun k hk => by rw [hs3 k hk, hsame k hk]⟩
      · exact htargets pl2 t2 (by rw [hother pl2 heq]; exact h2)

theorem rulesLoop_client_trace (env : Env) (id : GoString) (old : StateMap) (ns : GoString)
    (l : List (hostPath × Place)) (d : Obj) (nst : StateMap)
    (hns : mapGet d (lit "namespaceId") = some (.str ns))
    (hnd : (l.map Prod.snd).Nodup) (hsome : ∀ e ∈ l, (targetAt d e.2).isSome) :
    ∃ d1, rulesLoop env id true old l (d, nst) = some (d1, nst) ∧
      (∀ pl, pl ∉ l.map Prod.snd → targetAt d1 pl = targetAt d pl) ∧
      ∀ e ∈ l, ∀ t, targetAt d e.2 = some t →
        ∃ t2, targetAt d1 e.2 = some t2 ∧
          clientRewrite old (stateKeyOf env t id e.1.host e.1.path) t t2 := by
  induction l generalizing d nst with
  | nil => exact ⟨d, rfl, fun _ _ => rfl, fun e he => by simp at he⟩
  | cons e rest ih =>
    obtain ⟨hp, pl⟩ := e
    simp only [List.map, List.nodup_cons] at hnd
    obtain ⟨t, ht⟩ := Option.isSome_iff_exists.mp (hsome (hp, pl) (by simp))
    obtain ⟨t2, hu, hrel⟩ := updateRule_client_some env t id hp.host hp.path d old nst ns hns
    have hother : ∀ pl2, pl2 ≠ pl → targetAt (putTargetAt d pl t2) pl2 = targetAt d pl2 :=
      fun pl2 h2 => targetAt_putTargetAt_ne d pl pl2 t2 h2
    have hrest : ∀ e ∈ rest, e.2 ≠ pl := by
      intro e he heq
      exact hnd.1 (List.mem_map.mpr ⟨e, he, heq⟩)
    obtain ⟨d1, hloop, hout, hin⟩ := ih (putTargetAt d pl t2) nst
      (by rw [mapGet_putTargetAt _ _ _ _ (by decide)]; exact hns) hnd.2
      (fun e he => by rw [hother e.2 (hrest e he)]; exact hsome e (by simp [he]))
    refine ⟨d1, ?_, ?_, ?_⟩
    · simp only [rulesLoop, ht, hu, hloop]
    · intro pl2 h2
      simp only [List.map, List.mem_cons, not_or] at h2
      rw [hout pl2 h2.2, hother pl2 h2.1]
    · intro e he t3 h3
      rcases List.mem_cons.mp he with h4 | h4
      · rw [h4] at h3 ⊢
        have h31 : t3 = t := by
          rw [ht] at h3
          exact (Option.some.inj h3).symm
        rw [h31]
        exact ⟨t2, by rw [hout pl hnd.1]; exact targetAt_putTargetAt_same d pl t t2 ht, hrel⟩
      · exact hin e h4 t3 (by rw [hother e.2 (hrest e h4)]; exact h3)

theorem defaultTarget_of_mapGet (data : Obj) (t : Obj)
    (h : mapGet data (lit "defaultBackend") = some (.map t)) : defaultTarget data = some t := by
  simp [defaultTarget, h]

theorem mapGet_of_defaultTarget (data : Obj) (t : Obj) (h : defaultTarget data = some t) :
    mapGet data (lit "defaultBackend") = some (.map t) := by
  unfold defaultTarget at h
  split at h
  · rename_i t1 h1
    cases h
    exact h1
  · cases h

theorem defaultStep_storage_trace (env : Env) (id : GoString) (data : Obj) (old : StateMap)
    (hwf : wellFormedDefault data) :
    ∃ d1, defaultStep env id data false old []
        = some (d1, writeAll (defaultEntry env id data) []) ∧
      (∀ k, k ≠ lit "defaultBackend" → mapGet d1 k = mapGet data k) ∧
      wellFormedDefault d1 ∧
      ∀ t, defaultTarget data = some t →
        ∃ t1, defaultTarget d1 = some t1 ∧
          ∀ k, k ≠ lit "serviceId" → mapGet t1 k = mapGet t k := by
  rcases hwf with h | h | h
  · refine ⟨data, ?_, fun _ _ => rfl, Or.inl h, ?_⟩
    · simp [defaultStep, GetValue_single, h, defaultEntry, defaultTarget, writeAll]
    · intro t ht
      simp [defaultTarget, h] at ht
  · refine ⟨data, ?_, fun _ _ => rfl, Or.inr (Or.inl h), ?_⟩
    · simp [defaultStep, GetValue_single, h, defaultEntry, defaultTarget, writeAll]
    · intro t ht
      simp [defaultTarget, h] at ht
  · obtain ⟨t, ht⟩ := Option.isSome_iff_exists.mp h
    have hm := mapGet_of_defaultTarget data t ht
    obtain ⟨t1, hu, hsame⟩ := updateRule_storage_entry env t id [] (lit "/") data old []
    have hd1 : defaultTarget (mapSet data (lit "defaultBackend") (.map t1)) = some t1 :=
      defaultTarget_of_mapGet _ _ (mapGet_mapSet_same _ _ _)
    refine ⟨mapSet data (lit "defaultBackend") (.map t1), ?_,
      fun k hk => mapGet_mapSet_ne _ _ _ _ (Ne.symm hk), Or.inr (Or.inr (by rw [hd1]; rfl)), ?_⟩
    · simp only [defaultStep, GetValue_single, hm, convert.ToMapInterface, hu, defaultEntry, ht,
        writeAll]
    · intro t0 ht0
      rw [ht] at ht0
      cases ht0
      exact ⟨t1, hd1, hsame⟩

theorem defaultStep_client_trace (env : Env) (id : GoString) (data : Obj)
    (old nst : StateMap) (ns : GoString)
    (hns : mapGet data (lit "namespaceId") = some (.str ns))
    (hwf : wellFormedDefault data) :
    ∃ d1, defaultStep env id data true old nst = some (d1, nst) ∧
      (∀ k, k ≠ lit "defaultBackend" → mapGet d1 k = mapGet data k) ∧
      ∀ t, defaultTarget data = some t →
        ∃ t2, defaultTarget d1 = some t2 ∧
          clientRewrite old (stateKeyOf env t id [] (lit "/")) t t2 := by
  rcases hwf with h | h | h
  · refine ⟨data, ?_, fun _ _ => rfl, ?_⟩
    · simp [defaultStep, GetValue_single, h]
    · intro t ht
      simp [defaultTarget, h] at ht
  · refine ⟨data, ?_, fun _ _ => rfl, ?_⟩
    · simp [defaultStep, GetValue_single, h]
    · intro t ht
      simp [defaultTarget, h] at ht
  · obtain ⟨t, ht⟩ := Option.isSome_iff_exists.mp h
    have hm := mapGet_of_defaultTarget data t ht
    obtain ⟨t2, hu, hrel⟩ := updateRule_client_some env t id [] (lit "/") data old nst ns hns
    refine ⟨mapSet data (lit "defaultBackend") (.map t2), ?_,
      fun k hk => mapGet_mapSet_ne _ _ _ _ (Ne.symm hk), ?_⟩
    · simp only [defaultStep, GetValue_single, hm, convert.ToMapInterface, hu]
    · intro t0 ht0
      rw [ht] at ht0
      cases ht0
      exact ⟨t2, defaultTarget_of_mapGet _ _ (mapGet_mapSet_same _ _ _), hrel⟩

theorem certsLoop_storage_writes (old : StateMap) (certs : List Value) (nst : StateMap) :
    (certsLoop false old certs nst).2 = writeAll (certWrites certs) nst := by
  induction certs generalizing nst with
  | nil => rfl
  | cons v r ih =>
    cases v with
    | map cert =>
      by_cases h : (strings.Split (certificateIdOf cert) colon).length = 2
      · have hu : updateCert false old cert nst
            = (mapSet cert (lit "certificateId")
                (.str ((strings.Split (certificateIdOf cert) colon).getD 1 [])),
              mapSet nst (getCertKey ((strings.Split (certificateIdOf cert) colon).getD 1 []))
                (certificateIdOf cert)) := by
          unfold certificateIdOf at h ⊢
          simp [updateCert, h]
        simp only [certsLoop, hu, certWrites, if_pos h, writeAll, ih]
      · simp only [certsLoop, updateCert_malformed old cert nst h, certWrites, if_neg h, ih]
    | null => simp only [certsLoop, certWrites, ih]
    | bool b => simp only [certsLoop, certWrites, ih]
    | int n => simp only [certsLoop, certWrites, ih]
    | str s => simp only [certsLoop, certWrites, ih]
    | list xs => simp only [certsLoop, certWrites, ih]
    | strs xs => simp only [certsLoop, certWrites, ih]

theorem updateCerts_storage_writes (data : Obj) (old nst : StateMap) :
    (updateCerts data false old nst).2 = writeAll (certEntries data) nst := by
  unfold updateCerts certEntries
  rw [GetValue_single]
  split
  · rename_i certs hc
    simp only [hc, certsLoop_storage_writes]
  · rfl

theorem writeAll_append (a b : List (GoString × GoString)) (s : StateMap) :
    writeAll (a ++ b) s = writeAll b (writeAll a s) := by
  induction a generalizing s with
  | nil => rfl
  | cons e r ih => simp only [List.cons_append, writeAll, List.append_eq, ih]

theorem keys_mapSet {α : Type} (m : List (GoString × α)) (k : GoString) (v : α) :
    (mapSet m k v).map Prod.fst = m.map Prod.fst ∨
      ((mapSet m k v).map Prod.fst = m.map Prod.fst ++ [k] ∧ k ∉ m.map Prod.fst) := by
  induction m with
  | nil => exact Or.inr ⟨rfl, by simp⟩
  | cons e r ih =>
    obtain ⟨k1, v1⟩ := e
    by_cases hk : k1 = k
    · left
      simp [mapSet, hk]
    · rcases ih with h | ⟨h, hn⟩
      · left
        simp [mapSet, hk, h]
      · right
        refine ⟨by simp [mapSet, hk, h], ?_⟩
        simp only [List.map, List.mem_cons, not_or]
        exact ⟨Ne.symm hk, hn⟩

theorem keys_nodup_mapSet {α : Type} (m : List (GoString × α)) (k : GoString) (v : α)
    (h : (m.map Prod.fst).Nodup) : ((mapSet m k v).map Prod.fst).Nodup := by
  rcases keys_mapSet m k v with h1 | ⟨h1, hn⟩
  · rw [h1]
    exact h
  · rw [h1]
    exact List.Nodup.append h (List.nodup_singleton k) (by simpa using hn)

theorem keys_nodup_writeAll (l : List (GoString × GoString)) (s : StateMap)
    (h : (s.map Prod.fst).Nodup) : ((writeAll l s).map Prod.fst).Nodup := by
  induction l generalizing s with
  | nil => exact h
  | cons e r ih => exact ih _ (keys_nodup_mapSet s e.1 e.2 h)

theorem mem_keys_writeAll (l : List (GoString × GoString)) (s : StateMap) (k : GoString)
    (h : k ∈ (writeAll l s).map Prod.fst) : k ∈ l.map Prod.fst ∨ k ∈ s.map Prod.fst := by
  induction l generalizing s with
  | nil => exact Or.inr h
  | cons e r ih =>
    rcases ih _ h with h1 | h1
    · exact Or.inl (List.mem_cons_of_mem _ h1)
    · rcases keys_mapSet s e.1 e.2 with h2 | ⟨h2, _⟩
      · rw [h2] at h1
        exact Or.inr h1
      · rw [h2] at h1
        rcases List.mem_append.mp h1 with h3 | h3
        · exact Or.inr h3
        · simp only [List.mem_singleton] at h3
          rw [h3]
          exact Or.inl (List.mem_cons_self _ _)

theorem ValidString_of_plainText (s : GoString) (h : plainText s = true) :
    utf8.ValidString s = true := by
  apply ValidString_of_ascii
  intro b hb
  simp only [plainText, List.all_eq_true] at h
  exact (plainByte_spec b (h b hb)).2.1

theorem plainByte_encodeURL (i : Nat) (h : i < 64) : plainByte (base64.encodeURL i) = true := by
  have key : ∀ j : Fin 64, plainByte (base64.encodeURL j.val) = true := by decide
  exact key ⟨i, h⟩

theorem plainText_EncodeToString (src : List Byte) :
    plainText (base64.EncodeToString src) = true := by
  induction src using base64.EncodeToString.induct with
  | case1 => rfl
  | case2 a =>
    simp only [base64.EncodeToString, plainText, List.all_cons, List.all_nil, Bool.and_true,
      Bool.and_eq_true]
    exact ⟨plainByte_encodeURL _ (by omega), plainByte_encodeURL _ (by omega), by decide,
      by decide⟩
  | case3 a b =>
    simp only [base64.EncodeToString, plainText, List.all_cons, List.all_nil, Bool.and_true,
      Bool.and_eq_true]
    exact ⟨plainByte_encodeURL _ (by omega), plainByte_encodeURL _ (by omega),
      plainByte_encodeURL _ (by omega), by decide⟩
  | case4 a b c r ih =>
    simp only [base64.EncodeToString, plainText, List.all_cons, Bool.and_eq_true]
    exact ⟨plainByte_encodeURL _ (by omega), plainByte_encodeURL _ (by omega),
      plainByte_encodeURL _ (by omega), plainByte_encodeURL _ (by omega), ih⟩

theorem getPaths_congr (d1 d2 : Obj) (h : mapGet d1 (lit "rules") = mapGet d2 (lit "rules")) :
    getPaths d1 = getPaths d2 := by
  simp only [getPaths, GetValue_single, h]

theorem targetAt_congr (d1 d2 : Obj) (h : mapGet d1 (lit "rules") = mapGet d2 (lit "rules"))
    (pl : Place) : targetAt d1 pl = targetAt d2 pl := by
  simp only [targetAt, h]

theorem defaultTarget_congr (d1 d2 : Obj)
    (h : mapGet d1 (lit "defaultBackend") = mapGet d2 (lit "defaultBackend")) :
    defaultTarget d1 = defaultTarget d2 := by
  simp only [defaultTarget, h]

theorem certEntries_congr (d1 d2 : Obj) (h : mapGet d1 (lit "tls") = mapGet d2 (lit "tls")) :
    certEntries d1 = certEntries d2 := by
  simp only [certEntries, h]

theorem rangeOrder_nil (env : Env) (hperm : ∀ l, (env.rangeOrder l).Perm l) :
    env.rangeOrder [] = [] := List.Perm.eq_nil (hperm [])

theorem rulesStep_storage_trace (env : Env) (hperm : ∀ l, (env.rangeOrder l).Perm l)
    (id : GoString) (old : StateMap) (d : Obj) (nst : StateMap)
    (hsome : ∀ e ∈ (getPaths d).getD [], (targetAt d e.2).isSome = true) :
    ∃ d1, rulesStep env id false old (d, nst)
        = some (d1, writeAll ((env.rangeOrder ((getPaths d).getD [])).map (ruleEntry env id d))
            nst) ∧
      getPaths d1 = getPaths d ∧
      (∀ k, lit "rules" ≠ k → mapGet d1 k = mapGet d k) ∧
      ∀ pl t, targetAt d pl = some t →
        ∃ t1, targetAt d1 pl = some t1 ∧ ∀ k, k ≠ lit "serviceId" → mapGet t1 k = mapGet t k := by
  cases hg : getPaths d with
  | none =>
    refine ⟨d, ?_, hg, fun _ _ => rfl, fun pl t h => ⟨t, h, fun _ _ => rfl⟩⟩
    simp [rulesStep, hg, rangeOrder_nil env hperm, writeAll]
  | some L =>
    rw [hg] at hsome
    simp only [Option.getD_some] at hsome ⊢
    have hnd : ((env.rangeOrder L).map Prod.snd).Nodup :=
      (((hperm L).map Prod.snd).nodup_iff).mpr (getPaths_places_nodup d L hg)
    obtain ⟨d1, hloop, hpaths, htargets⟩ := rulesLoop_storage_trace env id old
      (env.rangeOrder L) d nst hnd (fun e he => hsome e ((hperm L).subset he))
    refine ⟨d1, ?_, by rw [hpaths, hg], ?_, htargets⟩
    · simp only [rulesStep, hg, hloop]
    · intro k hk
      exact mapGet_rulesLoop env id false old _ (d, nst) (d1, _) k hk hloop

theorem rulesStep_client_trace (env : Env) (hperm : ∀ l, (env.rangeOrder l).Perm l)
    (id : GoString) (old : StateMap) (ns : GoString) (d : Obj) (nst : StateMap)
    (hns : mapGet d (lit "namespaceId") = some (.str ns))
    (hsome : ∀ e ∈ (getPaths d).getD [], (targetAt d e.2).isSome = true) :
    ∃ d1, rulesStep env id true old (d, nst) = some (d1, nst) ∧
      (∀ k, lit "rules" ≠ k → mapGet d1 k = mapGet d k) ∧
      ∀ pl t, targetAt d pl = some t →
        ∃ t2, targetAt d1 pl = some t2 ∧
          (t2 = t ∨ ∃ e ∈ (getPaths d).getD [], e.2 = pl ∧
            clientRewrite old (stateKeyOf env t id e.1.host e.1.path) t t2) := by
  cases hg : getPaths d with
  | none =>
    refine ⟨d, ?_, fun _ _ => rfl, fun pl t h => ⟨t, h, Or.inl rfl⟩⟩
    simp [rulesStep, hg]
  | some L =>
    rw [hg] at hsome
    simp only [Option.getD_some] at hsome ⊢
    have hnd : ((env.rangeOrder L).map Prod.snd).Nodup :=
      (((hperm L).map Prod.snd).nodup_iff).mpr (getPaths_places_nodup d L hg)
    obtain ⟨d1, hloop, hout, hin⟩ := rulesLoop_client_trace env id old ns
      (env.rangeOrder L) d nst hns hnd (fun e he => hsome e ((hperm L).subset he))
    refine ⟨d1, ?_, ?_, ?_⟩
    · simp only [rulesStep, hg, hloop]
    · intro k hk
      exact mapGet_rulesLoop env id true old _ (d, nst) (d1, nst) k hk hloop
    · intro pl t ht
      by_cases hmem : pl ∈ (env.rangeOrder L).map Prod.snd
      · obtain ⟨e, he, hpl⟩ := List.mem_map.mp hmem
        obtain ⟨t2, h2, hrel⟩ := hin e he t (by rw [hpl]; exact ht)
        exact ⟨t2, by rw [← hpl]; exact h2, Or.inr ⟨e, (hperm L).subset he, hpl, hrel⟩⟩
      · exact ⟨t, by rw [hout pl hmem]; exact ht, Or.inl rfl⟩

theorem mapGet_setState_ne (d : Obj) (s : StateMap) (k : GoString)
    (hk : lit "annotations" ≠ k) : mapGet (setState d s) k = mapGet d k := by
  unfold setState
  cases h : mapGet d (lit "annotations") with
  | none => simp [values.PutValue, h, mapGet_mapSet_ne _ _ _ _ hk]
  | some v =>
    cases v with
    | map a => simp [values.PutValue, h, mapGet_mapSet_ne _ _ _ _ hk]
    | null => simp [values.PutValue, h]
    | bool b => simp [values.PutValue, h]
    | int n => simp [values.PutValue, h]
    | str t => simp [values.PutValue, h]
    | list xs => simp [values.PutValue, h]
    | strs xs => simp [values.PutValue, h]

theorem getState_setState (d : Obj) (s : StateMap)
    (hk : ∀ e ∈ s, utf8.ValidString e.1 = true)
    (hn : (s.map Prod.fst).Nodup) (k : GoString) :
    mapGet (getState (setState d s)) k = none ∨
      mapGet (getState (setState d s)) k = (mapGet s k).map json.coerced := by
  by_cases h : mapGet d (lit "annotations") = none ∨
      ∃ a, mapGet d (lit "annotations") = some (.map a)
  · right
    have hg := GetValue_PutValue_pair d (.str (json.Marshal s)) (lit "annotations")
      ingressStateAnnotation h
    unfold getState setState
    rw [hg]
    simp only []
    rw [ToString_str, TrimSpace_Marshal]
    exact mapGet_Unmarshal_Marshal s hk hn k
  · left
    cases hv : mapGet d (lit "annotations") with
    | none => exact absurd (Or.inl hv) h
    | some v =>
      have hnot : ∀ a, v ≠ .map a := by
        intro a ha
        exact h (Or.inr ⟨a, by rw [hv, ha]⟩)
      have hput := mapGet_PutValue_pair_of_not_map d (.str (json.Marshal s)) v (lit "annotations")
        ingressStateAnnotation hv hnot
      have hget : values.GetValue d [lit "annotations", ingressStateAnnotation] = none := by
        cases v with
        | map a => exact absurd rfl (hnot a)
        | null => simp [values.GetValue, hv, mapGet]
        | bool b => simp [values.GetValue, hv, mapGet]
        | int n => simp [values.GetValue, hv, mapGet]
        | str t => simp [values.GetValue, hv, mapGet]
        | list xs => simp [values.GetValue, hv, mapGet]
        | strs xs => simp [values.GetValue, hv, mapGet]
      simp only [getState, setState, hput, hget]
      rfl

/-! ## The two runs of `formatData` -/

theorem codec_frame (env : Env) (henv : env.keepsCodecFields) (d : Obj) (s : StateMap)
    (ff : Bool) (old nst : StateMap) (k : GoString)
    (hk : k ∈ [lit "defaultBackend", lit "rules", lit "namespaceId"]) :
    mapGet (env.SetPublicEnpointsFields (setState (updateCerts d ff old nst).1 s)) k
      = mapGet d k := by
  have hmem : k ∈ [lit "defaultBackend", lit "rules", lit "tls", lit "annotations",
      lit "namespaceId"] := by
    simp only [List.mem_cons, List.mem_singleton, List.mem_nil_iff, or_false] at hk ⊢
    rcases hk with h | h | h
    · exact Or.inl h
    · exact Or.inr (Or.inl h)
    · exact Or.inr (Or.inr (Or.inr (Or.inr h)))
  have hann : lit "annotations" ≠ k := by
    simp only [List.mem_cons, List.mem_singleton, List.mem_nil_iff, or_false] at hk
    rcases hk with h | h | h <;> rw [h] <;> decide
  have htls : lit "tls" ≠ k := by
    simp only [List.mem_cons, List.mem_singleton, List.mem_nil_iff, or_false] at hk
    rcases hk with h | h | h <;> rw [h] <;> decide
  rw [henv _ k hmem, mapGet_setState_ne _ _ _ hann, mapGet_updateCerts _ _ _ _ _ htls]

theorem formatData_storage_trace (env : Env) (henv : env.keepsCodecFields)
    (hperm : ∀ l, (env.rangeOrder l).Perm l) (id : GoString) (data : Obj)
    (hwf : wellFormedTargets data)
    (hvalid : ∀ e ∈ storedState env id data, utf8.ValidString e.1 = true) :
    ∃ d1, formatData env id data false = some d1 ∧
      mapGet d1 (lit "namespaceId") = mapGet data (lit "namespaceId") ∧
      wellFormedDefault d1 ∧
      getPaths d1 = getPaths data ∧
      (∀ t, defaultTarget data = some t →
        ∃ t1, defaultTarget d1 = some t1 ∧ ∀ k, k ≠ lit "serviceId" → mapGet t1 k = mapGet t k) ∧
      (∀ pl t, targetAt data pl = some t →
        ∃ t1, targetAt d1 pl = some t1 ∧ ∀ k, k ≠ lit "serviceId" → mapGet t1 k = mapGet t k) ∧
      ∀ k, mapGet (getState d1) k = none ∨
        mapGet (getState d1) k = (mapGet (storedState env id data) k).map json.coerced := by
  obtain ⟨dA, hA, hAframe, hAwf, hAdef⟩ :=
    defaultStep_storage_trace env id data (getState data) hwf.1
  have hAr : mapGet dA (lit "rules") = mapGet data (lit "rules") := hAframe _ (by decide)
  have hAsome : ∀ e ∈ (getPaths dA).getD [], (targetAt dA e.2).isSome = true := by
    intro e he
    rw [getPaths_congr dA data hAr] at he
    rw [targetAt_congr dA data hAr]
    exact hwf.2 e he
  obtain ⟨dB, hB, hBpaths, hBframe, hBt⟩ := rulesStep_storage_trace env hperm id (getState data)
    dA (writeAll (defaultEntry env id data) []) hAsome
  have hentry : ruleEntry env id dA = ruleEntry env id data := by
    funext e
    simp only [ruleEntry, targetAt_congr dA data hAr]
  have hstate : (updateCerts dB false (getState data)
      (writeAll ((env.rangeOrder ((getPaths dA).getD [])).map (ruleEntry env id dA))
        (writeAll (defaultEntry env id data) []))).2 = storedState env id data := by
    rw [updateCerts_storage_writes, hentry, getPaths_congr dA data hAr,
      certEntries_congr dB data (by rw [hBframe _ (by decide), hAframe _ (by decide)]),
      storedState, writeAll_append, writeAll_append]
  generalize writeAll ((env.rangeOrder ((getPaths dA).getD [])).map (ruleEntry env id dA))
    (writeAll (defaultEntry env id data) []) = nB at hB hstate
  have hfd : formatData env id data false
      = some (env.SetPublicEnpointsFields (setState (updateCerts dB false (getState data) nB).1
          (updateCerts dB false (getState data) nB).2)) := by
    simp only [formatData, hA, hB]
  have hframe : ∀ k, k ∈ [lit "defaultBackend", lit "rules", lit "namespaceId"] →
      mapGet (env.SetPublicEnpointsFields (setState (updateCerts dB false (getState data) nB).1
          (updateCerts dB false (getState data) nB).2)) k = mapGet dB k :=
    fun k hk => codec_frame env henv _ _ _ _ _ k hk
  refine ⟨_, hfd, ?_, ?_, ?_, ?_, ?_, ?_⟩
  · rw [hframe _ (by simp), hBframe _ (by decide), hAframe _ (by decide)]
  · have hd := (hframe (lit "defaultBackend") (by simp)).trans (hBframe _ (by decide))
    unfold wellFormedDefault at hAwf ⊢
    rw [hd, defaultTarget_congr _ dA hd]
    exact hAwf
  · rw [getPaths_congr _ dB (hframe _ (by simp)), hBpaths, getPaths_congr dA data hAr]
  · intro t ht
    obtain ⟨t1, h1, hs1⟩ := hAdef t ht
    refine ⟨t1, ?_, hs1⟩
    rw [defaultTarget_congr _ dA ((hframe _ (by simp)).trans (hBframe _ (by decide)))]
    exact h1
  · intro pl t ht
    obtain ⟨t1, h1, hs1⟩ := hBt pl t (by rw [targetAt_congr dA data hAr]; exact ht)
    refine ⟨t1, ?_, hs1⟩
    rw [targetAt_congr _ dB (hframe _ (by simp))]
    exact h1
  · intro k
    have hg : getState (env.SetPublicEnpointsFields
        (setState (updateCerts dB false (getState data) nB).1
          (updateCerts dB false (getState data) nB).2))
        = getState (setState (updateCerts dB false (getState data) nB).1
            (storedState env id data)) := by
      rw [hstate]
      simp only [getState]
      rw [GetValue_pair_congr _ _ _ _ (henv _ (lit "annotations") (by simp))]
    rw [hg]
    exact getState_setState _ _ hvalid (keys_nodup_writeAll _ [] (by simp)) k

theorem formatData_client_trace (env : Env) (henv : env.keepsCodecFields)
    (hperm : ∀ l, (env.rangeOrder l).Perm l) (id : GoString) (d1 : Obj) (ns : GoString)
    (hns : mapGet d1 (lit "namespaceId") = some (.str ns)) (hwfd : wellFormedDefault d1)
    (hsome : ∀ e ∈ (getPaths d1).getD [], (targetAt d1 e.2).isSome = true) :
    ∃ d2, formatData env id d1 true = some d2 ∧
      (∀ t, defaultTarget d1 = some t →
        ∃ t2, defaultTarget d2 = some t2 ∧
          clientRewrite (getState d1) (stateKeyOf env t id [] (lit "/")) t t2) ∧
      ∀ pl t, targetAt d1 pl = some t →
        ∃ t2, targetAt d2 pl = some t2 ∧
          (t2 = t ∨ ∃ e ∈ (getPaths d1).getD [], e.2 = pl ∧
            clientRewrite (getState d1) (stateKeyOf env t id e.1.host e.1.path) t t2) := by
  obtain ⟨dA, hA, hAframe, hAdef⟩ :=
    defaultStep_client_trace env id d1 (getState d1) [] ns hns hwfd
  have hAr : mapGet dA (lit "rules") = mapGet d1 (lit "rules") := hAframe _ (by decide)
  have hAsome : ∀ e ∈ (getPaths dA).getD [], (targetAt dA e.2).isSome = true := by
    intro e he
    rw [getPaths_congr dA d1 hAr] at he
    rw [targetAt_congr dA d1 hAr]
    exact hsome e he
  obtain ⟨dB, hB, hBframe, hBt⟩ := rulesStep_client_trace env hperm id (getState d1) ns dA []
    (by rw [hAframe _ (by decide)]; exact hns) hAsome
  have hfd : formatData env id d1 true
      = some (env.SetPublicEnpointsFields (setState (updateCerts dB true (getState d1) []).1
          (updateCerts dB true (getState d1) []).2)) := by
    simp only [formatData, hA, hB]
  have hframe : ∀ k, k ∈ [lit "defaultBackend", lit "rules", lit "namespaceId"] →
      mapGet (env.SetPublicEnpointsFields (setState (updateCerts dB true (getState d1) []).1
          (updateCerts dB true (getState d1) []).2)) k = mapGet dB k :=
    fun k hk => codec_frame env henv _ _ _ _ _ k hk
  refine ⟨_, hfd, ?_, ?_⟩
  · intro t ht
    obtain ⟨t2, h2, hrel⟩ := hAdef t ht
    refine ⟨t2, ?_, hrel⟩
    rw [defaultTarget_congr _ dA ((hframe _ (by simp)).trans (hBframe _ (by decide)))]
    exact h2
  · intro pl t ht
    obtain ⟨t2, h2, hrel⟩ := hBt pl t (by rw [targetAt_congr dA d1 hAr]; exact ht)
    refine ⟨t2, ?_, ?_⟩
    · rw [targetAt_congr _ dB (hframe _ (by simp))]
      exact h2
    · rw [getPaths_congr dA d1 hAr] at hrel
      exact hrel

theorem certWrites_key_plain (certs : List Value) :
    ∀ e ∈ certWrites certs, plainText e.1 = true := by
  induction certs with
  | nil => simp [certWrites]
  | cons v r ih =>
    cases v with
    | map cert =>
      unfold certWrites
      split
      · intro e he
        rcases List.mem_cons.mp he with h | h
        · rw [h]
          exact plainText_EncodeToString _
        · exact ih e h
      · exact ih
    | null => simpa only [certWrites] using ih
    | bool b => simpa only [certWrites] using ih
    | int n => simpa only [certWrites] using ih
    | str s => simpa only [certWrites] using ih
    | list xs => simpa only [certWrites] using ih
    | strs xs => simpa only [certWrites] using ih

theorem certEntries_key_plain (data : Obj) : ∀ e ∈ certEntries data, plainText e.1 = true := by
  unfold certEntries
  split
  · exact certWrites_key_plain _
  · simp

theorem storedState_keys_valid (env : Env)
    (hkey : ∀ a b c d e, utf8.ValidString (env.GetStateKey a b c d e) = true)
    (id : GoString) (data : Obj) :
    ∀ e ∈ storedState env id data, utf8.ValidString e.1 = true := by
  intro e he
  have hk : e.1 ∈ (storedState env id data).map Prod.fst := List.mem_map.mpr ⟨e, he, rfl⟩
  unfold storedState at hk
  rcases mem_keys_writeAll _ _ _ hk with h | h
  · obtain ⟨x, hx, hxe⟩ := List.mem_map.mp h
    rw [← hxe]
    rcases List.mem_append.mp hx with h1 | h1
    · rcases List.mem_append.mp h1 with h2 | h2
      · unfold defaultEntry at h2
        split at h2
        · simp only [List.mem_singleton] at h2
          rw [h2]
          exact hkey _ _ _ _ _
        · simp at h2
      · obtain ⟨e0, _, rfl⟩ := List.mem_map.mp h2
        exact hkey _ _ _ _ _
    · exact ValidString_of_plainText _ (certEntries_key_plain data x h1)
  · simp at h

theorem storedState_lookup (env : Env) (hperm : ∀ l, (env.rangeOrder l).Perm l)
    (id : GoString) (data : Obj) (hkeys : (targetKeys env id data).Nodup)
    (hcert : ∀ k ∈ targetKeys env id data, k ∉ (certEntries data).map Prod.fst)
    (e : GoString × GoString)
    (he : e ∈ defaultEntry env id data ++ ((getPaths data).getD []).map (ruleEntry env id data)) :
    mapGet (storedState env id data) e.1 = some e.2 := by
  have hp : (defaultEntry env id data ++
      (env.rangeOrder ((getPaths data).getD [])).map (ruleEntry env id data)).Perm
      (defaultEntry env id data ++ ((getPaths data).getD []).map (ruleEntry env id data)) :=
    List.Perm.append_left _ ((hperm _).map _)
  have hk : e.1 ∈ targetKeys env id data := List.mem_map.mpr ⟨e, he, rfl⟩
  rw [storedState, writeAll_append, mapGet_writeAll_of_not_mem _ _ _ (hcert e.1 hk)]
  exact mapGet_writeAll_of_mem _ _ _ _ ((hp.map Prod.fst).nodup_iff.mpr hkeys) (hp.symm.subset he)

theorem Join_nil_of_eq (ws : List GoString) (h : ws = []) : strings.Join ws slash = [] := by
  rw [h]
  rfl

theorem workloadIDsOf_of_holds (t : Obj) (ws : List GoString)
    (h : holdsStrings (mapGet t (lit "workloadIds")) ws)
    (htrim : ∀ w ∈ ws, strings.TrimSpace w = w) : workloadIDsOf t = ws := by
  unfold workloadIDsOf
  rcases h with h | h
  · rw [h]
    rfl
  · rw [h]
    simp only [Option.getD_some, convert.ToStringSlice, List.map_map]
    have hid : ∀ l : List GoString, (∀ w ∈ l, strings.TrimSpace w = w) →
        l.map (convert.ToString ∘ Value.str) = l := by
      intro l
      induction l with
      | nil => intro _; rfl
      | cons a r ih =>
        intro hl
        simp only [List.map, Function.comp, ToString_str, hl a (List.mem_cons_self _ _)]
        rw [ih fun w hw => hl w (List.mem_cons_of_mem _ hw)]
    exact hid ws htrim

theorem Join_of_holds (t : Obj) (ws : List GoString) (v : Option GoString)
    (h : v = some (strings.Join (workloadIDsOf t) slash))
    (hholds : holdsStrings (mapGet t (lit "workloadIds")) ws)
    (htrim : ∀ w ∈ ws, strings.TrimSpace w = w) : v = some (strings.Join ws slash) := by
  rw [h, workloadIDsOf_of_holds t ws hholds htrim]

theorem workloads_restored (t t1 t2 : Obj) (old : StateMap) (key : GoString)
    (ws : List GoString)
    (hsame : ∀ k, k ≠ lit "serviceId" → mapGet t1 k = mapGet t k)
    (hrel : clientRewrite old key t1 t2)
    (hholds : holdsStrings (mapGet t (lit "workloadIds")) ws)
    (hlook : mapGet old key = none ∨ mapGet old key = some (strings.Join ws slash))
    (hfree : ∀ w ∈ ws, slash ∉ w) : holdsStrings (mapGet t2 (lit "workloadIds")) ws := by
  have h1 : mapGet t1 (lit "workloadIds") = mapGet t (lit "workloadIds") :=
    hsame _ (by decide)
  rcases hlook with h | h
  · rw [hrel.1 (Or.inl h), h1]
    exact hholds
  · by_cases hj : strings.Join ws slash = []
    · rw [hrel.1 (Or.inr (by rw [h, hj])), h1]
      exact hholds
    · rw [hrel.2 _ h hj, Split_Join _ _ (fun hnil => hj (Join_nil_of_eq _ hnil)) hfree]
      exact Or.inl rfl

/-- C1, amended: on a resource representation whose rewritten targets are maps, whose
`namespaceId` is a string, and whose targets have pairwise distinct StateKeys that
are also distinct from the keys of its certificates, `formatData` toward storage and
then `formatData` toward the client both complete, and every target, the default
backend and each target of each rule, whose `workloadIds` is a list of strings that
hold no `/`, have no white space at either end and are well-formed UTF-8, has after
the two calls a `workloadIds` that is the same list of strings.
(`SetPublicEnpointsFields` leaves the codec's fields alone, `range` visits every entry
once, and the StateKeys are well-formed UTF-8.) -/
theorem C1_workload_round_trip (env : Env) (henv : env.keepsCodecFields)
    (hperm : ∀ l, (env.rangeOrder l).Perm l)
    (hkey : ∀ a b c d e, utf8.ValidString (env.GetStateKey a b c d e) = true)
    (id : GoString) (data : Obj) (ns : GoString)
    (hns : mapGet data (lit "namespaceId") = some (.str ns))
    (hwf : wellFormedTargets data)
    (hkeys : (targetKeys env id data).Nodup)
    (hcert : ∀ k ∈ targetKeys env id data, k ∉ (certEntries data).map Prod.fst) :
    ∃ d1 d2, formatData env id data false = some d1 ∧ formatData env id d1 true = some d2 ∧
      (∀ t, defaultTarget data = some t →
        ∃ t2, defaultTarget d2 = some t2 ∧
          ∀ ws, holdsStrings (mapGet t (lit "workloadIds")) ws →
            (∀ w ∈ ws, slash ∉ w ∧ strings.TrimSpace w = w ∧ utf8.ValidString w = true) →
            holdsStrings (mapGet t2 (lit "workloadIds")) ws) ∧
      ∀ pl t, targetAt data pl = some t →
        ∃ t2, targetAt d2 pl = some t2 ∧
          ∀ ws, holdsStrings (mapGet t (lit "workloadIds")) ws →
            (∀ w ∈ ws, slash ∉ w ∧ strings.TrimSpace w = w ∧ utf8.ValidString w = true) →
            holdsStrings (mapGet t2 (lit "workloadIds")) ws := by
  have hvalid := storedState_keys_valid env hkey id data
  obtain ⟨d1, hd1, h1ns, h1wf, h1paths, h1def, h1tgt, h1state⟩ :=
    formatData_storage_trace env henv hperm id data hwf hvalid
  have h1some : ∀ e ∈ (getPaths d1).getD [], (targetAt d1 e.2).isSome = true := by
    intro e he
    rw [h1paths] at he
    obtain ⟨t, ht⟩ := Option.isSome_iff_exists.mp (hwf.2 e he)
    obtain ⟨t1, ht1, _⟩ := h1tgt e.2 t ht
    rw [ht1]
    rfl
  obtain ⟨d2, hd2, h2def, h2tgt⟩ := formatData_client_trace env henv hperm id d1 ns
    (by rw [h1ns]; exact hns) h1wf h1some
  have hread : ∀ (key : GoString) (ws : List GoString),
      mapGet (storedState env id data) key = some (strings.Join ws slash) →
      (∀ w ∈ ws, utf8.ValidString w = true) →
      mapGet (getState d1) key = none ∨
        mapGet (getState d1) key = some (strings.Join ws slash) := by
    intro key ws hlook hv
    rcases h1state key with h | h
    · exact Or.inl h
    · right
      rw [h, hlook, Option.map_some', coerced_of_valid _ (ValidString_Join ws hv)]
  refine ⟨d1, d2, hd1, hd2, ?_, ?_⟩
  · intro t ht
    obtain ⟨t1, ht1, hsame⟩ := h1def t ht
    obtain ⟨t2, ht2, hrel⟩ := h2def t1 ht1
    refine ⟨t2, ht2, ?_⟩
    intro ws hholds hcond
    rw [stateKeyOf_congr env t t1 id [] (lit "/") hsame] at hrel
    have hmem : (stateKeyOf env t id [] (lit "/"), strings.Join (workloadIDsOf t) slash)
        ∈ defaultEntry env id data ++ ((getPaths data).getD []).map (ruleEntry env id data) := by
      simp [defaultEntry, ht]
    have hlook := storedState_lookup env hperm id data hkeys hcert _ hmem
    rw [workloadIDsOf_of_holds t ws hholds fun w hw => (hcond w hw).2.1] at hlook
    exact workloads_restored t t1 t2 _ _ ws hsame hrel hholds
      (hread _ ws hlook fun w hw => (hcond w hw).2.2) fun w hw => (hcond w hw).1
  · intro pl t ht
    obtain ⟨t1, ht1, hsame⟩ := h1tgt pl t ht
    obtain ⟨t2, ht2, hcase⟩ := h2tgt pl t1 ht1
    refine ⟨t2, ht2, ?_⟩
    intro ws hholds hcond
    rcases hcase with h | ⟨e, he, hpl, hrel⟩
    · rw [h, hsame _ (by decide)]
      exact hholds
    · rw [h1paths] at he
      rw [stateKeyOf_congr env t t1 id e.1.host e.1.path hsame] at hrel
      have hte : (targetAt data e.2).getD [] = t := by rw [hpl, ht]; rfl
      have hmem : ruleEntry env id data e
          ∈ defaultEntry env id data ++ ((getPaths data).getD []).map (ruleEntry env id data) :=
        List.mem_append_right _ (List.mem_map.mpr ⟨e, he, rfl⟩)
      have hlook := storedState_lookup env hperm id data hkeys hcert _ hmem
      simp only [ruleEntry, hte] at hlook
      rw [workloadIDsOf_of_holds t ws hholds fun w hw => (hcond w hw).2.1] at hlook
      exact workloads_restored t t1 t2 _ _ ws hsame hrel hholds
        (hread _ ws hlook fun w hw => (hcond w hw).2.2) fun w hw => (hcond w hw).1

set_option maxRecDepth 100000 in
/-- C1, amended, at an instance: `exampleIngress`, whose default backend is bound to
the workload `deployment:ns1:web` and whose rule is bound to two workloads. -/
theorem C1_workload_round_trip_witness :
    ∃ d1 d2, formatData specEnv (lit "ns1:ing") exampleIngress false = some d1 ∧
      formatData specEnv (lit "ns1:ing") d1 true = some d2 ∧
      (∃ t2, defaultTarget d2 = some t2 ∧
        holdsStrings (mapGet t2 (lit "workloadIds")) [lit "deployment:ns1:web"]) ∧
      ∃ t2, targetAt d2 { rule := 0, path := lit "/x" } = some t2 ∧
        holdsStrings (mapGet t2 (lit "workloadIds"))
          [lit "deployment:ns1:api", lit "deployment:ns1:jobs"] := by
  obtain ⟨d1, d2, h1, h2, hdef, htgt⟩ := C1_workload_round_trip specEnv specEnv_keepsCodecFields
    (fun l => List.Perm.refl l)
    (fun _ _ _ _ _ => ValidString_of_plainText _ (plainText_EncodeToString _)) (lit "ns1:ing")
    exampleIngress (lit "ns1") rfl ⟨Or.inr (Or.inr rfl), by decide⟩ (by decide) (by decide)
  obtain ⟨t2, ht2, hk2⟩ := hdef _ rfl
  obtain ⟨t3, ht3, hk3⟩ := htgt { rule := 0, path := lit "/x" } _ rfl
  exact ⟨d1, d2, h1, h2, ⟨t2, ht2, hk2 _ (Or.inr rfl) (by decide)⟩,
    ⟨t3, ht3, hk3 _ (Or.inr rfl) (by decide)⟩⟩

set_option maxRecDepth 100000 in
/-- C1 as stated fails.  In `collidingIngress` the default backend and the rule
without host at `/` get the same StateKey, whatever `GetStateKey` is, as they give it
the same arguments; the rule's entry replaces the default backend's, and after the two
runs the default backend is bound to `b`, not to `a`.  In `awkwardIngress` the
workload ` a `, with a space at either end, comes back as `a`; the workload made of
the byte `0xFF`, which is not UTF-8, comes back as `U+FFFD`; and the workload `w` of
the third rule, whose StateKey is also the key of the certificate, comes back as the
pieces of the certificate's identifier.  A resource without `namespaceId` that has a
target without workloads, and a resource whose default backend is not a map, make
`formatData` panic. -/
theorem C1_counterexample :
    (defaultTarget collidingIngress).map workloadIDsOf = some [lit "a"] ∧
    (roundTrip specEnv (lit "ns1:ing") collidingIngress).map
      (fun d2 => (defaultTarget d2).map workloadIDsOf) = some (some [lit "b"]) ∧
    [rawIdsAt awkwardIngress { rule := 0, path := lit "/p" },
      rawIdsAt awkwardIngress { rule := 1, path := lit "/q" },
      rawIdsAt awkwardIngress { rule := 2, path := lit "/d" }]
      = [some [lit " a "], some [[0xFF]], some [lit "w"]] ∧
    (roundTrip specEnv (lit "ns1:ing") awkwardIngress).map
      (fun d2 => [rawIdsAt d2 { rule := 0, path := lit "/p" },
        rawIdsAt d2 { rule := 1, path := lit "/q" },
        rawIdsAt d2 { rule := 2, path := lit "/d" }])
      = some [some [lit "a"], some [[0xEF, 0xBF, 0xBD]],
          some [lit "x:ing", lit "ns1", lit "d.com", [], lit "d", lit "80"]] ∧
    (roundTrip specEnv (lit "ns1:ing")
      [(lit "defaultBackend", .map [(lit "targetPort", .int 80),
          (lit "workloadIds", .list [.str (lit "a")])]),
        (lit "rules", .list [.map [(lit "paths",
          .map [(lit "/x", .map [(lit "targetPort", .int 81)])])]])]).isNone = true ∧
    (roundTrip specEnv (lit "ns1:ing") [(lit "defaultBackend", .str (lit "web"))]).isNone
      = true := by
  decide

/-! ## `updateRule` toward the client, one target -/

/-- C13: a target whose StateKey maps in the old State Map to a value `v` that is not
empty: `updateRule` toward the client completes, sets `workloadIds` to the `[]string`
of the pieces of `v` between its `/`, removes `serviceId`, leaves every other field of the target and
the new State Map as they were; the old State Map is an argument that is only read. -/
theorem C13_client_workload_backed (env : Env) (target : Obj) (id host path : GoString)
    (data : Obj) (oldState newState : StateMap) (v : GoString)
    (hv : mapGet oldState (stateKeyOf env target id host path) = some v) (hne : v ≠ []) :
    ∃ t2, updateRule env (some target) id host path true data oldState newState
        = some (t2, newState) ∧
      mapGet t2 (lit "workloadIds") = some (.strs (strings.Split v slash)) ∧
      mapGet t2 (lit "serviceId") = none ∧
      ∀ k, k ≠ lit "workloadIds" → k ≠ lit "serviceId" → mapGet t2 k = mapGet target k := by
  have hemp : convert.IsEmpty (.str v) = false := by
    cases v with
    | nil => exact absurd rfl hne
    | cons b r => rfl
  refine ⟨mapDelete (mapSet target (lit "workloadIds") (.strs (strings.Split v slash)))
      (lit "serviceId"), ?_, ?_, ?_, ?_⟩
  · simp [updateRule, hv, hemp]
  · rw [mapGet_mapDelete_ne _ _ _ (by decide), mapGet_mapSet_same]
  · exact mapGet_mapDelete_same _ _
  · intro k h1 h2
    rw [mapGet_mapDelete_ne _ _ _ (Ne.symm h2), mapGet_mapSet_ne _ _ _ _ (Ne.symm h1)]

/-- C13, at an instance: the stored value `deployment:ns1:web/deployment:ns1:api` for
the rule `a.com`, `/x`, port 80 of the resource `ns1:ing`. -/
theorem C13_client_workload_backed_witness :
    ∃ t2, updateRule specEnv
        (some [(lit "targetPort", .int 80), (lit "serviceId", .str (lit "ingress-1"))])
        (lit "ns1:ing") (lit "a.com") (lit "/x") true []
        [(stateKeyOf specEnv [(lit "targetPort", .int 80), (lit "serviceId", .str (lit "ingress-1"))]
            (lit "ns1:ing") (lit "a.com") (lit "/x"),
          lit "deployment:ns1:web/deployment:ns1:api")] [] = some (t2, []) ∧
      mapGet t2 (lit "workloadIds")
        = some (.strs (strings.Split (lit "deployment:ns1:web/deployment:ns1:api") slash)) ∧
      mapGet t2 (lit "serviceId") = none ∧
      ∀ k, k ≠ lit "workloadIds" → k ≠ lit "serviceId" →
        mapGet t2 k
          = mapGet [(lit "targetPort", .int 80), (lit "serviceId", .str (lit "ingress-1"))] k :=
  C13_client_workload_backed specEnv _ (lit "ns1:ing") (lit "a.com") (lit "/x") [] _ []
    (lit "deployment:ns1:web/deployment:ns1:api") (by decide) (by decide)

/-- C14: a target whose StateKey is absent from the old State Map or maps to the
empty string, on a resource whose `namespaceId` is the string `ns`: `updateRule`
toward the client completes, sets `serviceId` to `ns`, `:` and the service identifier
the target had (the empty string when it had none, or one that is not a string), and
leaves `workloadIds`, like every other field, as it was. -/
theorem C14_client_service_backed (env : Env) (target : Obj) (id host path : GoString)
    (data : Obj) (oldState newState : StateMap) (ns : GoString)
    (hns : mapGet data (lit "namespaceId") = some (.str ns))
    (hkey : mapGet oldState (stateKeyOf env target id host path) = none ∨
      mapGet oldState (stateKeyOf env target id host path) = some []) :
    ∃ t2, updateRule env (some target) id host path true data oldState newState
        = some (t2, newState) ∧
      mapGet t2 (lit "serviceId")
        = some (.str (ns ++ colon :: asString (mapGet target (lit "serviceId")))) ∧
      mapGet t2 (lit "workloadIds") = mapGet target (lit "workloadIds") ∧
      ∀ k, k ≠ lit "serviceId" → mapGet t2 k = mapGet target k :=
  ⟨_, updateRule_client_service env target id host path data oldState newState ns hns hkey,
    mapGet_mapSet_same _ _ _, mapGet_mapSet_ne _ _ _ _ (by decide),
    fun _ hk => mapGet_mapSet_ne _ _ _ _ (Ne.symm hk)⟩

/-- C14, at an instance: the service `web` in the namespace `ns1`, no stored state. -/
theorem C14_client_service_backed_witness :
    ∃ t2, updateRule specEnv
        (some [(lit "targetPort", .int 80), (lit "serviceId", .str (lit "web"))])
        (lit "ns1:ing") (lit "a.com") (lit "/x") true [(lit "namespaceId", .str (lit "ns1"))]
        [] [] = some (t2, []) ∧
      mapGet t2 (lit "serviceId")
        = some (.str (lit "ns1" ++ colon :: asString
            (mapGet [(lit "targetPort", Value.int 80), (lit "serviceId", .str (lit "web"))]
              (lit "serviceId")))) ∧
      mapGet t2 (lit "workloadIds")
        = mapGet [(lit "targetPort", Value.int 80), (lit "serviceId", .str (lit "web"))]
            (lit "workloadIds") ∧
      ∀ k, k ≠ lit "serviceId" →
        mapGet t2 k
          = mapGet [(lit "targetPort", Value.int 80), (lit "serviceId", .str (lit "web"))] k :=
  C14_client_service_backed specEnv _ (lit "ns1:ing") (lit "a.com") (lit "/x")
    [(lit "namespaceId", .str (lit "ns1"))] [] [] (lit "ns1") rfl (Or.inl rfl)

/-! ## `updateRule` toward storage, one target -/

/-- C15, amended: toward storage `updateRule` sets `serviceId` to the second piece of
the service identifier split on `:`.  So an identifier without `:` (and not empty)
stays as it is; an identifier with exactly one `:` becomes the whole remainder after
it; and an identifier with two or more `:` becomes the text between its first and
its second `:`, the rest being dropped. -/
theorem C15_qualifier_stripping (env : Env) (target : Obj) (id host path : GoString)
    (data : Obj) (oldState newState : StateMap) (s : GoString)
    (hs : asString (mapGet target (lit "serviceId")) = s) :
    ∃ t1 n1, updateRule env (some target) id host path false data oldState newState
        = some (t1, n1) ∧
      (s ≠ [] → colon ∉ s → mapGet t1 (lit "serviceId") = some (.str s)) ∧
      (∀ a b, s = a ++ colon :: b → colon ∉ a → colon ∉ b →
        mapGet t1 (lit "serviceId") = some (.str b)) ∧
      (∀ a b c, s = a ++ colon :: (b ++ colon :: c) → colon ∉ a → colon ∉ b →
        mapGet t1 (lit "serviceId") = some (.str b)) := by
  refine ⟨_, _, updateRule_storage env target id host path data oldState newState, ?_, ?_, ?_⟩
  · intro hne hc
    rw [mapGet_mapSet_same, hs, if_pos hne, Split_of_not_mem _ _ hc]
    simp
  · intro a b hab ha hb
    have hne : s ≠ [] := by
      rw [hab]
      simp
    rw [mapGet_mapSet_same, hs, if_pos hne, hab, Split_append_sep _ _ _ ha,
      Split_of_not_mem _ _ hb]
    simp
  · intro a b c habc ha hb
    have hne : s ≠ [] := by
      rw [habc]
      simp
    rw [mapGet_mapSet_same, hs, if_pos hne, habc, Split_append_sep _ _ _ ha,
      Split_append_sep _ _ _ hb]
    have hlen : (a :: b :: strings.Split c colon).length > 1 := by simp
    rw [if_pos hlen]
    rfl

/-- C15, amended, at instances: `web` stays `web`, `ns1:web` becomes `web`, and
`ns1:web:old` becomes `web`. -/
theorem C15_qualifier_stripping_witness :
    (∃ t1 n1, updateRule specEnv (some [(lit "serviceId", .str (lit "web"))]) (lit "ns1:ing")
        (lit "a.com") (lit "/x") false [] [] [] = some (t1, n1) ∧
      mapGet t1 (lit "serviceId") = some (.str (lit "web"))) ∧
    (∃ t1 n1, updateRule specEnv (some [(lit "serviceId", .str (lit "ns1:web"))])
        (lit "ns1:ing") (lit "a.com") (lit "/x") false [] [] [] = some (t1, n1) ∧
      mapGet t1 (lit "serviceId") = some (.str (lit "web"))) ∧
    ∃ t1 n1, updateRule specEnv (some [(lit "serviceId", .str (lit "ns1:web:old"))])
        (lit "ns1:ing") (lit "a.com") (lit "/x") false [] [] [] = some (t1, n1) ∧
      mapGet t1 (lit "serviceId") = some (.str (lit "web")) := by
  refine ⟨?_, ?_, ?_⟩
  · obtain ⟨t1, n1, h, h1, _, _⟩ := C15_qualifier_stripping specEnv
      [(lit "serviceId", .str (lit "web"))] (lit "ns1:ing") (lit "a.com") (lit "/x") [] [] []
      (lit "web") rfl
    exact ⟨t1, n1, h, h1 (by decide) (by decide)⟩
  · obtain ⟨t1, n1, h, _, h2, _⟩ := C15_qualifier_stripping specEnv
      [(lit "serviceId", .str (lit "ns1:web"))] (lit "ns1:ing") (lit "a.com") (lit "/x") [] [] []
      (lit "ns1:web") rfl
    exact ⟨t1, n1, h, h2 (lit "ns1") (lit "web") (by decide) (by decide) (by decide)⟩
  · obtain ⟨t1, n1, h, _, _, h3⟩ := C15_qualifier_stripping specEnv
      [(lit "serviceId", .str (lit "ns1:web:old"))] (lit "ns1:ing") (lit "a.com") (lit "/x") []
      [] [] (lit "ns1:web:old") rfl
    exact ⟨t1, n1, h, h3 (lit "ns1") (lit "web") (lit "old") (by decide) (by decide)
      (by decide)⟩

/-- C15 as stated fails: the service identifier `ns1:web:old` holds a `:`; the whole
remainder after its first `:` is `web:old`, and `updateRule` toward storage sets
`serviceId` to `web`. -/
theorem C15_counterexample :
    (updateRule specEnv (some [(lit "serviceId", .str (lit "ns1:web:old"))]) (lit "ns1:ing")
        (lit "a.com") (lit "/x") false [] [] []).map
      (fun r => asString (mapGet r.1 (lit "serviceId"))) = some (lit "web") ∧
    lit "web" ≠ lit "web:old" := by
  decide

/-- C16, amended: for every target, `updateRule` toward storage completes and sets
the entry of the new State Map under the target's StateKey to the target's workload
identifiers joined by `/`, the identifiers being the `workloadIds` as
`convert.ToStringSlice` reads them: a `[]string` as it is, a `[]interface{}` element by
element as text with the white space at either end trimmed, so the `workloadIds`
themselves when they are a list of strings with no white space at either end.  When
`workloadIds` is absent or an empty list the entry is there with the empty string;
every other key of the new State Map reads as before. -/
theorem C16_storage_records_slot (env : Env) (target : Obj) (id host path : GoString)
    (data : Obj) (oldState newState : StateMap) :
    ∃ t1 n1, updateRule env (some target) id host path false data oldState newState
        = some (t1, n1) ∧
      mapGet n1 (stateKeyOf env target id host path)
        = some (strings.Join
            (convert.ToStringSlice ((mapGet target (lit "workloadIds")).getD .null)) slash) ∧
      (∀ ws, holdsStrings (mapGet target (lit "workloadIds")) ws →
        (∀ w ∈ ws, strings.TrimSpace w = w) →
        mapGet n1 (stateKeyOf env target id host path) = some (strings.Join ws slash)) ∧
      ((mapGet target (lit "workloadIds") = none ∨
          mapGet target (lit "workloadIds") = some (.list [])) →
        mapGet n1 (stateKeyOf env target id host path) = some []) ∧
      ∀ k, k ≠ stateKeyOf env target id host path → mapGet n1 k = mapGet newState k := by
  refine ⟨_, _, updateRule_storage env target id host path data oldState newState,
    mapGet_mapSet_same _ _ _, ?_, ?_, fun k hk => mapGet_mapSet_ne _ _ _ _ (Ne.symm hk)⟩
  · intro ws hholds htrim
    exact Join_of_holds target ws _ (mapGet_mapSet_same _ _ _) hholds htrim
  · intro h
    rw [mapGet_mapSet_same]
    rcases h with h | h <;> rw [h] <;> rfl

/-- C16, amended, at an instance: a target without `workloadIds` on port 80; the new
State Map already holds the entry `k`. -/
theorem C16_storage_records_slot_witness :
    ∃ t1 n1, updateRule specEnv (some [(lit "targetPort", .int 80)]) (lit "ns1:ing")
        (lit "a.com") (lit "/x") false [] [] [(lit "k", lit "v")] = some (t1, n1) ∧
      mapGet n1 (stateKeyOf specEnv [(lit "targetPort", .int 80)] (lit "ns1:ing") (lit "a.com")
        (lit "/x")) = some [] ∧
      mapGet n1 (lit "k") = some (lit "v") := by
  obtain ⟨t1, n1, h, _, _, h2, h3⟩ := C16_storage_records_slot specEnv
    [(lit "targetPort", .int 80)] (lit "ns1:ing") (lit "a.com") (lit "/x") [] []
    [(lit "k", lit "v")]
  exact ⟨t1, n1, h, h2 (Or.inl rfl), (h3 (lit "k") (by decide)).trans rfl⟩

/-- C16 as stated fails: the `workloadIds` of the target are the one string ` a `,
with a space at either end, which joined with `/` is ` a `; `updateRule` toward
storage records `a`. -/
theorem C16_counterexample :
    rawStrings (.list [.str (lit " a ")]) = [lit " a "] ∧
    strings.Join [lit " a "] slash = lit " a " ∧
    (updateRule specEnv (some [(lit "workloadIds", .list [.str (lit " a ")])]) (lit "ns1:ing")
        (lit "a.com") (lit "/x") false [] [] []).map (fun r => r.2.map Prod.snd)
      = some [lit "a"] ∧
    lit "a" ≠ lit " a " := by
  decide

/-! ## `updateCerts` toward the client -/

/-- C19, amended: for every certificate record of `data["tls"]`, `updateCerts` toward
the client puts in its place the record with `certificateId` set to the value of the
old State Map under `getCertKey` of the text of its current `certificateId`, and to
the empty string when that key is absent; the new State Map is not touched.  The text
is that of `convert.ToString`, which trims the white space at either end: it is the
`certificateId` itself when this is a string with no white space at either end. -/
theorem C19_client_certificate_lookup (data : Obj) (before after : List Value) (cert : Obj)
    (oldState newState : StateMap)
    (htls : mapGet data (lit "tls") = some (.list (before ++ .map cert :: after))) :
    ∃ before1 after1,
      (updateCerts data true oldState newState).1
        = mapSet data (lit "tls") (.list (before1 ++
            .map (mapSet cert (lit "certificateId")
              (.str ((mapGet oldState (getCertKey (certificateIdOf cert))).getD []))) :: after1)) ∧
      before1.length = before.length ∧
      (updateCerts data true oldState newState).2 = newState ∧
      (mapGet oldState (getCertKey (certificateIdOf cert)) = none →
        mapGet (mapSet cert (lit "certificateId")
          (.str ((mapGet oldState (getCertKey (certificateIdOf cert))).getD [])))
          (lit "certificateId") = some (.str [])) ∧
      ∀ s, mapGet cert (lit "certificateId") = some (.str s) → strings.TrimSpace s = s →
        certificateIdOf cert = s := by
  refine ⟨(certsLoop true oldState before newState).1,
    (certsLoop true oldState after (certsLoop true oldState before newState).2).1, ?_,
    certsLoop_length _ _ _ _, updateCerts_client_newState _ _ _, ?_, ?_⟩
  · simp [updateCerts, GetValue_single, htls, certsLoop_append, certsLoop, updateCert_client]
  · intro h
    rw [mapGet_mapSet_same, h]
    rfl
  · intro s hs ht
    simp only [certificateIdOf, hs, Option.getD_some, ToString_str, ht]

/-- C19, amended, at an instance: the record `certA`, which the run toward storage
skipped as malformed and for which the old State Map has no entry, after a record
that has one. -/
theorem C19_client_certificate_lookup_witness :
    certificateIds (updateCerts storedCerts true [(getCertKey (lit "a"), lit "ns1:a")] []).1
      = [lit "ns1:a", []] ∧
    ∃ before1 after1,
      (updateCerts storedCerts true [(getCertKey (lit "a"), lit "ns1:a")] []).1
        = mapSet storedCerts (lit "tls")
            (.list (before1 ++
              .map (mapSet [(lit "certificateId", .str (lit "certA"))] (lit "certificateId")
                (.str ((mapGet [(getCertKey (lit "a"), lit "ns1:a")]
                  (getCertKey (certificateIdOf [(lit "certificateId", .str (lit "certA"))]))).getD
                    []))) :: after1)) ∧
      before1.length = [Value.map [(lit "certificateId", .str (lit "a"))]].length :=
  ⟨by decide,
    (C19_client_certificate_lookup storedCerts [.map [(lit "certificateId", .str (lit "a"))]] []
      [(lit "certificateId", .str (lit "certA"))] [(getCertKey (lit "a"), lit "ns1:a")] []
      rfl).imp fun _ h => h.imp fun _ h2 => ⟨h2.1, h2.2.1⟩⟩

/-- C19 as stated fails: the `certificateId` of the record is ` a `, with a space at
either end, and the old State Map has an entry under `getCertKey` of that string;
`updateCerts` toward the client looks under `getCertKey` of `a`, finds nothing, and
sets the `certificateId` to the empty string. -/
theorem C19_counterexample :
    certificateIdStrings (tlsOf [lit " a "]) = [lit " a "] ∧
    mapGet [(getCertKey (lit " a "), lit "ns1:a")] (getCertKey (lit " a "))
      = some (lit "ns1:a") ∧
    certificateIdStrings
        (updateCerts (tlsOf [lit " a "]) true [(getCertKey (lit " a "), lit "ns1:a")] []).1
      = [[]] := by
  decide

theorem updateRule_client_some_of_value (env : Env) (target : Obj) (id host path : GoString)
    (data : Obj) (oldState newState : StateMap) (v : GoString)
    (hv : mapGet oldState (stateKeyOf env target id host path) = some v) (hne : v ≠ []) :
    ∃ t2, updateRule env (some target) id host path true data oldState newState
        = some (t2, newState) ∧
      mapGet t2 (lit "serviceId") = none ∧ workloadIDsOf t2 = strings.Split v slash := by
  have hemp : convert.IsEmpty (.str v) = false := by
    cases v with
    | nil => exact absurd rfl hne
    | cons b r => rfl
  refine ⟨mapDelete (mapSet target (lit "workloadIds") (.strs (strings.Split v slash)))
      (lit "serviceId"), ?_, mapGet_mapDelete_same _ _, ?_⟩
  · simp [updateRule, hv, hemp]
  · simp only [workloadIDsOf, mapGet_mapDelete_ne _ (lit "serviceId") (lit "workloadIds")
      (by decide), mapGet_mapSet_same, Option.getD_some, convert.ToStringSlice]

/-! ## The two delimiters -/

/-- C12, amended: the codec has two delimiters, and they differ.  `updateRule`
qualifies a service identifier with `:` toward the client and strips the qualifier at
`:` toward storage, and `updateCerts` splits a certificate identifier on `:`; the
workload identifiers are joined with `/` toward storage and split on `/` toward the
client. -/
theorem C12_two_delimiters (env : Env) (target : Obj) (id host path : GoString) (data : Obj)
    (oldState newState : StateMap) :
    colon ≠ slash ∧
    (∃ t1, updateRule env (some target) id host path false data oldState newState
        = some (t1, mapSet newState (stateKeyOf env target id host path)
            (strings.Join (workloadIDsOf target) slash)) ∧
      ∀ a b, asString (mapGet target (lit "serviceId")) = a ++ colon :: b → colon ∉ a →
        colon ∉ b → mapGet t1 (lit "serviceId") = some (.str b)) ∧
    (∀ v, mapGet oldState (stateKeyOf env target id host path) = some v → v ≠ [] →
      ∃ t2, updateRule env (some target) id host path true data oldState newState
          = some (t2, newState) ∧
        workloadIDsOf t2 = strings.Split v slash) ∧
    (∀ ns, mapGet data (lit "namespaceId") = some (.str ns) →
      (mapGet oldState (stateKeyOf env target id host path) = none ∨
        mapGet oldState (stateKeyOf env target id host path) = some []) →
      ∃ t2, updateRule env (some target) id host path true data oldState newState
          = some (t2, newState) ∧
        mapGet t2 (lit "serviceId")
          = some (.str (ns ++ colon :: asString (mapGet target (lit "serviceId"))))) ∧
    ∀ (cert : Obj) (p : GoString × GoString),
      certificateIdOf cert = p.1 ++ colon :: p.2 → colon ∉ p.1 → colon ∉ p.2 →
        updateCert false oldState cert newState
          = (mapSet cert (lit "certificateId") (.str p.2),
              mapSet newState (getCertKey p.2) (p.1 ++ colon :: p.2)) := by
  refine ⟨by decide, ⟨_, updateRule_storage env target id host path data oldState newState, ?_⟩,
    ?_, ?_, ?_⟩
  · intro a b hab ha hb
    have hne : a ++ colon :: b ≠ [] := by simp
    rw [mapGet_mapSet_same, hab, if_pos hne, Split_append_sep _ _ _ ha, Split_of_not_mem _ _ hb]
    simp
  · intro v hv hne
    obtain ⟨t2, h, _, h2⟩ := updateRule_client_some_of_value env target id host path data
      oldState newState v hv hne
    exact ⟨t2, h, h2⟩
  · intro ns hns hkey
    exact ⟨_, updateRule_client_service env target id host path data oldState newState ns hns
      hkey, mapGet_mapSet_same _ _ _⟩
  · intro cert p hc h1 h2
    exact updateCert_storage_qualified oldState cert p newState hc h1 h2

/-- C12, amended, at an instance: the workload identifiers `deployment:ns1:web` and
`deployment:ns1:api`, which hold `:`, are joined with `/`; the service identifier
`ns1:web` is cut at `:`. -/
theorem C12_two_delimiters_witness :
    ∃ t1, updateRule specEnv
        (some [(lit "serviceId", .str (lit "ns1:web")), (lit "workloadIds",
          .list [.str (lit "deployment:ns1:web"), .str (lit "deployment:ns1:api")])])
        (lit "ns1:ing") (lit "a.com") (lit "/x") false [] [] []
        = some (t1, mapSet [] (stateKeyOf specEnv
            [(lit "serviceId", .str (lit "ns1:web")), (lit "workloadIds",
              .list [.str (lit "deployment:ns1:web"), .str (lit "deployment:ns1:api")])]
            (lit "ns1:ing") (lit "a.com") (lit "/x"))
            (lit "deployment:ns1:web/deployment:ns1:api")) ∧
      mapGet t1 (lit "serviceId") = some (.str (lit "web")) := by
  obtain ⟨t1, h, h2⟩ := (C12_two_delimiters specEnv
    [(lit "serviceId", .str (lit "ns1:web")), (lit "workloadIds",
      .list [.str (lit "deployment:ns1:web"), .str (lit "deployment:ns1:api")])]
    (lit "ns1:ing") (lit "a.com") (lit "/x") [] [] []).2.1
  exact ⟨t1, h, h2 (lit "ns1") (lit "web") (by decide) (by decide) (by decide)⟩

/-- C12 as stated fails: toward storage the service identifier `ns1:web` is cut at
`:`, giving `web`, while the workload identifiers `a` and `b` are joined into `a/b`,
a text that holds no `:` and that a split on `:` leaves in one piece. -/
theorem C12_counterexample :
    (updateRule specEnv
        (some [(lit "serviceId", .str (lit "ns1:web")),
          (lit "workloadIds", .list [.str (lit "a"), .str (lit "b")])])
        (lit "ns1:ing") (lit "a.com") (lit "/x") false [] [] []).map
      (fun r => (asString (mapGet r.1 (lit "serviceId")), r.2.map Prod.snd))
      = some (lit "web", [lit "a/b"]) ∧
    strings.Split (lit "a/b") colon = [lit "a/b"] ∧
    strings.Split (lit "a/b") slash = [lit "a", lit "b"] ∧
    colon ≠ slash := by
  decide

/-! ## `getServiceID` and its reference definition -/

set_option maxRecDepth 100000 in
theorem inAlphabet_eq (c : Byte) : inAlphabet c = (base64.decodeURL c).isSome := by
  have key : ∀ c : Byte, inAlphabet c = (base64.decodeURL c).isSome := by decide
  exact key c

theorem isSome_decodeQuanta_aux (n : Nat) :
    ∀ s : GoString, s.length ≤ n → (base64.decodeQuanta s).isSome = validBase64URL s := by
  induction n with
  | zero =>
    intro s hs
    have : s = [] := List.length_eq_zero.mp (Nat.le_zero.mp hs)
    subst this
    rfl
  | succ m ih =>
    intro s hs
    match s with
    | [] => rfl
    | [_] => rfl
    | [_, _] => rfl
    | [_, _, _] => rfl
    | c0 :: c1 :: c2 :: c3 :: rest =>
      have hrest := ih rest (by simp at hs; omega)
      have hpad := decodeURL_padChar
      rw [base64.decodeQuanta, validBase64URL, inAlphabet_eq c0, inAlphabet_eq c1,
        inAlphabet_eq c2, inAlphabet_eq c3]
      cases h0 : base64.decodeURL c0 with
      | none => simp
      | some d0 =>
        cases h1 : base64.decodeURL c1 with
        | none => simp
        | some d1 =>
          cases h2 : base64.decodeURL c2 with
          | none =>
            by_cases hr : rest = [] <;> by_cases hp2 : c2 = base64.padChar <;>
              by_cases hp3 : c3 = base64.padChar <;> simp [hr, hp2, hp3]
          | some d2 =>
            have hp2 : c2 ≠ base64.padChar := by
              intro h
              rw [h, hpad] at h2
              cases h2
            cases h3 : base64.decodeURL c3 with
            | none =>
              by_cases hr : rest = [] <;> by_cases hp3 : c3 = base64.padChar <;>
                simp [hr, hp2, hp3]
            | some d3 =>
              by_cases hr : rest = []
              · subst hr
                simp [base64.decodeQuanta]
              · rw [← hrest]
                cases hq : base64.decodeQuanta rest <;> simp [hr]

theorem isSome_decodeQuanta (s : GoString) :
    (base64.decodeQuanta s).isSome = validBase64URL s :=
  isSome_decodeQuanta_aux s.length s (Nat.le_refl _)

theorem DecodeString_eq (k : GoString) :
    base64.DecodeString k = base64.decodeQuanta (withoutLineBreaks k) := rfl

theorem length_md5_Sum (data : List Byte) : (md5.Sum data).length = 16 := by
  simp [md5.Sum, md5.wordBytes]

theorem length_hex (src : List Byte) : (hex.EncodeToString src).length = 2 * src.length := by
  induction src with
  | nil => rfl
  | cons b r ih =>
    simp only [hex.EncodeToString, List.length_cons, ih]
    omega

theorem hex_digit_lowercase (n : Nat) (h : n < 16) : hex.digit n ∈ lit "0123456789abcdef" := by
  have key : ∀ j : Fin 16, hex.digit j.val ∈ lit "0123456789abcdef" := by decide
  exact key ⟨n, h⟩

theorem hex_lowercase (src : List Byte) :
    ∀ c ∈ hex.EncodeToString src, c ∈ lit "0123456789abcdef" := by
  induction src with
  | nil => simp [hex.EncodeToString]
  | cons b r ih =>
    intro c hc
    simp only [hex.EncodeToString, List.mem_cons] at hc
    rcases hc with h | h | h
    · rw [h]
      exact hex_digit_lowercase _ (by omega)
    · rw [h]
      exact hex_digit_lowercase _ (by omega)
    · exact ih c h

theorem getServiceID_eq_reference (k : GoString) :
    getServiceID k = referenceServiceID (withoutLineBreaks k) := by
  unfold getServiceID referenceServiceID
  rw [DecodeString_eq, ← isSome_decodeQuanta]
  cases base64.decodeQuanta (withoutLineBreaks k) <;> simp

/-- C17, amended: `getServiceID(k)` equals the reference definition applied to `k`
without its carriage returns and line feeds, which the decoder ignores.  So it is
the empty string when that text is not valid padded URL-safe base64, and otherwise
`ingress-` followed by the 32 lowercase hexadecimal digits of the MD5 digest of the
decoded bytes, 40 characters in all; and `getServiceID(getCertKey(s))` is `ingress-`
and the digest of `s`, never empty. -/
theorem C17_getServiceID_reference (k : GoString) :
    getServiceID k = referenceServiceID (withoutLineBreaks k) ∧
    (validBase64URL (withoutLineBreaks k) = false → getServiceID k = []) ∧
    (validBase64URL (withoutLineBreaks k) = true →
      ∃ bytes, base64.DecodeString k = some bytes ∧
        getServiceID k = lit "ingress-" ++ hex.EncodeToString (md5.Sum bytes) ∧
        (hex.EncodeToString (md5.Sum bytes)).length = 32 ∧
        (∀ c ∈ hex.EncodeToString (md5.Sum bytes), c ∈ lit "0123456789abcdef") ∧
        (getServiceID k).length = 40) ∧
    ∀ s, getServiceID (getCertKey s) = lit "ingress-" ++ hex.EncodeToString (md5.Sum s) ∧
      getServiceID (getCertKey s) ≠ [] := by
  refine ⟨getServiceID_eq_reference k, ?_, ?_, ?_⟩
  · intro h
    rw [getServiceID_eq_reference, referenceServiceID, h]
    rfl
  · intro h
    rw [← isSome_decodeQuanta, ← DecodeString_eq] at h
    obtain ⟨bytes, hb⟩ := Option.isSome_iff_exists.mp h
    have hid : getServiceID k = lit "ingress-" ++ hex.EncodeToString (md5.Sum bytes) := by
      simp [getServiceID, hb]
    have hlen : (hex.EncodeToString (md5.Sum bytes)).length = 32 := by
      rw [length_hex, length_md5_Sum]
    refine ⟨bytes, hb, hid, hlen, hex_lowercase _, ?_⟩
    rw [hid, List.length_append, hlen]
    rfl
  · intro s
    have hid := getServiceID_EncodeToString s
    refine ⟨hid, ?_⟩
    unfold getCertKey
    rw [hid]
    intro h
    have hnil : lit "ingress-" = [] := (List.append_eq_nil.mp h).1
    exact absurd hnil (by decide)

/-- C17, amended, at instances: the text `Y` is not valid and gives the empty
identifier; the text `YQ==` is valid and gives an identifier of 40 characters. -/
theorem C17_getServiceID_reference_witness :
    getServiceID (lit "Y") = [] ∧ (getServiceID (lit "YQ==")).length = 40 :=
  ⟨(C17_getServiceID_reference (lit "Y")).2.1 (by decide),
    ((C17_getServiceID_reference (lit "YQ==")).2.2.1 (by decide)).elim
      fun _ h => h.2.2.2.2⟩

set_option maxRecDepth 100000 in
/-- C17 as stated fails: the text `YQ==` followed by a line feed is not valid padded
URL-safe base64, yet the decoder passes over the line feed and `getServiceID` gives
`ingress-` and the MD5 digest of `a`, not the empty string. -/
theorem C17_counterexample :
    validBase64URL (lit "YQ==\n") = false ∧
    getServiceID (lit "YQ==\n") = lit "ingress-0cc175b9c0f1b6a831c399e269772661" := by
  decide

/-! ## The State Map that a run toward storage persists -/

theorem formatData_storage_persisted (env : Env) (henv : env.keepsCodecFields)
    (hperm : ∀ l, (env.rangeOrder l).Perm l) (id : GoString) (data : Obj)
    (hwf : wellFormedTargets data)
    (hann : mapGet data (lit "annotations") = none ∨
      ∃ a, mapGet data (lit "annotations") = some (.map a)) :
    ∃ d1, formatData env id data false = some d1 ∧
      values.GetValue d1 [lit "annotations", ingressStateAnnotation]
        = some (.str (json.Marshal (storedState env id data))) := by
  obtain ⟨dA, hA, hAframe, _, _⟩ :=
    defaultStep_storage_trace env id data (getState data) hwf.1
  have hAr : mapGet dA (lit "rules") = mapGet data (lit "rules") := hAframe _ (by decide)
  have hAsome : ∀ e ∈ (getPaths dA).getD [], (targetAt dA e.2).isSome = true := by
    intro e he
    rw [getPaths_congr dA data hAr] at he
    rw [targetAt_congr dA data hAr]
    exact hwf.2 e he
  obtain ⟨dB, hB, _, hBframe, _⟩ := rulesStep_storage_trace env hperm id (getState data)
    dA (writeAll (defaultEntry env id data) []) hAsome
  have hentry : ruleEntry env id dA = ruleEntry env id data := by
    funext e
    simp only [ruleEntry, targetAt_congr dA data hAr]
  have hstate : (updateCerts dB false (getState data)
      (writeAll ((env.rangeOrder ((getPaths dA).getD [])).map (ruleEntry env id dA))
        (writeAll (defaultEntry env id data) []))).2 = storedState env id data := by
    rw [updateCerts_storage_writes, hentry, getPaths_congr dA data hAr,
      certEntries_congr dB data (by rw [hBframe _ (by decide), hAframe _ (by decide)]),
      storedState, writeAll_append, writeAll_append]
  generalize writeAll ((env.rangeOrder ((getPaths dA).getD [])).map (ruleEntry env id dA))
    (writeAll (defaultEntry env id data) []) = nB at hB hstate
  have hfd : formatData env id data false
      = some (env.SetPublicEnpointsFields (setState (updateCerts dB false (getState data) nB).1
          (updateCerts dB false (getState data) nB).2)) := by
    simp only [formatData, hA, hB]
  refine ⟨_, hfd, ?_⟩
  have ha : mapGet (updateCerts dB false (getState data) nB).1 (lit "annotations")
      = mapGet data (lit "annotations") := by
    rw [mapGet_updateCerts _ _ _ _ _ (by decide), hBframe _ (by decide), hAframe _ (by decide)]
  rw [GetValue_pair_congr _ _ _ _ (henv _ (lit "annotations") (by simp)), hstate, setState]
  exact GetValue_PutValue_pair _ _ _ _ (by rw [ha]; exact hann)

theorem storedState_empty (env : Env) (hperm : ∀ l, (env.rangeOrder l).Perm l) (id : GoString)
    (data : Obj)
    (hdef : mapGet data (lit "defaultBackend") = none ∨
      mapGet data (lit "defaultBackend") = some .null)
    (hpaths : (getPaths data).getD [] = []) (hcerts : certEntries data = []) :
    storedState env id data = [] := by
  have hd : defaultEntry env id data = [] := by
    rcases hdef with h | h <;> simp [defaultEntry, defaultTarget, h]
  simp [storedState, hd, hpaths, hcerts, rangeOrder_nil env hperm, writeAll]

/-- C11, amended: on a resource representation whose `defaultBackend` is absent or
nil, for which `getPaths` files no target (rules absent, empty or malformed), whose
`tls` gives no certificate entry, and whose `annotations` field is absent or a map,
`formatData` toward storage completes and leaves the text of the empty JSON object
under `annotations["field.cattle.io/ingressState"]`.  (`SetPublicEnpointsFields`
leaves the codec's fields alone.) -/
theorem C11_empty_resource (env : Env) (henv : env.keepsCodecFields)
    (hperm : ∀ l, (env.rangeOrder l).Perm l) (id : GoString) (data : Obj)
    (hdef : mapGet data (lit "defaultBackend") = none ∨
      mapGet data (lit "defaultBackend") = some .null)
    (hpaths : (getPaths data).getD [] = []) (hcerts : certEntries data = [])
    (hann : mapGet data (lit "annotations") = none ∨
      ∃ a, mapGet data (lit "annotations") = some (.map a)) :
    ∃ d1, formatData env id data false = some d1 ∧
      values.GetValue d1 [lit "annotations", ingressStateAnnotation]
        = some (.str (lit "\x7b\x7d")) := by
  have hwf : wellFormedTargets data := by
    refine ⟨?_, ?_⟩
    · rcases hdef with h | h
      · exact Or.inl h
      · exact Or.inr (Or.inl h)
    · intro e he
      rw [hpaths] at he
      cases he
  obtain ⟨d1, hfd, hget⟩ := formatData_storage_persisted env henv hperm id data hwf hann
  rw [storedState_empty env hperm id data hdef hpaths hcerts] at hget
  exact ⟨d1, hfd, hget⟩

/-- C11, amended, at an instance: a resource whose `rules` field is a string, whose
`tls` list is empty and whose annotations hold a label. -/
theorem C11_empty_resource_witness :
    ∃ d1, formatData specEnv (lit "ns1:ing")
        [(lit "rules", .str (lit "x")), (lit "tls", .list []),
          (lit "annotations", .map [(lit "a", .str (lit "b"))])] false = some d1 ∧
      values.GetValue d1 [lit "annotations", ingressStateAnnotation]
        = some (.str (lit "\x7b\x7d")) :=
  C11_empty_resource specEnv specEnv_keepsCodecFields (fun l => List.Perm.refl l) (lit "ns1:ing")
    [(lit "rules", .str (lit "x")), (lit "tls", .list []),
      (lit "annotations", .map [(lit "a", .str (lit "b"))])]
    (Or.inl rfl) rfl rfl (Or.inr ⟨_, rfl⟩)

/-- C11 as stated fails: the resource has no default backend, no rules and no
certificates, and its `annotations` field is nil; `formatData` toward storage
completes, and the result has no state annotation. -/
theorem C11_counterexample :
    defaultTarget [(lit "annotations", .null)] = none ∧
    getPaths [(lit "annotations", .null)] = none ∧
    certEntries [(lit "annotations", .null)] = [] ∧
    (formatData specEnv (lit "ns1:ing") [(lit "annotations", .null)] false).map stateAnnotation
      = some none :=
  ⟨rfl, rfl, rfl, by decide⟩

/-! ## `getPaths` files every target whose host and path no other rule repeats -/

theorem mem_putPath_self (acc : List (hostPath × Place)) (hp : hostPath) (pl : Place) :
    (hp, pl) ∈ putPath acc hp pl := by
  induction acc with
  | nil => simp [putPath]
  | cons x r ih =>
    obtain ⟨hp1, pl1⟩ := x
    unfold putPath
    split
    · exact List.mem_cons_self _ _
    · exact List.mem_cons_of_mem _ ih

theorem mem_putPath_of_ne (acc : List (hostPath × Place)) (hp : hostPath) (pl : Place)
    (e : hostPath × Place) (he : e ∈ acc) (hne : e.1 ≠ hp) : e ∈ putPath acc hp pl := by
  induction acc with
  | nil => cases he
  | cons x r ih =>
    obtain ⟨hp1, pl1⟩ := x
    unfold putPath
    split
    · rename_i heq
      rcases List.mem_cons.mp he with h | h
      · rw [h] at hne
        exact absurd heq hne
      · exact List.mem_cons_of_mem _ h
    · rcases List.mem_cons.mp he with h | h
      · rw [h]
        exact List.mem_cons_self _ _
      · exact List.mem_cons_of_mem _ (ih h)

theorem mem_putPath_keep (acc : List (hostPath × Place)) (hp : hostPath) (pl : Place)
    (e : hostPath × Place) (he : e ∈ acc) (h : hp = e.1 → pl = e.2) :
    e ∈ putPath acc hp pl := by
  by_cases heq : e.1 = hp
  · have hpl := h heq.symm
    have : e = (hp, pl) := Prod.ext heq hpl.symm
    rw [this]
    exact mem_putPath_self _ _ _
  · exact mem_putPath_of_ne _ _ _ _ he heq

theorem addPaths_keep (host : GoString) (i : Nat) (ks : List GoString)
    (acc : List (hostPath × Place)) (e : hostPath × Place) (he : e ∈ acc)
    (h : ∀ p ∈ ks, ({ host := host, path := p } : hostPath) = e.1 →
      ({ rule := i, path := p } : Place) = e.2) :
    e ∈ addPaths host i ks acc := by
  induction ks generalizing acc with
  | nil => exact he
  | cons p rest ih =>
    rw [addPaths]
    exact ih _ (mem_putPath_keep _ _ _ _ he (h p (List.mem_cons_self _ _)))
      fun q hq => h q (List.mem_cons_of_mem _ hq)

theorem addPaths_files (host : GoString) (i : Nat) (ks : List GoString)
    (acc : List (hostPath × Place)) (p : GoString) (hp : p ∈ ks) :
    (({ host := host, path := p } : hostPath), ({ rule := i, path := p } : Place))
      ∈ addPaths host i ks acc := by
  induction ks generalizing acc with
  | nil => cases hp
  | cons q rest ih =>
    rw [addPaths]
    by_cases hmem : p ∈ rest
    · exact ih _ hmem
    · have hq : p = q := by
        rcases List.mem_cons.mp hp with h | h
        · exact h
        · exact absurd h hmem
      subst hq
      refine addPaths_keep _ _ _ _ _ (mem_putPath_self _ _ _) ?_
      intro q hq heq
      have : q = p := congrArg hostPath.path heq
      rw [this]

theorem ruleTargets_cons (r : Obj) (rest : List Obj) (i : Nat) (e : hostPath × Place) :
    e ∈ ruleTargets (r :: rest) i ↔
      (∃ sh, ruleShape r = some sh ∧ ∃ p ∈ sh.2,
        e = (({ host := sh.1, path := p } : hostPath), ({ rule := i, path := p } : Place))) ∨
      e ∈ ruleTargets rest (i + 1) := by
  rw [ruleTargets, List.mem_append]
  cases hs : ruleShape r with
  | none => simp
  | some sh =>
    simp only [List.mem_map, Option.some.injEq, exists_eq_left']
    constructor
    · rintro (⟨p, hp, rfl⟩ | h)
      · exact Or.inl ⟨p, hp, rfl⟩
      · exact Or.inr h
    · rintro (⟨p, hp, rfl⟩ | h)
      · exact Or.inl ⟨p, hp, rfl⟩
      · exact Or.inr h

theorem rulePaths_keep (R : List Obj) (i : Nat) (acc : List (hostPath × Place))
    (e : hostPath × Place) (he : e ∈ acc)
    (h : ∀ e1 ∈ ruleTargets R i, e1.1 = e.1 → e1.2 = e.2) : e ∈ rulePaths R i acc := by
  induction R generalizing i acc with
  | nil => exact he
  | cons r rest ih =>
    rw [rulePaths_cons_shape]
    cases hs : ruleShape r with
    | none =>
      exact ih _ _ he fun e1 h1 => h e1 ((ruleTargets_cons r rest i e1).mpr (Or.inr h1))
    | some sh =>
      refine ih _ _ (addPaths_keep _ _ _ _ _ he ?_)
        fun e1 h1 => h e1 ((ruleTargets_cons r rest i e1).mpr (Or.inr h1))
      intro p hp heq
      exact h _ ((ruleTargets_cons r rest i _).mpr (Or.inl ⟨sh, hs, p, hp, rfl⟩)) heq

theorem rulePaths_files (R : List Obj) (i : Nat) (acc : List (hostPath × Place))
    (e : hostPath × Place) (he : e ∈ ruleTargets R i)
    (h : ∀ e1 ∈ ruleTargets R i, e1.1 = e.1 → e1.2 = e.2) : e ∈ rulePaths R i acc := by
  induction R generalizing i acc with
  | nil => cases he
  | cons r rest ih =>
    have hrest : ∀ e1 ∈ ruleTargets rest (i + 1), e1.1 = e.1 → e1.2 = e.2 :=
      fun e1 h1 => h e1 ((ruleTargets_cons r rest i e1).mpr (Or.inr h1))
    rw [rulePaths_cons_shape]
    rcases (ruleTargets_cons r rest i e).mp he with ⟨sh, hs, p, hp, rfl⟩ | h2
    · rw [hs]
      exact rulePaths_keep _ _ _ _ (addPaths_files _ _ _ _ p hp) hrest
    · cases hs : ruleShape r with
      | none => exact ih _ _ h2 hrest
      | some sh => exact ih _ _ h2 hrest

theorem getPaths_files (data : Obj) (e : hostPath × Place) (he : e ∈ allTargets data)
    (h : ∀ e1 ∈ allTargets data, e1.1 = e.1 → e1.2 = e.2) : e ∈ (getPaths data).getD [] := by
  unfold allTargets at he h
  unfold getPaths
  cases hv : values.GetValue data [lit "rules"] with
  | none =>
    rw [hv] at he
    cases he
  | some v =>
    rw [hv] at he h
    exact rulePaths_files _ _ _ e he h

/-- C18, amended: on a resource representation whose rewritten targets are maps,
whose `annotations` field is absent or a map, in which no two target records of the
rules have the same host text and path, and whose targets have pairwise distinct
StateKeys that are also distinct from the keys of its certificates, `formatData`
toward storage completes and leaves under the state annotation the JSON text of a
State Map that holds, for the default backend and for every target record
`rules[i].paths[p]`, the StateKey derived from `id`, the host text of the rule (none
and `/` for the default backend), `p` and the text of the `targetPort` of the target,
mapped to the workload identifiers of the target joined by `/`.  The texts are those
of `convert.ToString` and `convert.ToStringSlice`, which trim white space at either
end: the identifiers are the `workloadIds` themselves when these are a list of strings
with no white space at either end.  `getState` reads that State Map back when its
keys and values are well-formed UTF-8.  (`SetPublicEnpointsFields` leaves the codec's
fields alone and `range` visits every entry once.) -/
theorem C18_every_target_recorded (env : Env) (henv : env.keepsCodecFields)
    (hperm : ∀ l, (env.rangeOrder l).Perm l) (id : GoString) (data : Obj)
    (hwf : wellFormedTargets data)
    (hann : mapGet data (lit "annotations") = none ∨
      ∃ a, mapGet data (lit "annotations") = some (.map a))
    (hdistinct : ∀ e1 ∈ allTargets data, ∀ e2 ∈ allTargets data, e1.1 = e2.1 → e1.2 = e2.2)
    (hkeys : (targetKeys env id data).Nodup)
    (hcert : ∀ k ∈ targetKeys env id data, k ∉ (certEntries data).map Prod.fst) :
    ∃ d1, formatData env id data false = some d1 ∧
      values.GetValue d1 [lit "annotations", ingressStateAnnotation]
        = some (.str (json.Marshal (storedState env id data))) ∧
      ((∀ e ∈ storedState env id data,
          utf8.ValidString e.1 = true ∧ utf8.ValidString e.2 = true) →
        ∀ k, mapGet (getState d1) k = mapGet (storedState env id data) k) ∧
      (∀ t, defaultTarget data = some t →
        mapGet (storedState env id data) (stateKeyOf env t id [] (lit "/"))
            = some (strings.Join (workloadIDsOf t) slash) ∧
          ∀ ws, holdsStrings (mapGet t (lit "workloadIds")) ws →
            (∀ w ∈ ws, strings.TrimSpace w = w) →
            mapGet (storedState env id data) (stateKeyOf env t id [] (lit "/"))
              = some (strings.Join ws slash)) ∧
      ∀ e ∈ allTargets data, ∀ t, targetAt data e.2 = some t →
        mapGet (storedState env id data) (stateKeyOf env t id e.1.host e.1.path)
            = some (strings.Join (workloadIDsOf t) slash) ∧
          ∀ ws, holdsStrings (mapGet t (lit "workloadIds")) ws →
            (∀ w ∈ ws, strings.TrimSpace w = w) →
            mapGet (storedState env id data) (stateKeyOf env t id e.1.host e.1.path)
              = some (strings.Join ws slash) := by
  obtain ⟨d1, hfd, hget⟩ := formatData_storage_persisted env henv hperm id data hwf hann
  refine ⟨d1, hfd, hget, ?_, ?_, ?_⟩
  · intro hvalid k
    unfold getState
    rw [hget]
    simp only []
    rw [ToString_str, TrimSpace_Marshal,
      mapGet_Unmarshal_Marshal _ (fun e he => (hvalid e he).1)
        (keys_nodup_writeAll _ [] (by simp)) k]
    cases hm : mapGet (storedState env id data) k with
    | none => rfl
    | some v =>
      rw [Option.map_some', coerced_of_valid v (hvalid _ (mem_of_mapGet_eq_some _ k v hm)).2]
  · intro t ht
    have hmem : (stateKeyOf env t id [] (lit "/"), strings.Join (workloadIDsOf t) slash)
        ∈ defaultEntry env id data ++ ((getPaths data).getD []).map (ruleEntry env id data) := by
      simp [defaultEntry, ht]
    have hlook := storedState_lookup env hperm id data hkeys hcert _ hmem
    exact ⟨hlook, fun ws hholds htrim => Join_of_holds t ws _ hlook hholds htrim⟩
  · intro e he t ht
    have hfiled : e ∈ (getPaths data).getD [] :=
      getPaths_files data e he fun e1 h1 => hdistinct e1 h1 e he
    have hte : (targetAt data e.2).getD [] = t := by rw [ht]; rfl
    have hmem : ruleEntry env id data e
        ∈ defaultEntry env id data ++ ((getPaths data).getD []).map (ruleEntry env id data) :=
      List.mem_append_right _ (List.mem_map.mpr ⟨e, hfiled, rfl⟩)
    have hlook := storedState_lookup env hperm id data hkeys hcert _ hmem
    simp only [ruleEntry, hte] at hlook
    exact ⟨hlook, fun ws hholds htrim => Join_of_holds t ws _ hlook hholds htrim⟩

set_option maxRecDepth 100000 in
/-- C18, amended, at an instance: `exampleIngress`, with a default backend, one rule
and one certificate. -/
theorem C18_every_target_recorded_witness :
    ∃ d1, formatData specEnv (lit "ns1:ing") exampleIngress false = some d1 ∧
      values.GetValue d1 [lit "annotations", ingressStateAnnotation]
        = some (.str (json.Marshal (storedState specEnv (lit "ns1:ing") exampleIngress))) ∧
      ∀ e ∈ allTargets exampleIngress, ∀ t, targetAt exampleIngress e.2 = some t →
        mapGet (storedState specEnv (lit "ns1:ing") exampleIngress)
            (stateKeyOf specEnv t (lit "ns1:ing") e.1.host e.1.path)
          = some (strings.Join (workloadIDsOf t) slash) :=
  (C18_every_target_recorded specEnv specEnv_keepsCodecFields (fun l => List.Perm.refl l)
    (lit "ns1:ing") exampleIngress ⟨Or.inr (Or.inr rfl), by decide⟩ (Or.inl rfl) (by decide)
    (by decide) (by decide)).elim fun d1 h =>
      ⟨d1, h.1, h.2.1, fun e he t ht => (h.2.2.2.2 e he t ht).1⟩

set_option maxRecDepth 100000 in
/-- C18 as stated fails.  In `repeatedPathIngress` two rules have the host `a.com` and
the path `/x`; `getPaths` files one target for the two, the second, and after
`formatData` toward storage the State Map holds one entry, with `w2`: the StateKey of
the first target, with port 80, is not in it.  The same happens in
`paddedHostIngress`, whose two rules have the hosts `a.com` and ` a.com`, one host
text once trimmed.  In `collidingIngress` the default backend and the rule have the
same StateKey, and the entry holds `b`, the workload of the rule, not `a`.  In
`awkwardIngress` the workload ` a ` of the first target is recorded as `a`, and the
entry of the third target holds the identifier of the certificate, not `w`. -/
theorem C18_counterexample :
    (targetAt repeatedPathIngress { rule := 0, path := lit "/x" }).map
        (fun t => (convert.ToString ((mapGet t (lit "targetPort")).getD .null), workloadIDsOf t))
      = some (lit "80", [lit "w1"]) ∧
    (formatData specEnv (lit "ns1:ing") repeatedPathIngress false).map
        (fun d1 => (mapGet (getState d1)
          (specEnv.GetStateKey (lit "ing") (lit "ns1") (lit "a.com") (lit "/x") (lit "80")),
          (getState d1).map Prod.snd))
      = some (none, [lit "w2"]) ∧
    rawIdsAt paddedHostIngress { rule := 0, path := lit "/x" } = some [lit "w1"] ∧
    (formatData specEnv (lit "ns1:ing") paddedHostIngress false).map
        (fun d1 => (getState d1).map Prod.snd) = some [lit "w2"] ∧
    (defaultTarget collidingIngress).map workloadIDsOf = some [lit "a"] ∧
    (formatData specEnv (lit "ns1:ing") collidingIngress false).map
        (fun d1 => mapGet (getState d1)
          (specEnv.GetStateKey (lit "ing") (lit "ns1") [] (lit "/") (lit "80")))
      = some (some (lit "b")) ∧
    [rawIdsAt awkwardIngress { rule := 0, path := lit "/p" },
      rawIdsAt awkwardIngress { rule := 2, path := lit "/d" }]
      = [some [lit " a "], some [lit "w"]] ∧
    (formatData specEnv (lit "ns1:ing") awkwardIngress false).map
        (fun d1 => [mapGet (getState d1)
            (specEnv.GetStateKey (lit "ing") (lit "ns1") (lit "a.com") (lit "/p") (lit "80")),
          mapGet (getState d1)
            (specEnv.GetStateKey (lit "ing") (lit "ns1") (lit "d.com") (lit "/d") (lit "80"))])
      = some [some (lit "a"), some (lit "x:ing/ns1/d.com//d/80")] := by
  decide

/-! ## The default backend and a rule without host at `/` -/

theorem mapGet_writeAll_map_unique {α : Type} (f : α → GoString × GoString) (l : List α)
    (s : StateMap) (a : α) (ha : a ∈ l) (hu : ∀ b ∈ l, b ≠ a → (f b).1 ≠ (f a).1) :
    mapGet (writeAll (l.map f) s) (f a).1 = some (f a).2 := by
  induction l generalizing s with
  | nil => cases ha
  | cons b r ih =>
    rw [List.map, writeAll]
    by_cases hr : a ∈ r
    · exact ih _ hr fun c hc hne => hu c (List.mem_cons_of_mem _ hc) hne
    · have hab : a = b := by
        rcases List.mem_cons.mp ha with h | h
        · exact h
        · exact absurd h hr
      subst hab
      have hnot : (f a).1 ∉ (r.map f).map Prod.fst := by
        intro hmem
        obtain ⟨x, hx, hk⟩ := List.mem_map.mp hmem
        obtain ⟨c, hc, rfl⟩ := List.mem_map.mp hx
        have hne : c ≠ a := fun h => hr (h ▸ hc)
        exact hu c (List.mem_cons_of_mem _ hc) hne hk
      rw [mapGet_writeAll_of_not_mem _ _ _ hnot, mapGet_mapSet_same]

theorem stateKeyOf_eq_of_port (env : Env) (t d : Obj) (id host path : GoString)
    (h : portOf t = portOf d) : stateKeyOf env t id host path = stateKeyOf env d id host path := by
  unfold portOf at h
  simp only [stateKeyOf, h]

/-- C20, amended: when the default backend is a map and `getPaths` files, under no
host and the path `/`, a target whose `targetPort` reads as the default backend's,
`formatData` derives one StateKey for the two, the key under which the entry of the
default backend is written first.  When moreover the rewritten targets
are maps, the `annotations` field is absent or a map, and no other filed target and
no certificate has that key, `formatData` toward storage completes and leaves under
the state annotation the JSON text of a State Map whose keys are distinct and that
holds under that key the workload identifiers of the filed target joined by `/`: its
`workloadIds` as `convert.ToStringSlice` reads them, which are the `workloadIds`
themselves when these are a list of strings with no white space at either end.
(`SetPublicEnpointsFields` leaves the codec's fields alone and `range` visits every
entry once.) -/
theorem C20_default_and_root_rule (env : Env) (henv : env.keepsCodecFields)
    (hperm : ∀ l, (env.rangeOrder l).Perm l) (id : GoString) (data : Obj)
    (hwf : wellFormedTargets data)
    (hann : mapGet data (lit "annotations") = none ∨
      ∃ a, mapGet data (lit "annotations") = some (.map a))
    (d : Obj) (hd : defaultTarget data = some d)
    (e : hostPath × Place) (he : e ∈ (getPaths data).getD [])
    (hroot : e.1 = { host := [], path := lit "/" })
    (t : Obj) (ht : targetAt data e.2 = some t) (hport : portOf t = portOf d)
    (hother : ∀ e1 ∈ (getPaths data).getD [], e1 ≠ e →
      (ruleEntry env id data e1).1 ≠ stateKeyOf env d id [] (lit "/"))
    (hcert : stateKeyOf env d id [] (lit "/") ∉ (certEntries data).map Prod.fst) :
    stateKeyOf env t id e.1.host e.1.path = stateKeyOf env d id [] (lit "/") ∧
    (defaultEntry env id data).map Prod.fst = [stateKeyOf env d id [] (lit "/")] ∧
    ∃ d1, formatData env id data false = some d1 ∧
      values.GetValue d1 [lit "annotations", ingressStateAnnotation]
        = some (.str (json.Marshal (storedState env id data))) ∧
      ((storedState env id data).map Prod.fst).Nodup ∧
      mapGet (storedState env id data) (stateKeyOf env d id [] (lit "/"))
        = some (strings.Join (workloadIDsOf t) slash) ∧
      ∀ ws, holdsStrings (mapGet t (lit "workloadIds")) ws →
        (∀ w ∈ ws, strings.TrimSpace w = w) →
        mapGet (storedState env id data) (stateKeyOf env d id [] (lit "/"))
          = some (strings.Join ws slash) := by
  have hkey : stateKeyOf env t id e.1.host e.1.path = stateKeyOf env d id [] (lit "/") := by
    rw [hroot]
    exact stateKeyOf_eq_of_port env t d id [] (lit "/") hport
  obtain ⟨d1, hfd, hget⟩ := formatData_storage_persisted env henv hperm id data hwf hann
  have hgoal : mapGet (storedState env id data) (stateKeyOf env d id [] (lit "/"))
      = some (strings.Join (workloadIDsOf t) slash) := ?_
  · exact ⟨hkey, by simp [defaultEntry, hd], d1, hfd, hget,
      keys_nodup_writeAll _ [] (by simp), hgoal,
      fun ws hholds htrim => Join_of_holds t ws _ hgoal hholds htrim⟩
  have hte : (targetAt data e.2).getD [] = t := by rw [ht]; rfl
  have hentry : ruleEntry env id data e
      = (stateKeyOf env d id [] (lit "/"), strings.Join (workloadIDsOf t) slash) := by
    simp only [ruleEntry, hte, hkey]
  have hmem : e ∈ env.rangeOrder ((getPaths data).getD []) := (hperm _).symm.subset he
  have hlook := mapGet_writeAll_map_unique (ruleEntry env id data)
    (env.rangeOrder ((getPaths data).getD [])) (writeAll (defaultEntry env id data) []) e hmem
    (fun b hb hne => by
      rw [hentry]
      exact hother b ((hperm _).subset hb) hne)
  rw [hentry] at hlook
  rw [storedState, writeAll_append, mapGet_writeAll_of_not_mem _ _ _ hcert, writeAll_append]
  exact hlook

set_option maxRecDepth 100000 in
/-- C20, amended, at an instance: `collidingIngress`, whose default backend, bound to
`a`, and whose rule without host at `/`, bound to `b`, have the port 80. -/
theorem C20_default_and_root_rule_witness :
    ∃ d1, formatData specEnv (lit "ns1:ing") collidingIngress false = some d1 ∧
      mapGet (storedState specEnv (lit "ns1:ing") collidingIngress)
          (stateKeyOf specEnv [(lit "targetPort", .int 80),
            (lit "workloadIds", .list [.str (lit "a")])] (lit "ns1:ing") [] (lit "/"))
        = some (lit "b") :=
  (C20_default_and_root_rule specEnv specEnv_keepsCodecFields (fun l => List.Perm.refl l)
    (lit "ns1:ing") collidingIngress ⟨Or.inr (Or.inr rfl), by decide⟩ (Or.inl rfl)
    [(lit "targetPort", .int 80), (lit "workloadIds", .list [.str (lit "a")])] rfl
    ({ host := [], path := lit "/" }, { rule := 0, path := lit "/" }) (by decide) rfl
    [(lit "targetPort", .int 80), (lit "workloadIds", .list [.str (lit "b")])] rfl
    (by decide) (by decide) (by decide)).2.2.elim fun d1 h => ⟨d1, h.1, h.2.2.2.1⟩

set_option maxRecDepth 100000 in
/-- C20 as stated fails.  In `doubleRootIngress` the first rule has no host, the path
`/` and the port of the default backend, and is bound to `b`; a second rule of the
same host and path is bound to `c`.  `getPaths` files one target for the two rules,
and after `formatData` toward storage the one entry of the State Map holds `c`, not
the `b` of the first rule.  In `paddedRootIngress` the rule without host at `/` is
bound to ` b `, with a space at either end, and the entry holds `b`. -/
theorem C20_counterexample :
    (defaultTarget doubleRootIngress).map portOf = some (lit "80") ∧
    (targetAt doubleRootIngress { rule := 0, path := lit "/" }).map
        (fun t => (portOf t, workloadIDsOf t)) = some (lit "80", [lit "b"]) ∧
    (formatData specEnv (lit "ns1:ing") doubleRootIngress false).map
        (fun d1 => (getState d1).map Prod.snd) = some [lit "c"] ∧
    (defaultTarget paddedRootIngress).map portOf = some (lit "80") ∧
    (targetAt paddedRootIngress { rule := 0, path := lit "/" }).map portOf = some (lit "80") ∧
    rawIdsAt paddedRootIngress { rule := 0, path := lit "/" } = some [lit " b "] ∧
    (formatData specEnv (lit "ns1:ing") paddedRootIngress false).map
        (fun d1 => (getState d1).map Prod.snd) = some [lit "b"] := by
  decide

end Ingress
